import Mathlib

/-! # Equalizer (`equalizer.c`): band map, bin ranges, spectral filter, visualiser

A shallow embedding of the numeric core of `equalizer.c`.

* Integer code (`initialize_bar_to_range_map`, the frame cursor of `main`) is
  embedded over `ℕ` and is executable.
* C `float`/`double` values are embedded as `CFloat`: NaN, the two infinities,
  or a finite value, which carries the real number that is stored.  The special
  values follow IEEE 754.  Every operation that C evaluates in `float`, and
  every store of a `double` into a `float` object, rounds to binary32 (`r32`:
  nearest, ties to even, subnormals, overflow to an infinity).  Every operation
  that C evaluates in `double` rounds to binary64 (`r64`) in the same way.  The
  library functions `pow`, `log2` and `log10`, whose last bit the C standard
  leaves to the library, are modelled as returning the `double` nearest to the
  exact value.  Zero is unsigned (it behaves as `+0`), and no two operations
  are fused.
* The FFTW transforms are library code; the functions that use them take the
  transform (or the spectrum it produced) as an argument.
* The macros `NUM_BARS` and `NUM_RANGES` are arguments of the functions whose
  properties are stated for every bar and range count.
-/

namespace Equalizer

/-! ## Constants -/

/-- The macro `BUFFER_SIZE`. -/
def BUFFER_SIZE : ℕ := 1024

/-- The macro `NUM_BARS`. -/
def NUM_BARS : ℕ := 32

/-- The macro `NUM_RANGES`. -/
def NUM_RANGES : ℕ := 8

/-! ## Band mapper: `initialize_bar_to_range_map` -/

/-- The global `int bar_to_range_map[NUM_BARS]` before initialisation (zeroed). -/
def bar_to_range_map_init (num_bars : ℕ) : List ℕ := List.replicate num_bars 0

/-- The function `initialize_bar_to_range_map`, with the two macros as arguments.
`none` stands for an integer division by zero. -/
def initialize_bar_to_range_map (num_bars num_ranges : ℕ) (bar_to_range_map : List ℕ) :
    Option (List ℕ) :=
  if num_ranges = 0 then none
  else
    let ranges_per_bar := num_bars / num_ranges
    (List.range num_bars).foldlM
      (fun m i => if ranges_per_bar = 0 then none else some (m.set i (i / ranges_per_bar)))
      bar_to_range_map

/-! ## Frame scheduler: the visualisation loop of `main` -/

/-- The end of one loop iteration of `main`: `index += BUFFER_SIZE;
if (index >= audio_data_size) index = 0;`.  The `int index` stays below
`audio_data_size + BUFFER_SIZE`, so `ℕ` is exact for buffers of fewer than
`2^31 - 1024` samples. -/
def advance_index (audio_data_size index : ℕ) : ℕ :=
  let index := index + BUFFER_SIZE
  if index ≥ audio_data_size then 0 else index

/-- The value of `index` at the start of tick `t` (it starts at `0`). -/
def cursor (audio_data_size : ℕ) : ℕ → ℕ
  | 0 => 0
  | t + 1 => advance_index audio_data_size (cursor audio_data_size t)

/-- The sample indices of `audio_data` that one tick hands to the transform:
`visualize_equalizer(audio_data + index, BUFFER_SIZE)` reads `BUFFER_SIZE`
consecutive samples starting at `index`. -/
def frame_indices (index : ℕ) : List ℕ := List.range' index BUFFER_SIZE

/-- The frame read by one tick, `none` when an index lies outside the buffer. -/
def read_frame {α : Type} (audio_data : List α) (index : ℕ) : Option (List α) :=
  if ∀ j ∈ frame_indices index, j < audio_data.length then
    some ((audio_data.drop index).take BUFFER_SIZE)
  else none

/-! ## Floating-point values -/

/-- A C floating-point value. -/
inductive CFloat where
  | nan : CFloat
  | ninf : CFloat
  | pinf : CFloat
  | fin (x : ℝ) : CFloat

namespace CFloat

noncomputable section

open Classical

/-- Addition. -/
def add : CFloat → CFloat → CFloat
  | nan, _ => nan
  | _, nan => nan
  | pinf, ninf => nan
  | ninf, pinf => nan
  | pinf, _ => pinf
  | _, pinf => pinf
  | ninf, _ => ninf
  | _, ninf => ninf
  | fin x, fin y => fin (x + y)

/-- Negation. -/
def neg : CFloat → CFloat
  | nan => nan
  | ninf => pinf
  | pinf => ninf
  | fin x => fin (-x)

/-- Subtraction. -/
def sub (a b : CFloat) : CFloat := add a (neg b)

/-- An infinity of the given sign. -/
def inf_of_sign (positive : Bool) : CFloat := if positive then pinf else ninf

/-- Multiplication: `0 * inf` is NaN. -/
def mul : CFloat → CFloat → CFloat
  | nan, _ => nan
  | _, nan => nan
  | pinf, pinf => pinf
  | pinf, ninf => ninf
  | ninf, pinf => ninf
  | ninf, ninf => pinf
  | pinf, fin y => if y = 0 then nan else inf_of_sign (decide (0 < y))
  | ninf, fin y => if y = 0 then nan else inf_of_sign (decide (y < 0))
  | fin x, pinf => if x = 0 then nan else inf_of_sign (decide (0 < x))
  | fin x, ninf => if x = 0 then nan else inf_of_sign (decide (x < 0))
  | fin x, fin y => fin (x * y)

/-- Division: `0 / 0` and `inf / inf` are NaN, `x / 0` is an infinity for
`x ≠ 0`. -/
def div : CFloat → CFloat → CFloat
  | nan, _ => nan
  | _, nan => nan
  | pinf, pinf => nan
  | pinf, ninf => nan
  | ninf, pinf => nan
  | ninf, ninf => nan
  | pinf, fin y => inf_of_sign (decide (0 ≤ y))
  | ninf, fin y => inf_of_sign (decide (y < 0))
  | fin _, pinf => fin 0
  | fin _, ninf => fin 0
  | fin x, fin y =>
    if y = 0 then (if x = 0 then nan else inf_of_sign (decide (0 < x))) else fin (x / y)

instance : Add CFloat := ⟨add⟩
instance : Sub CFloat := ⟨sub⟩
instance : Mul CFloat := ⟨mul⟩
instance : Div CFloat := ⟨div⟩

/-- The comparison `a <= b`; false when an operand is NaN. -/
def le : CFloat → CFloat → Prop
  | nan, _ => False
  | _, nan => False
  | ninf, _ => True
  | _, pinf => True
  | pinf, _ => False
  | _, ninf => False
  | fin x, fin y => x ≤ y

/-- The comparison `a < b`; false when an operand is NaN. -/
def lt : CFloat → CFloat → Prop
  | nan, _ => False
  | _, nan => False
  | pinf, _ => False
  | _, ninf => False
  | ninf, _ => True
  | _, pinf => True
  | fin x, fin y => x < y

/-- The comparison `a >= b`. -/
def ge (a b : CFloat) : Prop := le b a

/-- The comparison `a > b`. -/
def gt (a b : CFloat) : Prop := lt b a

/-- The function `sqrt` of libm. -/
def sqrt : CFloat → CFloat
  | nan => nan
  | ninf => nan
  | pinf => pinf
  | fin x => if x < 0 then nan else fin (Real.sqrt x)

/-- The logarithm to base `b`, for `log2` and `log10`: `log(0)` is `-inf`,
the logarithm of a negative number is NaN. -/
def logb (b : ℝ) : CFloat → CFloat
  | nan => nan
  | ninf => nan
  | pinf => pinf
  | fin x => if x < 0 then nan else if x = 0 then ninf else fin (Real.logb b x)

/-- The function `log2` of libm. -/
def log2 (a : CFloat) : CFloat := logb 2 a

/-- The function `log10` of libm. -/
def log10 (a : CFloat) : CFloat := logb 10 a

/-- The call `pow(2, y)` of libm. -/
def pow2 : CFloat → CFloat
  | nan => nan
  | ninf => fin 0
  | pinf => pinf
  | fin y => fin ((2 : ℝ) ^ y)

/-- The function `fmax` of libm: a NaN operand is ignored. -/
def fmax : CFloat → CFloat → CFloat
  | nan, b => b
  | a, nan => a
  | pinf, _ => pinf
  | _, pinf => pinf
  | ninf, b => b
  | a, ninf => a
  | fin x, fin y => fin (max x y)

/-- The conversion `(size_t)a`: the value is truncated; the conversion of NaN,
of an infinity or of a value at or below `-1` is undefined (`none`). -/
def toSizeT : CFloat → Option ℕ
  | fin x => if -1 < x then some ⌊x⌋₊ else none
  | _ => none

/-- The conversion of an integer to floating point. -/
def ofNat (n : ℕ) : CFloat := fin (n : ℝ)

/-- The real number carried by a finite value (`0` for NaN and the infinities). -/
def toReal : CFloat → ℝ
  | fin x => x
  | _ => 0

end

end CFloat

noncomputable section

open Classical CFloat

/-! ## Rounding to binary32 -/

/-- Rounding to the nearest integer, ties to even. -/
def rne (q : ℝ) : ℤ :=
  if q - ⌊q⌋ < 1 / 2 then ⌊q⌋
  else if 1 / 2 < q - ⌊q⌋ then ⌊q⌋ + 1
  else if Even ⌊q⌋ then ⌊q⌋ else ⌊q⌋ + 1

/-- The binary32 exponent of a positive real: `floor(log2 x)`, and `-126` for
the subnormal range. -/
def expo32 (x : ℝ) : ℤ := max ⌊Real.logb 2 x⌋ (-126)

/-- The spacing of the binary32 values around a positive real (24 significant
bits). -/
def ulp32 (x : ℝ) : ℝ := (2 : ℝ) ^ (expo32 x - 23)

/-- The binary32 value nearest to a non-negative real, before overflow. -/
def round32_pos (x : ℝ) : ℝ := (rne (x / ulp32 x) : ℝ) * ulp32 x

/-- The binary32 value nearest to a real, before overflow. -/
def round32 (x : ℝ) : ℝ := if 0 ≤ x then round32_pos x else -round32_pos (-x)

/-- The conversion of a real to binary32: a rounded value of magnitude `2^128`
is an infinity. -/
def r32 (x : ℝ) : CFloat :=
  if (2 : ℝ) ^ 128 ≤ round32 x then pinf
  else if round32 x ≤ -(2 : ℝ) ^ 128 then ninf
  else fin (round32 x)

/-- The conversion of a `double` result to `float`. -/
def r32c : CFloat → CFloat
  | fin x => r32 x
  | a => a

/-! ## Rounding to binary64 -/

/-- The binary64 exponent of a positive real: `floor(log2 x)`, and `-1022` for
the subnormal range. -/
def expo64 (x : ℝ) : ℤ := max ⌊Real.logb 2 x⌋ (-1022)

/-- The spacing of the binary64 values around a positive real (53 significant
bits). -/
def ulp64 (x : ℝ) : ℝ := (2 : ℝ) ^ (expo64 x - 52)

/-- The binary64 value nearest to a non-negative real, before overflow. -/
def round64_pos (x : ℝ) : ℝ := (rne (x / ulp64 x) : ℝ) * ulp64 x

/-- The binary64 value nearest to a real, before overflow. -/
def round64 (x : ℝ) : ℝ := if 0 ≤ x then round64_pos x else -round64_pos (-x)

/-- The rounding of an exact result to `double`: a rounded value of magnitude
`2^1024` is an infinity. -/
def r64 (x : ℝ) : CFloat :=
  if (2 : ℝ) ^ 1024 ≤ round64 x then pinf
  else if round64 x ≤ -(2 : ℝ) ^ 1024 then ninf
  else fin (round64 x)

/-- The result of an operation evaluated in `double`. -/
def r64c : CFloat → CFloat
  | fin x => r64 x
  | a => a

/-! ## Constants of the visualiser -/

/-- The `double` value of the literal `.1`: the binary64 value nearest to
`1/10`. -/
def sf_value : ℝ := round64 (1 / 10)

/-- The `double` value of `(1 - SMOOTHING_FACTOR)`. -/
def one_minus_sf_value : ℝ := round64 (1 - sf_value)

/-- The macro `SMOOTHING_FACTOR` (`.1`, a `double`). -/
def SMOOTHING_FACTOR : CFloat := fin sf_value

/-- The macro `MIN_BAR_HEIGHT` (`5.0`, a `double`). -/
def MIN_BAR_HEIGHT : CFloat := fin 5

/-! ## Log-scale normaliser: `apply_log_scaling` -/

/-- The function `apply_log_scaling`: the quotient, the product `9 * normalized`
and the sum `1 + ...` are `float` operations, `log10` returns a `double` and
the result is returned as `float`. -/
def apply_log_scaling (magnitude max_magnitude : CFloat) : CFloat :=
  if le magnitude (fin 0) then fin 0
  else
    let normalized := r32c (magnitude / max_magnitude)
    r32c (r64c (log10 (r32c (fin 1 + r32c (fin 9 * normalized)))))

/-- The contract `log_scale(magnitude, max_magnitude)` in the words of the
specification: `0` if `magnitude ≤ 0`, else
`log10(1 + 9 * (magnitude / max_magnitude))`. -/
def log_scale_spec (magnitude max_magnitude : ℝ) : ℝ :=
  if magnitude ≤ 0 then 0 else Real.logb 10 (1 + 9 * (magnitude / max_magnitude))

/-! ## Bin range of a bar -/

/-- The `double` expression `log2(num_samples / 2.0)`: the sample count is
converted to `double` and halved. -/
def log2_half (num_samples : ℕ) : CFloat :=
  r64c (log2 (r64c (r64c (ofNat num_samples) / fin 2)))

/-- The declaration `float start_bin = pow(2, (float)i * log2(num_samples / 2.0)
/ NUM_BARS);` of `visualize_equalizer` and `apply_frequency_filter`: the index
is converted to `float`, the product and the quotient are `double` operations,
and the store rounds the `double` that `pow` returns to `float`. -/
def start_bin (num_bars num_samples i : ℕ) : CFloat :=
  r32c (r64c (pow2
    (r64c (r64c (r32 (i : ℝ) * log2_half num_samples) / r64c (ofNat num_bars)))))

/-- The declaration `float end_bin = pow(2, (float)(i + 1) *
log2(num_samples / 2.0) / NUM_BARS);`. -/
def end_bin (num_bars num_samples i : ℕ) : CFloat :=
  r32c (r64c (pow2
    (r64c (r64c (r32 ((i + 1 : ℕ) : ℝ) * log2_half num_samples) / r64c (ofNat num_bars)))))

/-- The bin range of the contract `bin_range(i, N, U)` in the words of the
specification: `start = floor(2^(i * log2(U) / N))`,
`end = floor(2^((i+1) * log2(U) / N))`. -/
def bin_range_spec (i num_bars : ℕ) (U : ℝ) : ℕ × ℕ :=
  (⌊(2 : ℝ) ^ ((i : ℝ) * Real.logb 2 U / (num_bars : ℝ))⌋₊,
   ⌊(2 : ℝ) ^ (((i + 1 : ℕ) : ℝ) * Real.logb 2 U / (num_bars : ℝ))⌋₊)

/-- The integer bin range `(size_t)start_bin`, `(size_t)end_bin` that the inner
loops of the code run over. -/
def bin_range (num_bars num_samples i : ℕ) : Option (ℕ × ℕ) :=
  match toSizeT (start_bin num_bars num_samples i), toSizeT (end_bin num_bars num_samples i) with
  | some s, some e => some (s, e)
  | _, _ => none

/-- Bin `j` lies in the integer bin range of bar `i`. -/
def in_bin_range (num_bars num_samples i j : ℕ) : Prop :=
  ∃ s e, bin_range num_bars num_samples i = some (s, e) ∧ s ≤ j ∧ j < e

/-- The real number `2^(i * log2(num_samples / 2) / num_bars)`: the exact value
of the formula for the lower edge of bar `i` (the upper edge of bar `i - 1`). -/
def bin_edge (num_bars num_samples i : ℕ) : ℝ :=
  (2 : ℝ) ^ ((i : ℝ) * Real.logb 2 ((num_samples : ℝ) / 2) / (num_bars : ℝ))

/-- The `double` value of `num_samples / 2.0`. -/
def usable_bins (num_samples : ℕ) : ℝ := round64 (round64 (num_samples : ℝ) / 2)

/-- The `double` value of `log2(num_samples / 2.0)`. -/
def log2_usable (num_samples : ℕ) : ℝ := round64 (Real.logb 2 (usable_bins num_samples))

/-- The `double` value of the exponent `(float)i * log2(num_samples / 2.0) /
NUM_BARS`, for an index and a bar count that convert exactly. -/
def edge_exponent (num_bars num_samples i : ℕ) : ℝ :=
  round64 (round64 ((i : ℝ) * log2_usable num_samples) / (num_bars : ℝ))

/-- The `double` value of `pow(2, (float)i * log2(num_samples / 2.0) /
NUM_BARS)`. -/
def double_edge (num_bars num_samples i : ℕ) : ℝ :=
  round64 ((2 : ℝ) ^ edge_exponent num_bars num_samples i)

/-- The binary32 value that the store puts into `start_bin` for bar `i` (and
into `end_bin` for bar `i - 1`), when nothing overflows. -/
def float_edge (num_bars num_samples i : ℕ) : ℝ := round32 (double_edge num_bars num_samples i)

/-- The subtraction of two `size_t` values (64 bits), which wraps around. -/
def size_sub (a b : ℕ) : ℕ := if b ≤ a then a - b else 2 ^ 64 - (b - a)

/-! ## Spectrum analyser: `visualize_equalizer` -/

/-- The locals `magnitudes` and `max_magnitude` of `visualize_equalizer`. -/
structure Magnitudes where
  /-- the array `magnitudes` -/
  magnitudes : ℕ → CFloat
  /-- the running maximum -/
  max_magnitude : CFloat

/-- The summand `sqrt(out[j][0] * out[j][0] + out[j][1] * out[j][1])`: the
products and the sum are `float` operations, `sqrt` is evaluated in `double`. -/
def bin_magnitude (out : ℕ → CFloat × CFloat) (j : ℕ) : CFloat :=
  r64c (sqrt (r32c (r32c ((out j).1 * (out j).1) + r32c ((out j).2 * (out j).2))))

/-- The inner loop `for (j = (size_t)start_bin; j < (size_t)end_bin; j++)
bin_sum += ...`, from `bin_sum = 0`; every `+=` adds in `double` and stores
into the `float` `bin_sum`. -/
def bin_sum (out : ℕ → CFloat × CFloat) (s e : ℕ) : CFloat :=
  (List.range' s (e - s)).foldl (fun acc j => r32c (r64c (acc + bin_magnitude out j))) (fin 0)

/-- One iteration of the first loop of `visualize_equalizer` (bar `i`); the bin
count is converted to `float` and the quotient is a `float` operation. -/
def magnitude_bar (num_samples : ℕ) (out : ℕ → CFloat × CFloat) (st : Magnitudes) (i : ℕ) :
    Option Magnitudes :=
  if ge (start_bin NUM_BARS num_samples i) (end_bin NUM_BARS num_samples i) then some st
  else
    match bin_range NUM_BARS num_samples i with
    | some (s, e) =>
      let m := r32c (bin_sum out s e / r32 ((size_sub e s : ℕ) : ℝ))
      some ⟨Function.update st.magnitudes i m,
            if gt m st.max_magnitude then m else st.max_magnitude⟩
    | none => none

/-- The first loop of `visualize_equalizer`, from `magnitudes = {0}` and
`max_magnitude = 0`. -/
def compute_magnitudes (num_samples : ℕ) (out : ℕ → CFloat × CFloat) : Option Magnitudes :=
  (List.range NUM_BARS).foldlM (magnitude_bar num_samples out) ⟨fun _ => fin 0, fin 0⟩

/-- The second loop: `magnitudes[i] *= frequency_weights[bar_to_range_map[i]]`,
a `float` product. -/
def apply_bar_weights (frequency_weights : ℕ → CFloat) (bar_to_range_map : List ℕ)
    (magnitudes : ℕ → CFloat) : ℕ → CFloat :=
  (List.range NUM_BARS).foldl
    (fun m i => Function.update m i (r32c (m i * frequency_weights (bar_to_range_map.getD i 0))))
    magnitudes

/-- The two assignments to `smoothed_heights[i]` in the third loop: the
difference, the two products and the sum are `double` operations, the result is
stored into the `float` array; `fmax` returns one of its operands. -/
def smooth_update (scaled_height smoothed : CFloat) : CFloat :=
  fmax
    (r32c (r64c (r64c (SMOOTHING_FACTOR * scaled_height)
      + r64c (r64c (fin 1 - SMOOTHING_FACTOR) * smoothed))))
    MIN_BAR_HEIGHT

/-- The third loop: scaling (a `float` product), smoothing and the floor, for
every bar. -/
def smooth_bars (magnitudes : ℕ → CFloat) (max_magnitude : CFloat)
    (smoothed_heights : ℕ → CFloat) : ℕ → CFloat :=
  (List.range NUM_BARS).foldl
    (fun sm i =>
      let scaled_height := r32c (apply_log_scaling (magnitudes i) max_magnitude * fin 600)
      Function.update sm i (smooth_update scaled_height (sm i)))
    smoothed_heights

/-- The function `visualize_equalizer` as a step on the static array
`smoothed_heights`; `out` is the spectrum that the forward transform wrote. -/
def visualize_equalizer (out : ℕ → CFloat × CFloat) (num_samples : ℕ)
    (frequency_weights : ℕ → CFloat) (bar_to_range_map : List ℕ)
    (smoothed_heights : ℕ → CFloat) : Option (ℕ → CFloat) :=
  match compute_magnitudes num_samples out with
  | some st =>
    some (smooth_bars (apply_bar_weights frequency_weights bar_to_range_map st.magnitudes)
      st.max_magnitude smoothed_heights)
  | none => none

/-- The static array `smoothed_heights` at program start (`{0}`). -/
def smoothed_heights_init : ℕ → CFloat := fun _ => fin 0

/-- The state of `smoothed_heights` after `t` ticks, tick `k` seeing the
spectrum `out k`. -/
def run_ticks (out : ℕ → ℕ → CFloat × CFloat) (num_samples : ℕ)
    (frequency_weights : ℕ → CFloat) (bar_to_range_map : List ℕ) : ℕ → Option (ℕ → CFloat)
  | 0 => some smoothed_heights_init
  | t + 1 =>
    match run_ticks out num_samples frequency_weights bar_to_range_map t with
    | some sm => visualize_equalizer (out t) num_samples frequency_weights bar_to_range_map sm
    | none => none

/-- The smoothed height of one bar after `t` ticks that all feed the same scaled
height `H`, from the initial height `s0`. -/
def smooth_iter (H s0 : CFloat) : ℕ → CFloat
  | 0 => s0
  | t + 1 => smooth_update H (smooth_iter H s0 t)

/-- The weighted sum of the smoothing update on finite values, as the `double`
operations compute it. -/
def smooth_sum (H s : ℝ) : ℝ :=
  round64 (round64 (sf_value * H) + round64 (one_minus_sf_value * s))

/-- The recurrence that `smooth_iter` follows on finite values. -/
def smooth_real (H s0 : ℝ) : ℕ → ℝ
  | 0 => s0
  | t + 1 => max (round32 (smooth_sum H (smooth_real H s0 t))) 5

/-! ## Spectral filter: `apply_frequency_filter` -/

/-- The body of the inner loop: `freq_domain[j][0] *= weight;
freq_domain[j][1] *= weight;`, two `float` products. -/
def scale_bin (weight : CFloat) (freq_domain : ℕ → CFloat × CFloat) (j : ℕ) :
    ℕ → CFloat × CFloat :=
  Function.update freq_domain j
    (r32c ((freq_domain j).1 * weight), r32c ((freq_domain j).2 * weight))

/-- One iteration of the scaling loop of `apply_frequency_filter` (bar `i`). -/
def filter_bar (num_samples : ℕ) (frequency_weights : ℕ → CFloat) (bar_to_range_map : List ℕ)
    (freq_domain : ℕ → CFloat × CFloat) (i : ℕ) : Option (ℕ → CFloat × CFloat) :=
  if ge (start_bin NUM_BARS num_samples i) (end_bin NUM_BARS num_samples i) then some freq_domain
  else
    let range_index := bar_to_range_map.getD i 0
    let weight := frequency_weights range_index
    match bin_range NUM_BARS num_samples i with
    | some (s, e) => some ((List.range' s (e - s)).foldl (scale_bin weight) freq_domain)
    | none => none

/-- The scaling loop of `apply_frequency_filter` over all bars. -/
def apply_weights (num_samples : ℕ) (frequency_weights : ℕ → CFloat)
    (bar_to_range_map : List ℕ) (freq_domain : ℕ → CFloat × CFloat) :
    Option (ℕ → CFloat × CFloat) :=
  (List.range NUM_BARS).foldlM (filter_bar num_samples frequency_weights bar_to_range_map)
    freq_domain

/-- The function `apply_frequency_filter`; `r2c` and `c2r` are the forward and
inverse transforms of the FFTW library.  The normalisation divides in `float`
by the sample count converted to `float`. -/
def apply_frequency_filter (r2c : ℕ → List CFloat → ℕ → CFloat × CFloat)
    (c2r : ℕ → (ℕ → CFloat × CFloat) → List CFloat)
    (frequency_weights : ℕ → CFloat) (bar_to_range_map : List ℕ)
    (input_data : List CFloat) (num_samples : ℕ) : Option (List CFloat) :=
  match apply_weights num_samples frequency_weights bar_to_range_map (r2c num_samples input_data)
  with
  | some freq_domain =>
    some ((c2r num_samples freq_domain).map (fun x => r32c (x / r32 (num_samples : ℝ))))
  | none => none

end

/-! # Theorems -/

/-! ## Band mapper -/

/-- The loop of `initialize_bar_to_range_map` never divides by zero when
`ranges_per_bar` is not zero. -/
theorem foldlM_set_eq_foldl (r : ℕ) (hr : r ≠ 0) (m : List ℕ) (l : List ℕ) :
    l.foldlM (fun m i => if r = 0 then none else some (m.set i (i / r))) m
      = some (l.foldl (fun m i => m.set i (i / r)) m) := by
  induction l generalizing m with
  | nil => rfl
  | cons a l ih =>
    rw [List.foldlM_cons, if_neg hr]
    exact ih _

/-- A loop that stores `g i` at index `i` for `i < k`. -/
theorem foldl_set_range (g : ℕ → ℕ) (m : List ℕ) (k : ℕ) :
    ((List.range k).foldl (fun m i => m.set i (g i)) m).length = m.length ∧
    ∀ i, ((List.range k).foldl (fun m i => m.set i (g i)) m)[i]? =
      if i < k ∧ i < m.length then some (g i) else m[i]? := by
  induction k with
  | zero => simp
  | succ k ih =>
    rw [List.range_succ, List.foldl_append]
    obtain ⟨hl, hg⟩ := ih
    refine ⟨by simp [hl], fun i => ?_⟩
    simp only [List.foldl_cons, List.foldl_nil]
    rw [List.getElem?_set, hl, hg i]
    by_cases hik : k = i
    · subst hik
      by_cases hlen : k < m.length
      · simp [hlen]
      · simp [hlen]; omega
    · have h1 : (i < k + 1 ∧ i < m.length) ↔ (i < k ∧ i < m.length) := by omega
      simp only [hik, if_false, h1]

/-- C2: for `N` a positive multiple of `R`, `initialize_bar_to_range_map` returns
a map of `N` entries with `map[i] = i / (N / R)` for every bar `i < N`; every
entry is below `R`, the entries are non-decreasing in `i`, and for `N = 32`,
`R = 8` the map is `map[0..3] = 0`, `map[4..7] = 1`, ..., `map[28..31] = 7`. -/
theorem initialize_bar_to_range_map_spec (N R : ℕ) (hN : 0 < N) (hR : R ∣ N) :
    (∃ map, initialize_bar_to_range_map N R (bar_to_range_map_init N) = some map ∧
      map.length = N ∧
      (∀ i, i < N → map[i]? = some (i / (N / R))) ∧
      (∀ i, i < N → map.getD i 0 < R) ∧
      (∀ i j, i ≤ j → j < N → map.getD i 0 ≤ map.getD j 0)) ∧
    initialize_bar_to_range_map NUM_BARS NUM_RANGES (bar_to_range_map_init NUM_BARS) =
      some (List.replicate 4 0 ++ List.replicate 4 1 ++ List.replicate 4 2 ++
        List.replicate 4 3 ++ List.replicate 4 4 ++ List.replicate 4 5 ++
        List.replicate 4 6 ++ List.replicate 4 7) := by
  refine ⟨?_, by decide⟩
  have hR0 : R ≠ 0 := by
    rintro rfl
    simp at hR
    omega
  have hRpos : 0 < R := Nat.pos_of_ne_zero hR0
  have hq : N / R ≠ 0 := by
    have := Nat.div_mul_cancel hR
    intro h
    rw [h] at this
    omega
  have hqpos : 0 < N / R := Nat.pos_of_ne_zero hq
  obtain ⟨hl, hg⟩ := foldl_set_range (fun i => i / (N / R)) (bar_to_range_map_init N) N
  have hlen : (bar_to_range_map_init N).length = N := by simp [bar_to_range_map_init]
  have hget : ∀ i, i < N →
      ((List.range N).foldl (fun m i => m.set i (i / (N / R))) (bar_to_range_map_init N))[i]?
        = some (i / (N / R)) := by
    intro i hi
    rw [hg i, hlen, if_pos ⟨hi, hi⟩]
  refine ⟨_, ?_, ?_, hget, ?_, ?_⟩
  · unfold initialize_bar_to_range_map
    rw [if_neg hR0]
    exact foldlM_set_eq_foldl (N / R) hq _ _
  · rw [hl, hlen]
  · intro i hi
    rw [List.getD_eq_getElem?_getD, hget i hi, Option.getD_some,
      Nat.div_lt_iff_lt_mul hqpos, Nat.mul_comm, Nat.div_mul_cancel hR]
    exact hi
  · intro i j hij hj
    rw [List.getD_eq_getElem?_getD, List.getD_eq_getElem?_getD, hget i (by omega), hget j hj,
      Option.getD_some, Option.getD_some]
    exact Nat.div_le_div_right hij

/-- Witness for C2 at `N = 32`, `R = 8`. -/
theorem initialize_bar_to_range_map_spec_witness :
    (∃ map, initialize_bar_to_range_map 32 8 (bar_to_range_map_init 32) = some map ∧
      map.length = 32 ∧
      (∀ i, i < 32 → map[i]? = some (i / (32 / 8))) ∧
      (∀ i, i < 32 → map.getD i 0 < 8) ∧
      (∀ i j, i ≤ j → j < 32 → map.getD i 0 ≤ map.getD j 0)) ∧
    initialize_bar_to_range_map NUM_BARS NUM_RANGES (bar_to_range_map_init NUM_BARS) =
      some (List.replicate 4 0 ++ List.replicate 4 1 ++ List.replicate 4 2 ++
        List.replicate 4 3 ++ List.replicate 4 4 ++ List.replicate 4 5 ++
        List.replicate 4 6 ++ List.replicate 4 7) :=
  initialize_bar_to_range_map_spec 32 8 (by decide) (by decide)

/-! ## Frame scheduler -/

/-- The cursor of the visualisation loop stays inside a non-empty buffer. -/
theorem cursor_lt (L : ℕ) (hL : 1 ≤ L) (t : ℕ) : cursor L t < L := by
  induction t with
  | zero => simpa [cursor] using hL
  | succ t _ =>
    simp only [cursor, advance_index]
    split <;> omega

/-- C10 (failing inputs): with a buffer of 1000 samples the first tick
(cursor 0) reads the sample index 1000, which is outside the buffer; with a
buffer of 1500 samples the second tick starts at 1024 and reads up to index
2047.  The frame read is out of bounds in both cases. -/
theorem frame_read_past_buffer_end :
    (cursor 1000 0 = 0 ∧ cursor 1000 0 + 1000 ∈ frame_indices (cursor 1000 0) ∧
      ¬ (cursor 1000 0 + 1000 < 1000) ∧
      read_frame (List.replicate 1000 (0 : ℚ)) (cursor 1000 0) = none) ∧
    (cursor 1500 1 = 1024 ∧ cursor 1500 1 + 1023 ∈ frame_indices (cursor 1500 1) ∧
      ¬ (cursor 1500 1 + 1023 < 1500) ∧
      read_frame (List.replicate 1500 (0 : ℚ)) (cursor 1500 1) = none) := by
  have h1 : cursor 1000 0 + 1000 ∈ frame_indices (cursor 1000 0) := by
    simp [frame_indices, cursor, BUFFER_SIZE, List.mem_range'_1]
  have h2 : cursor 1500 1 + 1023 ∈ frame_indices (cursor 1500 1) := by
    simp [frame_indices, cursor, advance_index, BUFFER_SIZE, List.mem_range'_1]
  refine ⟨⟨rfl, h1, by decide, ?_⟩, ⟨rfl, h2, by decide, ?_⟩⟩
  · unfold read_frame
    rw [if_neg]
    intro h
    have := h _ h1
    rw [List.length_replicate] at this
    exact absurd this (by decide)
  · unfold read_frame
    rw [if_neg]
    intro h
    have := h _ h2
    rw [List.length_replicate] at this
    exact absurd this (by decide)

/-! ## Arithmetic of `CFloat` -/

section

open Classical CFloat

@[simp] theorem CFloat.fin_add_fin (x y : ℝ) : fin x + fin y = fin (x + y) := rfl

@[simp] theorem CFloat.fin_mul_fin (x y : ℝ) : fin x * fin y = fin (x * y) := rfl

@[simp] theorem CFloat.fin_sub_fin (x y : ℝ) : fin x - fin y = fin (x - y) := by
  show CFloat.add (fin x) (CFloat.neg (fin y)) = fin (x - y)
  simp [CFloat.add, CFloat.neg, sub_eq_add_neg]

theorem CFloat.fin_div_fin (x y : ℝ) (hy : y ≠ 0) : fin x / fin y = fin (x / y) := by
  show CFloat.div (fin x) (fin y) = fin (x / y)
  simp [CFloat.div, hy]

@[simp] theorem CFloat.zero_div_zero : fin 0 / fin 0 = nan := by
  show CFloat.div (fin 0) (fin 0) = nan
  simp [CFloat.div]

theorem CFloat.pos_div_zero (x : ℝ) (hx : 0 < x) : fin x / fin 0 = pinf := by
  show CFloat.div (fin x) (fin 0) = pinf
  simp [CFloat.div, hx.ne', hx, CFloat.inf_of_sign]

@[simp] theorem CFloat.nan_add (a : CFloat) : nan + a = nan := by
  show CFloat.add nan a = nan
  simp [CFloat.add]

@[simp] theorem CFloat.add_nan (a : CFloat) : a + nan = nan := by
  show CFloat.add a nan = nan
  cases a <;> simp [CFloat.add]

@[simp] theorem CFloat.nan_mul (a : CFloat) : nan * a = nan := by
  show CFloat.mul nan a = nan
  simp [CFloat.mul]

@[simp] theorem CFloat.mul_nan (a : CFloat) : a * nan = nan := by
  show CFloat.mul a nan = nan
  cases a <;> simp [CFloat.mul]

@[simp] theorem CFloat.nan_div (a : CFloat) : nan / a = nan := by
  show CFloat.div nan a = nan
  simp [CFloat.div]

@[simp] theorem CFloat.le_fin_fin (x y : ℝ) : le (fin x) (fin y) ↔ x ≤ y := by
  simp [CFloat.le]

@[simp] theorem CFloat.lt_fin_fin (x y : ℝ) : lt (fin x) (fin y) ↔ x < y := by
  simp [CFloat.lt]

@[simp] theorem CFloat.not_le_nan_left (a : CFloat) : ¬ le nan a := by
  simp [CFloat.le]

@[simp] theorem CFloat.not_lt_nan_right (a : CFloat) : ¬ lt a nan := by
  cases a <;> simp [CFloat.lt]

theorem CFloat.log10_fin_pos (x : ℝ) (hx : 0 < x) : log10 (fin x) = fin (Real.logb 10 x) := by
  simp [CFloat.log10, CFloat.logb, not_lt.mpr hx.le, hx.ne']

theorem CFloat.log2_fin_pos (x : ℝ) (hx : 0 < x) : log2 (fin x) = fin (Real.logb 2 x) := by
  simp [CFloat.log2, CFloat.logb, not_lt.mpr hx.le, hx.ne']

/-! ## Rounding to binary32 -/

/-- The rounded integer is the floor or the next integer. -/
theorem rne_cases (q : ℝ) : rne q = ⌊q⌋ ∨ rne q = ⌊q⌋ + 1 := by
  unfold rne
  split
  · exact Or.inl rfl
  · split
    · exact Or.inr rfl
    · split
      · exact Or.inl rfl
      · exact Or.inr rfl

/-- Rounding to an integer moves by at most one half. -/
theorem abs_rne_sub_le (q : ℝ) : |(rne q : ℝ) - q| ≤ 1 / 2 := by
  have h1 := Int.floor_le q
  have h2 := Int.lt_floor_add_one q
  unfold rne
  split
  · rw [abs_le]; constructor <;> linarith
  · split
    · rw [abs_le]; push_cast; constructor <;> linarith
    · have : q - ⌊q⌋ = 1 / 2 := by linarith
      split
      · rw [abs_le]; constructor <;> linarith
      · rw [abs_le]; push_cast; constructor <;> linarith

/-- A real closer than one half to an integer rounds to it. -/
theorem rne_eq_of_abs_lt (q : ℝ) (z : ℤ) (h : |q - z| < 1 / 2) : rne q = z := by
  have h1 := abs_rne_sub_le q
  rw [abs_lt] at h
  rw [abs_le] at h1
  have h2 : ((rne q - z : ℤ) : ℝ) < 1 := by push_cast; linarith
  have h3 : (-1 : ℝ) < ((rne q - z : ℤ) : ℝ) := by push_cast; linarith
  have h4 : rne q - z < 1 := by exact_mod_cast h2
  have h5 : -1 < rne q - z := by exact_mod_cast h3
  omega

/-- An integer is not changed by rounding. -/
theorem rne_intCast (z : ℤ) : rne (z : ℝ) = z :=
  rne_eq_of_abs_lt _ z (by simp)

/-- Rounding to an integer is monotone. -/
theorem rne_mono (q r : ℝ) (h : q ≤ r) : rne q ≤ rne r := by
  have hf : ⌊q⌋ ≤ ⌊r⌋ := Int.floor_mono h
  rcases lt_or_eq_of_le hf with hlt | heq
  · rcases rne_cases q with h1 | h1 <;> rcases rne_cases r with h2 | h2 <;> omega
  · unfold rne
    rw [heq]
    have hd : q - ⌊r⌋ ≤ r - ⌊r⌋ := by linarith
    split_ifs <;> first | omega | (exfalso; linarith)

/-- A non-negative real rounds to a non-negative integer. -/
theorem rne_nonneg (q : ℝ) (h : 0 ≤ q) : 0 ≤ rne q := by
  have := rne_mono 0 q h
  have h0 : rne (0 : ℝ) = 0 := by simpa using rne_intCast 0
  omega

/-- The spacing is positive. -/
theorem ulp32_pos (x : ℝ) : 0 < ulp32 x := zpow_pos (by norm_num) _

/-- A positive real is below the upper end of its binade. -/
theorem lt_two_zpow_expo32_succ (x : ℝ) (hx : 0 < x) : x < (2 : ℝ) ^ (expo32 x + 1) := by
  have h1 : Real.logb 2 x < ((expo32 x + 1 : ℤ) : ℝ) := by
    have := Int.lt_floor_add_one (Real.logb 2 x)
    have h2 : (⌊Real.logb 2 x⌋ : ℝ) ≤ (expo32 x : ℝ) := by
      exact_mod_cast le_max_left _ _
    push_cast
    linarith
  rw [Real.logb_lt_iff_lt_rpow (by norm_num) hx, Real.rpow_intCast] at h1
  exact h1

/-- The exponent of a value in a given binade. -/
theorem expo32_eq (x : ℝ) (E : ℤ) (hE : -126 ≤ E) (h1 : (2 : ℝ) ^ E ≤ x)
    (h2 : x < (2 : ℝ) ^ (E + 1)) : expo32 x = E := by
  have hx : 0 < x := lt_of_lt_of_le (zpow_pos (by norm_num) _) h1
  have hf : ⌊Real.logb 2 x⌋ = E := by
    rw [Int.floor_eq_iff]
    constructor
    · rw [Real.le_logb_iff_rpow_le (by norm_num) hx, Real.rpow_intCast]
      exact h1
    · have : ((E : ℝ) + 1) = ((E + 1 : ℤ) : ℝ) := by push_cast; ring
      rw [this, Real.logb_lt_iff_lt_rpow (by norm_num) hx, Real.rpow_intCast]
      exact h2
  unfold expo32
  rw [hf]
  exact max_eq_left hE

/-- A normal value is at least the lower end of its binade. -/
theorem two_zpow_expo32_le (x : ℝ) (hx : (2 : ℝ) ^ (-126 : ℤ) ≤ x) :
    (2 : ℝ) ^ (expo32 x) ≤ x := by
  have hx0 : 0 < x := lt_of_lt_of_le (zpow_pos (by norm_num) _) hx
  have hf : (-126 : ℤ) ≤ ⌊Real.logb 2 x⌋ := by
    rw [Int.le_floor, Real.le_logb_iff_rpow_le (by norm_num) hx0, Real.rpow_intCast]
    exact hx
  unfold expo32
  rw [max_eq_left hf]
  have := Int.floor_le (Real.logb 2 x)
  rw [Real.le_logb_iff_rpow_le (by norm_num) hx0, Real.rpow_intCast] at this
  exact this

/-- The exponent is at least `-126`. -/
theorem expo32_ge (x : ℝ) : -126 ≤ expo32 x := le_max_right _ _

/-- The exponent is monotone on positive reals. -/
theorem expo32_mono (x y : ℝ) (hx : 0 < x) (h : x ≤ y) : expo32 x ≤ expo32 y := by
  unfold expo32
  apply max_le_max _ le_rfl
  exact Int.floor_mono (Real.logb_le_logb_of_le (by norm_num) hx h)

/-- The exponent of a value bounded by a power of two. -/
theorem expo32_le_of_le (x : ℝ) (k : ℤ) (hk : -126 ≤ k) (hx : 0 < x) (h : x ≤ (2 : ℝ) ^ k) :
    expo32 x ≤ k := by
  unfold expo32
  apply max_le _ hk
  have h1 : Real.logb 2 x ≤ (k : ℝ) := by
    rw [Real.logb_le_iff_le_rpow (by norm_num) hx, Real.rpow_intCast]
    exact h
  have := Int.floor_le (Real.logb 2 x)
  have h2 : (⌊Real.logb 2 x⌋ : ℝ) ≤ (k : ℝ) := by linarith
  exact_mod_cast h2

/-- A non-negative real rounds to a non-negative value. -/
theorem round32_pos_nonneg (x : ℝ) (hx : 0 ≤ x) : 0 ≤ round32_pos x := by
  unfold round32_pos
  apply mul_nonneg _ (ulp32_pos x).le
  have := rne_nonneg (x / ulp32 x) (div_nonneg hx (ulp32_pos x).le)
  exact_mod_cast this

/-- Rounding does not pass the upper end of the binade. -/
theorem round32_pos_le (x : ℝ) (hx : 0 < x) : round32_pos x ≤ (2 : ℝ) ^ (expo32 x + 1) := by
  unfold round32_pos
  have hu := ulp32_pos x
  have h2 : (2 : ℝ) ^ (expo32 x + 1) = ((2 ^ 24 : ℤ) : ℝ) * ulp32 x := by
    unfold ulp32
    have : expo32 x + 1 = 24 + (expo32 x - 23) := by ring
    rw [this, zpow_add₀ (by norm_num : (2 : ℝ) ≠ 0)]
    norm_num
  rw [h2]
  apply mul_le_mul_of_nonneg_right _ hu.le
  have hq : x / ulp32 x ≤ ((2 ^ 24 : ℤ) : ℝ) := by
    rw [div_le_iff₀ hu, ← h2]
    exact (lt_two_zpow_expo32_succ x hx).le
  have := rne_mono _ _ hq
  rw [rne_intCast] at this
  exact_mod_cast this

/-- Rounding a normal value does not pass the lower end of its binade. -/
theorem le_round32_pos (x : ℝ) (hx : (2 : ℝ) ^ (-126 : ℤ) ≤ x) :
    (2 : ℝ) ^ (expo32 x) ≤ round32_pos x := by
  unfold round32_pos
  have hu := ulp32_pos x
  have h2 : (2 : ℝ) ^ (expo32 x) = ((2 ^ 23 : ℤ) : ℝ) * ulp32 x := by
    unfold ulp32
    have : expo32 x = 23 + (expo32 x - 23) := by ring
    conv_lhs => rw [this, zpow_add₀ (by norm_num : (2 : ℝ) ≠ 0)]
    norm_num
  rw [h2]
  apply mul_le_mul_of_nonneg_right _ hu.le
  have hq : ((2 ^ 23 : ℤ) : ℝ) ≤ x / ulp32 x := by
    rw [le_div_iff₀ hu, ← h2]
    exact two_zpow_expo32_le x hx
  have := rne_mono _ _ hq
  rw [rne_intCast] at this
  exact_mod_cast this

/-- Zero is not changed. -/
theorem round32_pos_zero : round32_pos 0 = 0 := by
  unfold round32_pos
  rw [zero_div]
  have h0 : rne (0 : ℝ) = 0 := by simpa using rne_intCast 0
  rw [h0]
  simp

/-- Rounding to binary32 is monotone on non-negative reals. -/
theorem round32_pos_mono (x y : ℝ) (hx : 0 ≤ x) (h : x ≤ y) :
    round32_pos x ≤ round32_pos y := by
  rcases eq_or_lt_of_le hx with h0 | hpos
  · rw [← h0, round32_pos_zero]
    exact round32_pos_nonneg y (le_trans hx h)
  · have he := expo32_mono x y hpos h
    rcases eq_or_lt_of_le he with heq | hlt
    · unfold round32_pos
      have hu : ulp32 x = ulp32 y := by unfold ulp32; rw [heq]
      rw [hu]
      apply mul_le_mul_of_nonneg_right _ (ulp32_pos y).le
      have := rne_mono (x / ulp32 y) (y / ulp32 y) (div_le_div_of_nonneg_right h (ulp32_pos y).le)
      exact_mod_cast this
    · have hy : (2 : ℝ) ^ (-126 : ℤ) ≤ y := by
        by_contra hc
        push_neg at hc
        have hypos : 0 < y := lt_of_lt_of_le hpos h
        have : expo32 y ≤ -126 := expo32_le_of_le y (-126) le_rfl hypos hc.le
        have := expo32_ge x
        omega
      calc round32_pos x ≤ (2 : ℝ) ^ (expo32 x + 1) := round32_pos_le x hpos
        _ ≤ (2 : ℝ) ^ (expo32 y) := zpow_le_zpow_right₀ (by norm_num) (by omega)
        _ ≤ round32_pos y := le_round32_pos y hy

/-- A value with at most 24 significant bits at its binade is not changed. -/
theorem round32_pos_fixed (x : ℝ) (m : ℕ) (j : ℤ) (hx : x = (m : ℝ) * (2 : ℝ) ^ j)
    (hj : expo32 x - 23 ≤ j) : round32_pos x = x := by
  unfold round32_pos
  have hu := ulp32_pos x
  obtain ⟨d, hd⟩ : ∃ d : ℕ, j = (expo32 x - 23) + d := ⟨(j - (expo32 x - 23)).toNat, by omega⟩
  have hq : x / ulp32 x = (((m * 2 ^ d : ℕ) : ℤ) : ℝ) := by
    rw [div_eq_iff hu.ne']
    conv_lhs => rw [hx, hd]
    unfold ulp32
    rw [zpow_add₀ (by norm_num : (2 : ℝ) ≠ 0), zpow_natCast]
    push_cast
    ring
  rw [hq, rne_intCast, ← hq, div_mul_cancel₀ _ hu.ne']

/-- Rounding moves by at most half the spacing. -/
theorem abs_round32_pos_sub_le (x : ℝ) : |round32_pos x - x| ≤ ulp32 x / 2 := by
  unfold round32_pos
  have hu := ulp32_pos x
  have h := abs_rne_sub_le (x / ulp32 x)
  have : (rne (x / ulp32 x) : ℝ) * ulp32 x - x = ((rne (x / ulp32 x) : ℝ) - x / ulp32 x) * ulp32 x := by
    field_simp
  rw [this, abs_mul, abs_of_pos hu]
  calc |(rne (x / ulp32 x) : ℝ) - x / ulp32 x| * ulp32 x ≤ 1 / 2 * ulp32 x :=
        mul_le_mul_of_nonneg_right h hu.le
    _ = ulp32 x / 2 := by ring

/-- The exponent of a positive value below a power of two. -/
theorem expo32_le_of_lt (x : ℝ) (K : ℤ) (hK : -126 ≤ K) (hx : 0 < x)
    (h : x < (2 : ℝ) ^ (K + 1)) : expo32 x ≤ K := by
  unfold expo32
  apply max_le _ hK
  have h1 : Real.logb 2 x < ((K + 1 : ℤ) : ℝ) := by
    rw [Real.logb_lt_iff_lt_rpow (by norm_num) hx, Real.rpow_intCast]
    exact h
  have h2 : ⌊Real.logb 2 x⌋ < K + 1 := Int.floor_lt.mpr h1
  omega

/-- On non-negative reals `round32` is `round32_pos`. -/
theorem round32_of_nonneg (x : ℝ) (hx : 0 ≤ x) : round32 x = round32_pos x := if_pos hx

/-- Zero is a binary32 value. -/
theorem round32_zero : round32 0 = 0 := by
  rw [round32_of_nonneg 0 le_rfl, round32_pos_zero]

/-- Rounding to binary32 is monotone on non-negative reals. -/
theorem round32_mono (x y : ℝ) (hx : 0 ≤ x) (h : x ≤ y) : round32 x ≤ round32 y := by
  rw [round32_of_nonneg x hx, round32_of_nonneg y (le_trans hx h)]
  exact round32_pos_mono x y hx h

/-- A non-negative real rounds to a non-negative value. -/
theorem round32_nonneg (x : ℝ) (hx : 0 ≤ x) : 0 ≤ round32 x := by
  rw [round32_of_nonneg x hx]
  exact round32_pos_nonneg x hx

/-- A power of two of the normal range is a binary32 value. -/
theorem round32_two_zpow (k : ℤ) (hk : -126 ≤ k) : round32 ((2 : ℝ) ^ k) = (2 : ℝ) ^ k := by
  have hpos : (0 : ℝ) < (2 : ℝ) ^ k := zpow_pos (by norm_num) _
  rw [round32_of_nonneg _ hpos.le]
  have he : expo32 ((2 : ℝ) ^ k) = k :=
    expo32_eq _ k hk le_rfl (zpow_lt_zpow_right₀ (by norm_num) (by omega))
  apply round32_pos_fixed _ 1 k (by simp)
  rw [he]
  omega

/-- A natural number below `2^24` is a binary32 value. -/
theorem round32_natCast (k : ℕ) (hk : k < 2 ^ 24) : round32 (k : ℝ) = k := by
  rw [round32_of_nonneg _ (Nat.cast_nonneg k)]
  rcases Nat.eq_zero_or_pos k with h0 | hpos
  · subst h0
    simpa using round32_pos_zero
  · apply round32_pos_fixed _ k 0 (by simp)
    have hx : (0 : ℝ) < (k : ℝ) := by exact_mod_cast hpos
    have hlt : (k : ℝ) < (2 : ℝ) ^ ((23 : ℤ) + 1) := by
      have : (k : ℝ) < ((2 ^ 24 : ℕ) : ℝ) := by exact_mod_cast hk
      norm_num at this ⊢
      exact this
    have := expo32_le_of_lt (k : ℝ) 23 (by norm_num) hx hlt
    omega

/-- Half a natural number below `2^24` is a binary32 value. -/
theorem round32_half_natCast (n : ℕ) (hn : n < 2 ^ 24) :
    round32 ((n : ℝ) / 2) = (n : ℝ) / 2 := by
  have h0 : (0 : ℝ) ≤ (n : ℝ) / 2 := by positivity
  rw [round32_of_nonneg _ h0]
  rcases Nat.eq_zero_or_pos n with hz | hpos
  · subst hz
    simpa using round32_pos_zero
  · apply round32_pos_fixed _ n (-1) (by rw [zpow_neg_one]; ring)
    have hx : (0 : ℝ) < (n : ℝ) / 2 := by
      have : (0 : ℝ) < (n : ℝ) := by exact_mod_cast hpos
      linarith
    have hlt : (n : ℝ) / 2 < (2 : ℝ) ^ ((22 : ℤ) + 1) := by
      have h24 : (n : ℝ) < 16777216 := by exact_mod_cast hn
      norm_num
      linarith
    have := expo32_le_of_lt ((n : ℝ) / 2) 22 (by norm_num) hx hlt
    omega

/-- Rounding to binary32 moves by at most half the spacing. -/
theorem abs_round32_sub_le (x : ℝ) : |round32 x - x| ≤ ulp32 |x| / 2 := by
  unfold round32
  by_cases hx : 0 ≤ x
  · rw [if_pos hx, abs_of_nonneg hx]
    exact abs_round32_pos_sub_le x
  · rw [if_neg hx, abs_of_neg (not_le.mp hx)]
    have h := abs_round32_pos_sub_le (-x)
    have e : -round32_pos (-x) - x = -(round32_pos (-x) - -x) := by ring
    rw [e, abs_neg]
    exact h

/-- A real bounded by a power of two rounds within the same bound. -/
theorem abs_round32_le (x : ℝ) (k : ℤ) (hk : -126 ≤ k) (h : |x| ≤ (2 : ℝ) ^ k) :
    |round32 x| ≤ (2 : ℝ) ^ k := by
  have hfix : round32_pos ((2 : ℝ) ^ k) = (2 : ℝ) ^ k := by
    have := round32_two_zpow k hk
    rwa [round32_of_nonneg _ (zpow_pos (by norm_num) _).le] at this
  unfold round32
  by_cases hx : 0 ≤ x
  · rw [if_pos hx, abs_of_nonneg (round32_pos_nonneg x hx)]
    rw [abs_of_nonneg hx] at h
    calc round32_pos x ≤ round32_pos ((2 : ℝ) ^ k) := round32_pos_mono x _ hx h
      _ = (2 : ℝ) ^ k := hfix
  · have hx0 : 0 ≤ -x := by linarith
    rw [if_neg hx, abs_neg, abs_of_nonneg (round32_pos_nonneg _ hx0)]
    rw [abs_of_neg (not_le.mp hx)] at h
    calc round32_pos (-x) ≤ round32_pos ((2 : ℝ) ^ k) := round32_pos_mono _ _ hx0 h
      _ = (2 : ℝ) ^ k := hfix

/-- The spacing at a real bounded by a power of two. -/
theorem ulp32_le (x : ℝ) (k : ℤ) (hk : 0 ≤ k) (h : |x| ≤ (2 : ℝ) ^ k) :
    ulp32 |x| ≤ (2 : ℝ) ^ (k - 23) := by
  unfold ulp32
  apply zpow_le_zpow_right₀ (by norm_num)
  have he : expo32 |x| ≤ k := by
    rcases eq_or_lt_of_le (abs_nonneg x) with h0 | hpos
    · rw [← h0]
      unfold expo32
      simp only [Real.logb_zero, Int.floor_zero]
      exact max_le hk (by omega)
    · exact expo32_le_of_le |x| k (by omega) hpos h
  omega

/-- A real of magnitude at most `2^127` converts to a finite `float`. -/
theorem r32_of_abs_le (x : ℝ) (h : |x| ≤ (2 : ℝ) ^ (127 : ℤ)) : r32 x = fin (round32 x) := by
  have hb := abs_round32_le x 127 (by norm_num) h
  rw [abs_le] at hb
  have h1 : (2 : ℝ) ^ (127 : ℤ) < (2 : ℝ) ^ 128 := by norm_num
  unfold r32
  rw [if_neg (by linarith), if_neg (by linarith)]

/-- Zero converts to zero. -/
theorem r32_zero : r32 0 = fin 0 := by
  rw [r32_of_abs_le 0 (by simp; positivity), round32_zero]

/-- A natural number below `2^24` converts exactly. -/
theorem r32_natCast (k : ℕ) (hk : k < 2 ^ 24) : r32 (k : ℝ) = fin (k : ℝ) := by
  rw [r32_of_abs_le, round32_natCast k hk]
  rw [abs_of_nonneg (Nat.cast_nonneg k)]
  have : (k : ℝ) < ((2 ^ 24 : ℕ) : ℝ) := by exact_mod_cast hk
  have h2 : (((2 ^ 24 : ℕ) : ℝ)) ≤ (2 : ℝ) ^ (127 : ℤ) := by norm_num
  linarith

/-- A real of at least `2^128` converts to `+inf`. -/
theorem r32_overflow (x : ℝ) (h : (2 : ℝ) ^ 128 ≤ x) : r32 x = pinf := by
  have hx0 : 0 < x := lt_of_lt_of_le (by positivity) h
  have hn : (2 : ℝ) ^ (-126 : ℤ) ≤ x := le_trans (by norm_num) h
  have he : (128 : ℤ) ≤ expo32 x := by
    have h128 : expo32 ((2 : ℝ) ^ (128 : ℤ)) = 128 :=
      expo32_eq _ 128 (by norm_num) le_rfl (zpow_lt_zpow_right₀ (by norm_num) (by norm_num))
    have := expo32_mono ((2 : ℝ) ^ (128 : ℤ)) x (zpow_pos (by norm_num) _) (by norm_num; linarith)
    omega
  have h1 := le_round32_pos x hn
  have h2 : (2 : ℝ) ^ (128 : ℤ) ≤ (2 : ℝ) ^ expo32 x := zpow_le_zpow_right₀ (by norm_num) he
  unfold r32
  rw [round32_of_nonneg x hx0.le, if_pos]
  calc (2 : ℝ) ^ 128 = (2 : ℝ) ^ (128 : ℤ) := by norm_num
    _ ≤ round32_pos x := le_trans h2 h1

/-- The conversion to `float` is monotone on non-negative reals. -/
theorem r32_mono (x y : ℝ) (hx : 0 ≤ x) (h : x ≤ y) : le (r32 x) (r32 y) := by
  have hm := round32_mono x y hx h
  have h0 := round32_nonneg x hx
  have hp : (0 : ℝ) < (2 : ℝ) ^ 128 := by positivity
  unfold r32
  by_cases hy : (2 : ℝ) ^ 128 ≤ round32 y
  · rw [if_pos hy]
    by_cases hxx : (2 : ℝ) ^ 128 ≤ round32 x
    · rw [if_pos hxx]
      simp [CFloat.le]
    · rw [if_neg hxx, if_neg (by linarith)]
      simp [CFloat.le]
  · rw [if_neg hy, if_neg (by linarith), if_neg (by linarith), if_neg (by linarith)]
    simpa using hm

/-- The conversion of a non-negative real is non-negative. -/
theorem r32_nonneg (x : ℝ) (hx : 0 ≤ x) : le (fin 0) (r32 x) := by
  have := r32_mono 0 x le_rfl hx
  rwa [r32_zero] at this

/-- The store into a `float` is monotone on non-negative values. -/
theorem r32c_mono (a b : CFloat) (ha : le (fin 0) a) (hab : le a b) :
    le (r32c a) (r32c b) := by
  cases a with
  | nan => simp [CFloat.le] at ha
  | ninf => simp [CFloat.le] at ha
  | pinf =>
    cases b with
    | pinf => simp [r32c, CFloat.le]
    | nan => simp [CFloat.le] at hab
    | ninf => simp [CFloat.le] at hab
    | fin y => simp [CFloat.le] at hab
  | fin x =>
    have hx : 0 ≤ x := by simpa using ha
    cases b with
    | nan => simp [CFloat.le] at hab
    | ninf => simp [CFloat.le] at hab
    | pinf =>
      have h1 := r32_nonneg x hx
      show le (r32 x) pinf
      cases hr : r32 x with
      | nan => rw [hr] at h1; simp [CFloat.le] at h1
      | ninf => simp [CFloat.le]
      | pinf => simp [CFloat.le]
      | fin z => simp [CFloat.le]
    | fin y =>
      have hxy : x ≤ y := by simpa using hab
      exact r32_mono x y hx hxy

/-! ## Rounding to binary64 -/

/-- The spacing is positive. -/
theorem ulp64_pos (x : ℝ) : 0 < ulp64 x := zpow_pos (by norm_num) _

/-- A positive real is below the upper end of its binade. -/
theorem lt_two_zpow_expo64_succ (x : ℝ) (hx : 0 < x) : x < (2 : ℝ) ^ (expo64 x + 1) := by
  have h1 : Real.logb 2 x < ((expo64 x + 1 : ℤ) : ℝ) := by
    have := Int.lt_floor_add_one (Real.logb 2 x)
    have h2 : (⌊Real.logb 2 x⌋ : ℝ) ≤ (expo64 x : ℝ) := by
      exact_mod_cast le_max_left _ _
    push_cast
    linarith
  rw [Real.logb_lt_iff_lt_rpow (by norm_num) hx, Real.rpow_intCast] at h1
  exact h1

/-- The exponent of a value in a given binade. -/
theorem expo64_eq (x : ℝ) (E : ℤ) (hE : -1022 ≤ E) (h1 : (2 : ℝ) ^ E ≤ x)
    (h2 : x < (2 : ℝ) ^ (E + 1)) : expo64 x = E := by
  have hx : 0 < x := lt_of_lt_of_le (zpow_pos (by norm_num) _) h1
  have hf : ⌊Real.logb 2 x⌋ = E := by
    rw [Int.floor_eq_iff]
    constructor
    · rw [Real.le_logb_iff_rpow_le (by norm_num) hx, Real.rpow_intCast]
      exact h1
    · have : ((E : ℝ) + 1) = ((E + 1 : ℤ) : ℝ) := by push_cast; ring
      rw [this, Real.logb_lt_iff_lt_rpow (by norm_num) hx, Real.rpow_intCast]
      exact h2
  unfold expo64
  rw [hf]
  exact max_eq_left hE

/-- A normal value is at least the lower end of its binade. -/
theorem two_zpow_expo64_le (x : ℝ) (hx : (2 : ℝ) ^ (-1022 : ℤ) ≤ x) :
    (2 : ℝ) ^ (expo64 x) ≤ x := by
  have hx0 : 0 < x := lt_of_lt_of_le (zpow_pos (by norm_num) _) hx
  have hf : (-1022 : ℤ) ≤ ⌊Real.logb 2 x⌋ := by
    rw [Int.le_floor, Real.le_logb_iff_rpow_le (by norm_num) hx0, Real.rpow_intCast]
    exact hx
  unfold expo64
  rw [max_eq_left hf]
  have := Int.floor_le (Real.logb 2 x)
  rw [Real.le_logb_iff_rpow_le (by norm_num) hx0, Real.rpow_intCast] at this
  exact this

/-- The exponent is at least `-1022`. -/
theorem expo64_ge (x : ℝ) : -1022 ≤ expo64 x := le_max_right _ _

/-- The exponent is monotone on positive reals. -/
theorem expo64_mono (x y : ℝ) (hx : 0 < x) (h : x ≤ y) : expo64 x ≤ expo64 y := by
  unfold expo64
  apply max_le_max _ le_rfl
  exact Int.floor_mono (Real.logb_le_logb_of_le (by norm_num) hx h)

/-- The exponent of a value bounded by a power of two. -/
theorem expo64_le_of_le (x : ℝ) (k : ℤ) (hk : -1022 ≤ k) (hx : 0 < x) (h : x ≤ (2 : ℝ) ^ k) :
    expo64 x ≤ k := by
  unfold expo64
  apply max_le _ hk
  have h1 : Real.logb 2 x ≤ (k : ℝ) := by
    rw [Real.logb_le_iff_le_rpow (by norm_num) hx, Real.rpow_intCast]
    exact h
  have := Int.floor_le (Real.logb 2 x)
  have h2 : (⌊Real.logb 2 x⌋ : ℝ) ≤ (k : ℝ) := by linarith
  exact_mod_cast h2

/-- A non-negative real rounds to a non-negative value. -/
theorem round64_pos_nonneg (x : ℝ) (hx : 0 ≤ x) : 0 ≤ round64_pos x := by
  unfold round64_pos
  apply mul_nonneg _ (ulp64_pos x).le
  have := rne_nonneg (x / ulp64 x) (div_nonneg hx (ulp64_pos x).le)
  exact_mod_cast this

/-- Rounding does not pass the upper end of the binade. -/
theorem round64_pos_le (x : ℝ) (hx : 0 < x) : round64_pos x ≤ (2 : ℝ) ^ (expo64 x + 1) := by
  unfold round64_pos
  have hu := ulp64_pos x
  have h2 : (2 : ℝ) ^ (expo64 x + 1) = ((2 ^ 53 : ℤ) : ℝ) * ulp64 x := by
    unfold ulp64
    have : expo64 x + 1 = 53 + (expo64 x - 52) := by ring
    rw [this, zpow_add₀ (by norm_num : (2 : ℝ) ≠ 0)]
    norm_num
  rw [h2]
  apply mul_le_mul_of_nonneg_right _ hu.le
  have hq : x / ulp64 x ≤ ((2 ^ 53 : ℤ) : ℝ) := by
    rw [div_le_iff₀ hu, ← h2]
    exact (lt_two_zpow_expo64_succ x hx).le
  have := rne_mono _ _ hq
  rw [rne_intCast] at this
  exact_mod_cast this

/-- Rounding a normal value does not pass the lower end of its binade. -/
theorem le_round64_pos (x : ℝ) (hx : (2 : ℝ) ^ (-1022 : ℤ) ≤ x) :
    (2 : ℝ) ^ (expo64 x) ≤ round64_pos x := by
  unfold round64_pos
  have hu := ulp64_pos x
  have h2 : (2 : ℝ) ^ (expo64 x) = ((2 ^ 52 : ℤ) : ℝ) * ulp64 x := by
    unfold ulp64
    have : expo64 x = 52 + (expo64 x - 52) := by ring
    conv_lhs => rw [this, zpow_add₀ (by norm_num : (2 : ℝ) ≠ 0)]
    norm_num
  rw [h2]
  apply mul_le_mul_of_nonneg_right _ hu.le
  have hq : ((2 ^ 52 : ℤ) : ℝ) ≤ x / ulp64 x := by
    rw [le_div_iff₀ hu, ← h2]
    exact two_zpow_expo64_le x hx
  have := rne_mono _ _ hq
  rw [rne_intCast] at this
  exact_mod_cast this

/-- Zero is not changed. -/
theorem round64_pos_zero : round64_pos 0 = 0 := by
  unfold round64_pos
  rw [zero_div]
  have h0 : rne (0 : ℝ) = 0 := by simpa using rne_intCast 0
  rw [h0]
  simp

/-- Rounding to binary64 is monotone on non-negative reals. -/
theorem round64_pos_mono (x y : ℝ) (hx : 0 ≤ x) (h : x ≤ y) :
    round64_pos x ≤ round64_pos y := by
  rcases eq_or_lt_of_le hx with h0 | hpos
  · rw [← h0, round64_pos_zero]
    exact round64_pos_nonneg y (le_trans hx h)
  · have he := expo64_mono x y hpos h
    rcases eq_or_lt_of_le he with heq | hlt
    · unfold round64_pos
      have hu : ulp64 x = ulp64 y := by unfold ulp64; rw [heq]
      rw [hu]
      apply mul_le_mul_of_nonneg_right _ (ulp64_pos y).le
      have := rne_mono (x / ulp64 y) (y / ulp64 y) (div_le_div_of_nonneg_right h (ulp64_pos y).le)
      exact_mod_cast this
    · have hy : (2 : ℝ) ^ (-1022 : ℤ) ≤ y := by
        by_contra hc
        push_neg at hc
        have hypos : 0 < y := lt_of_lt_of_le hpos h
        have : expo64 y ≤ -1022 := expo64_le_of_le y (-1022) le_rfl hypos hc.le
        have := expo64_ge x
        omega
      calc round64_pos x ≤ (2 : ℝ) ^ (expo64 x + 1) := round64_pos_le x hpos
        _ ≤ (2 : ℝ) ^ (expo64 y) := zpow_le_zpow_right₀ (by norm_num) (by omega)
        _ ≤ round64_pos y := le_round64_pos y hy

/-- A value with at most 53 significant bits at its binade is not changed. -/
theorem round64_pos_fixed (x : ℝ) (m : ℕ) (j : ℤ) (hx : x = (m : ℝ) * (2 : ℝ) ^ j)
    (hj : expo64 x - 52 ≤ j) : round64_pos x = x := by
  unfold round64_pos
  have hu := ulp64_pos x
  obtain ⟨d, hd⟩ : ∃ d : ℕ, j = (expo64 x - 52) + d := ⟨(j - (expo64 x - 52)).toNat, by omega⟩
  have hq : x / ulp64 x = (((m * 2 ^ d : ℕ) : ℤ) : ℝ) := by
    rw [div_eq_iff hu.ne']
    conv_lhs => rw [hx, hd]
    unfold ulp64
    rw [zpow_add₀ (by norm_num : (2 : ℝ) ≠ 0), zpow_natCast]
    push_cast
    ring
  rw [hq, rne_intCast, ← hq, div_mul_cancel₀ _ hu.ne']

/-- Rounding moves by at most half the spacing. -/
theorem abs_round64_pos_sub_le (x : ℝ) : |round64_pos x - x| ≤ ulp64 x / 2 := by
  unfold round64_pos
  have hu := ulp64_pos x
  have h := abs_rne_sub_le (x / ulp64 x)
  have : (rne (x / ulp64 x) : ℝ) * ulp64 x - x = ((rne (x / ulp64 x) : ℝ) - x / ulp64 x) * ulp64 x := by
    field_simp
  rw [this, abs_mul, abs_of_pos hu]
  calc |(rne (x / ulp64 x) : ℝ) - x / ulp64 x| * ulp64 x ≤ 1 / 2 * ulp64 x :=
        mul_le_mul_of_nonneg_right h hu.le
    _ = ulp64 x / 2 := by ring

/-- The exponent of a positive value below a power of two. -/
theorem expo64_le_of_lt (x : ℝ) (K : ℤ) (hK : -1022 ≤ K) (hx : 0 < x)
    (h : x < (2 : ℝ) ^ (K + 1)) : expo64 x ≤ K := by
  unfold expo64
  apply max_le _ hK
  have h1 : Real.logb 2 x < ((K + 1 : ℤ) : ℝ) := by
    rw [Real.logb_lt_iff_lt_rpow (by norm_num) hx, Real.rpow_intCast]
    exact h
  have h2 : ⌊Real.logb 2 x⌋ < K + 1 := Int.floor_lt.mpr h1
  omega

/-- On non-negative reals `round64` is `round64_pos`. -/
theorem round64_of_nonneg (x : ℝ) (hx : 0 ≤ x) : round64 x = round64_pos x := if_pos hx

/-- Zero is a binary64 value. -/
theorem round64_zero : round64 0 = 0 := by
  rw [round64_of_nonneg 0 le_rfl, round64_pos_zero]

/-- Rounding to binary64 is monotone on non-negative reals. -/
theorem round64_mono (x y : ℝ) (hx : 0 ≤ x) (h : x ≤ y) : round64 x ≤ round64 y := by
  rw [round64_of_nonneg x hx, round64_of_nonneg y (le_trans hx h)]
  exact round64_pos_mono x y hx h

/-- A non-negative real rounds to a non-negative value. -/
theorem round64_nonneg (x : ℝ) (hx : 0 ≤ x) : 0 ≤ round64 x := by
  rw [round64_of_nonneg x hx]
  exact round64_pos_nonneg x hx

/-- A power of two of the normal range is a binary64 value. -/
theorem round64_two_zpow (k : ℤ) (hk : -1022 ≤ k) : round64 ((2 : ℝ) ^ k) = (2 : ℝ) ^ k := by
  have hpos : (0 : ℝ) < (2 : ℝ) ^ k := zpow_pos (by norm_num) _
  rw [round64_of_nonneg _ hpos.le]
  have he : expo64 ((2 : ℝ) ^ k) = k :=
    expo64_eq _ k hk le_rfl (zpow_lt_zpow_right₀ (by norm_num) (by omega))
  apply round64_pos_fixed _ 1 k (by simp)
  rw [he]
  omega

/-- A natural number below `2^53` is a binary64 value. -/
theorem round64_natCast (k : ℕ) (hk : k < 2 ^ 53) : round64 (k : ℝ) = k := by
  rw [round64_of_nonneg _ (Nat.cast_nonneg k)]
  rcases Nat.eq_zero_or_pos k with h0 | hpos
  · subst h0
    simpa using round64_pos_zero
  · apply round64_pos_fixed _ k 0 (by simp)
    have hx : (0 : ℝ) < (k : ℝ) := by exact_mod_cast hpos
    have hlt : (k : ℝ) < (2 : ℝ) ^ ((52 : ℤ) + 1) := by
      have : (k : ℝ) < ((2 ^ 53 : ℕ) : ℝ) := by exact_mod_cast hk
      norm_num at this ⊢
      exact this
    have := expo64_le_of_lt (k : ℝ) 52 (by norm_num) hx hlt
    omega

/-- Rounding to binary64 moves by at most half the spacing. -/
theorem abs_round64_sub_le (x : ℝ) : |round64 x - x| ≤ ulp64 |x| / 2 := by
  unfold round64
  by_cases hx : 0 ≤ x
  · rw [if_pos hx, abs_of_nonneg hx]
    exact abs_round64_pos_sub_le x
  · rw [if_neg hx, abs_of_neg (not_le.mp hx)]
    have h := abs_round64_pos_sub_le (-x)
    have e : -round64_pos (-x) - x = -(round64_pos (-x) - -x) := by ring
    rw [e, abs_neg]
    exact h

/-- A real bounded by a power of two rounds within the same bound. -/
theorem abs_round64_le (x : ℝ) (k : ℤ) (hk : -1022 ≤ k) (h : |x| ≤ (2 : ℝ) ^ k) :
    |round64 x| ≤ (2 : ℝ) ^ k := by
  have hfix : round64_pos ((2 : ℝ) ^ k) = (2 : ℝ) ^ k := by
    have := round64_two_zpow k hk
    rwa [round64_of_nonneg _ (zpow_pos (by norm_num) _).le] at this
  unfold round64
  by_cases hx : 0 ≤ x
  · rw [if_pos hx, abs_of_nonneg (round64_pos_nonneg x hx)]
    rw [abs_of_nonneg hx] at h
    calc round64_pos x ≤ round64_pos ((2 : ℝ) ^ k) := round64_pos_mono x _ hx h
      _ = (2 : ℝ) ^ k := hfix
  · have hx0 : 0 ≤ -x := by linarith
    rw [if_neg hx, abs_neg, abs_of_nonneg (round64_pos_nonneg _ hx0)]
    rw [abs_of_neg (not_le.mp hx)] at h
    calc round64_pos (-x) ≤ round64_pos ((2 : ℝ) ^ k) := round64_pos_mono _ _ hx0 h
      _ = (2 : ℝ) ^ k := hfix

/-- The spacing at a real bounded by a power of two. -/
theorem ulp64_le (x : ℝ) (k : ℤ) (hk : 0 ≤ k) (h : |x| ≤ (2 : ℝ) ^ k) :
    ulp64 |x| ≤ (2 : ℝ) ^ (k - 52) := by
  unfold ulp64
  apply zpow_le_zpow_right₀ (by norm_num)
  have he : expo64 |x| ≤ k := by
    rcases eq_or_lt_of_le (abs_nonneg x) with h0 | hpos
    · rw [← h0]
      unfold expo64
      simp only [Real.logb_zero, Int.floor_zero]
      exact max_le hk (by omega)
    · exact expo64_le_of_le |x| k (by omega) hpos h
  omega

/-- A real of magnitude at most `2^1023` converts to a finite `double`. -/
theorem r64_of_abs_le (x : ℝ) (h : |x| ≤ (2 : ℝ) ^ (1023 : ℤ)) : r64 x = fin (round64 x) := by
  have hb := abs_round64_le x 1023 (by norm_num) h
  rw [abs_le] at hb
  have h1 : (2 : ℝ) ^ (1023 : ℤ) < (2 : ℝ) ^ 1024 := by norm_num
  unfold r64
  rw [if_neg (by linarith), if_neg (by linarith)]

/-- Zero converts to zero. -/
theorem r64_zero : r64 0 = fin 0 := by
  rw [r64_of_abs_le 0 (by simp; positivity), round64_zero]

/-- A value of a known binade that is closer than half a spacing to a multiple
of the spacing rounds to that multiple. -/
theorem round32_eq_of_near (x : ℝ) (E z : ℤ) (hE : -126 ≤ E) (h1 : (2 : ℝ) ^ E ≤ x)
    (h2 : x < (2 : ℝ) ^ (E + 1)) (hz : |x / (2 : ℝ) ^ (E - 23) - z| < 1 / 2) :
    round32 x = (z : ℝ) * (2 : ℝ) ^ (E - 23) := by
  have hx : 0 ≤ x := le_trans (zpow_pos (by norm_num) _).le h1
  rw [round32_of_nonneg x hx]
  unfold round32_pos ulp32
  rw [expo32_eq x E hE h1 h2, rne_eq_of_abs_lt _ z hz]

/-- Rounding to binary32 commutes with negation. -/
theorem round32_neg (x : ℝ) : round32 (-x) = -round32 x := by
  rcases lt_trichotomy x 0 with h | h | h
  · unfold round32
    rw [if_pos (by linarith), if_neg (by linarith)]
    simp
  · subst h
    simp [round32_zero]
  · unfold round32
    rw [if_neg (by linarith), if_pos h.le]
    simp

/-- The binary32 rounding error of a real of magnitude at most `2^k`. -/
theorem abs_round32_sub_le_pow (x : ℝ) (k : ℕ) (h : |x| ≤ 2 ^ k) :
    |round32 x - x| ≤ 2 ^ k / 2 ^ 24 := by
  have h1 := abs_round32_sub_le x
  have h2 := ulp32_le x (k : ℤ) (by omega) (by rwa [zpow_natCast])
  have h3 : (2 : ℝ) ^ ((k : ℤ) - 23) / 2 = 2 ^ k / 2 ^ 24 := by
    rw [zpow_sub₀ (by norm_num : (2 : ℝ) ≠ 0), zpow_natCast]
    norm_num
    ring
  linarith

/-- The binary64 rounding error of a real of magnitude at most `2^k`. -/
theorem abs_round64_sub_le_pow (x : ℝ) (k : ℕ) (h : |x| ≤ 2 ^ k) :
    |round64 x - x| ≤ 2 ^ k / 2 ^ 53 := by
  have h1 := abs_round64_sub_le x
  have h2 := ulp64_le x (k : ℤ) (by omega) (by rwa [zpow_natCast])
  have h3 : (2 : ℝ) ^ ((k : ℤ) - 52) / 2 = 2 ^ k / 2 ^ 53 := by
    rw [zpow_sub₀ (by norm_num : (2 : ℝ) ≠ 0), zpow_natCast]
    norm_num
    ring
  linarith

/-- A real of magnitude at most `2^k` rounds to binary64 within the same
bound. -/
theorem abs_round64_le_pow (x : ℝ) (k : ℕ) (h : |x| ≤ 2 ^ k) : |round64 x| ≤ 2 ^ k := by
  have := abs_round64_le x (k : ℤ) (by omega) (by rwa [zpow_natCast])
  rwa [zpow_natCast] at this

/-- A real of magnitude at most `2^k` rounds to binary32 within the same
bound. -/
theorem abs_round32_le_pow (x : ℝ) (k : ℕ) (h : |x| ≤ 2 ^ k) : |round32 x| ≤ 2 ^ k := by
  have := abs_round32_le x (k : ℤ) (by omega) (by rwa [zpow_natCast])
  rwa [zpow_natCast] at this

/-- A real of magnitude at most `2^k` with `k ≤ 1023` converts to a finite
`double`. -/
theorem r64_of_abs_le_pow (x : ℝ) (k : ℕ) (hk : k ≤ 1023) (h : |x| ≤ 2 ^ k) :
    r64 x = fin (round64 x) := by
  apply r64_of_abs_le
  have h2 : (2 : ℝ) ^ k ≤ (2 : ℝ) ^ (1023 : ℤ) := by
    rw [← zpow_natCast]
    exact zpow_le_zpow_right₀ (by norm_num) (by exact_mod_cast hk)
  linarith

/-- A real whose binary32 rounding is below `2^128` in magnitude converts to a
finite `float`. -/
theorem r32_of_abs_round32_lt (x : ℝ) (h : |round32 x| < 2 ^ 128) : r32 x = fin (round32 x) := by
  rw [abs_lt] at h
  unfold r32
  rw [if_neg (by linarith), if_neg (by linarith)]

/-- A non-negative real that exceeds `2^k` by at most `2^k / 2^50` rounds to
`2^k` in binary32. -/
theorem round32_just_above (y : ℝ) (k : ℕ) (h1 : 2 ^ k < y) (h2 : y ≤ 2 ^ k + 2 ^ k / 2 ^ 50) :
    round32 y = 2 ^ k := by
  have hB : (0 : ℝ) < 2 ^ k := by positivity
  have hz : (2 : ℝ) ^ ((k : ℤ) - 23) = 2 ^ k / 2 ^ 23 := by
    rw [zpow_sub₀ (by norm_num : (2 : ℝ) ≠ 0), zpow_natCast]
    norm_num
  have hk1 : (2 : ℝ) ^ ((k : ℤ) + 1) = 2 * 2 ^ k := by
    rw [zpow_add₀ (by norm_num : (2 : ℝ) ≠ 0), zpow_natCast]
    norm_num
    ring
  have h50 : (2 : ℝ) ^ k / 2 ^ 50 ≤ 2 ^ k / 2 := by
    apply div_le_div_of_nonneg_left hB.le (by norm_num) (by norm_num)
  have hn := round32_eq_of_near y (k : ℤ) ((2 ^ 23 : ℕ) : ℤ) (by omega)
    (by rw [zpow_natCast]; exact h1.le) (by rw [hk1]; linarith) (by
      rw [hz]
      have e : y / (2 ^ k / 2 ^ 23) - (((2 ^ 23 : ℕ) : ℤ) : ℝ)
          = (y - 2 ^ k) / 2 ^ k * 2 ^ 23 := by
        push_cast
        field_simp
        norm_num
        ring
      rw [e]
      have h3 : 0 < (y - 2 ^ k) / 2 ^ k := div_pos (by linarith) hB
      have h4 : (y - 2 ^ k) / 2 ^ k ≤ 1 / 2 ^ 50 := by
        rw [div_le_iff₀ hB]
        have : (1 : ℝ) / 2 ^ 50 * 2 ^ k = 2 ^ k / 2 ^ 50 := by ring
        linarith
      rw [abs_of_pos (by positivity)]
      calc (y - 2 ^ k) / 2 ^ k * 2 ^ 23 ≤ 1 / 2 ^ 50 * 2 ^ 23 := by
            apply mul_le_mul_of_nonneg_right h4 (by norm_num)
        _ < 1 / 2 := by norm_num)
  rw [hn, hz]
  push_cast
  field_simp
  norm_num
  ring

/-- The store into a `float` of a real that exceeds `2^k` in magnitude by at
most `2^k / 2^50`: the stored value is within `2^k`, and the store moves the
value by at most `2^k / 2^24`. -/
theorem round32_store_bound (y : ℝ) (k : ℕ) (h : |y| ≤ 2 ^ k + 2 ^ k / 2 ^ 50) :
    |round32 y| ≤ 2 ^ k ∧ |round32 y - y| ≤ 2 ^ k / 2 ^ 24 := by
  have hB : (0 : ℝ) < 2 ^ k := by positivity
  have h50 : (2 : ℝ) ^ k / 2 ^ 50 ≤ 2 ^ k / 2 ^ 24 :=
    div_le_div_of_nonneg_left hB.le (by norm_num) (by norm_num)
  by_cases hle : |y| ≤ 2 ^ k
  · exact ⟨abs_round32_le_pow y k hle, abs_round32_sub_le_pow y k hle⟩
  · have hlt : 2 ^ k < |y| := not_le.mp hle
    have hr := round32_just_above |y| k hlt h
    rcases le_total 0 y with h0 | h0
    · rw [abs_of_nonneg h0] at hr hlt h
      rw [hr]
      refine ⟨by rw [abs_of_pos hB], ?_⟩
      rw [abs_sub_comm, abs_of_pos (by linarith)]
      linarith
    · rw [abs_of_nonpos h0] at hr hlt h
      rw [round32_neg] at hr
      have hr2 : round32 y = -2 ^ k := by linarith
      rw [hr2]
      refine ⟨by rw [abs_neg, abs_of_pos hB], ?_⟩
      rw [abs_of_pos (by linarith)]
      linarith
/-- Half a natural number below `2^53` is a binary64 value. -/
theorem round64_half_natCast (n : ℕ) (hn : n < 2 ^ 53) :
    round64 ((n : ℝ) / 2) = (n : ℝ) / 2 := by
  have h0 : (0 : ℝ) ≤ (n : ℝ) / 2 := by positivity
  rw [round64_of_nonneg _ h0]
  rcases Nat.eq_zero_or_pos n with hz | hpos
  · subst hz
    simpa using round64_pos_zero
  · apply round64_pos_fixed _ n (-1) (by rw [zpow_neg_one]; ring)
    have hx : (0 : ℝ) < (n : ℝ) / 2 := by
      have : (0 : ℝ) < (n : ℝ) := by exact_mod_cast hpos
      linarith
    have hlt : (n : ℝ) / 2 < (2 : ℝ) ^ ((51 : ℤ) + 1) := by
      have h24 : (n : ℝ) < 9007199254740992 := by exact_mod_cast hn
      norm_num
      linarith
    have := expo64_le_of_lt ((n : ℝ) / 2) 51 (by norm_num) hx hlt
    omega

/-- A natural number below `2^53` converts to `double` exactly. -/
theorem r64_natCast (k : ℕ) (hk : k < 2 ^ 53) : r64 (k : ℝ) = fin (k : ℝ) := by
  rw [r64_of_abs_le, round64_natCast k hk]
  rw [abs_of_nonneg (Nat.cast_nonneg k)]
  have : (k : ℝ) < ((2 ^ 53 : ℕ) : ℝ) := by exact_mod_cast hk
  have h2 : (((2 ^ 53 : ℕ) : ℝ)) ≤ (2 : ℝ) ^ (1023 : ℤ) := by norm_num
  linarith

/-- A real of at least `2^1024` rounds to `+inf` in `double`. -/
theorem r64_overflow (x : ℝ) (h : (2 : ℝ) ^ 1024 ≤ x) : r64 x = pinf := by
  have hx0 : 0 < x := lt_of_lt_of_le (by positivity) h
  have hn : (2 : ℝ) ^ (-1022 : ℤ) ≤ x := le_trans (by norm_num) h
  have he : (1024 : ℤ) ≤ expo64 x := by
    have h1024 : expo64 ((2 : ℝ) ^ (1024 : ℤ)) = 1024 :=
      expo64_eq _ 1024 (by norm_num) le_rfl (zpow_lt_zpow_right₀ (by norm_num) (by norm_num))
    have := expo64_mono ((2 : ℝ) ^ (1024 : ℤ)) x (zpow_pos (by norm_num) _) (by norm_num; linarith)
    omega
  have h1 := le_round64_pos x hn
  have h2 : (2 : ℝ) ^ (1024 : ℤ) ≤ (2 : ℝ) ^ expo64 x := zpow_le_zpow_right₀ (by norm_num) he
  unfold r64
  rw [round64_of_nonneg x hx0.le, if_pos]
  calc (2 : ℝ) ^ 1024 = (2 : ℝ) ^ (1024 : ℤ) := by norm_num
    _ ≤ round64_pos x := le_trans h2 h1

/-- Rounding to `double` is monotone on non-negative reals. -/
theorem r64_mono (x y : ℝ) (hx : 0 ≤ x) (h : x ≤ y) : le (r64 x) (r64 y) := by
  have hm := round64_mono x y hx h
  have h0 := round64_nonneg x hx
  have hp : (0 : ℝ) < (2 : ℝ) ^ 1024 := by positivity
  unfold r64
  by_cases hy : (2 : ℝ) ^ 1024 ≤ round64 y
  · rw [if_pos hy]
    by_cases hxx : (2 : ℝ) ^ 1024 ≤ round64 x
    · rw [if_pos hxx]
      simp [CFloat.le]
    · rw [if_neg hxx, if_neg (by linarith)]
      simp [CFloat.le]
  · rw [if_neg hy, if_neg (by linarith), if_neg (by linarith), if_neg (by linarith)]
    simpa using hm

/-- Rounding a non-negative real to `double` gives a non-negative value. -/
theorem r64_nonneg (x : ℝ) (hx : 0 ≤ x) : le (fin 0) (r64 x) := by
  have := r64_mono 0 x le_rfl hx
  rwa [r64_zero] at this

/-- Rounding a `double` result is monotone on non-negative values. -/
theorem r64c_mono (a b : CFloat) (ha : le (fin 0) a) (hab : le a b) :
    le (r64c a) (r64c b) := by
  cases a with
  | nan => simp [CFloat.le] at ha
  | ninf => simp [CFloat.le] at ha
  | pinf =>
    cases b with
    | pinf => simp [r64c, CFloat.le]
    | nan => simp [CFloat.le] at hab
    | ninf => simp [CFloat.le] at hab
    | fin y => simp [CFloat.le] at hab
  | fin x =>
    have hx : 0 ≤ x := by simpa using ha
    cases b with
    | nan => simp [CFloat.le] at hab
    | ninf => simp [CFloat.le] at hab
    | pinf =>
      have h1 := r64_nonneg x hx
      show le (r64 x) pinf
      cases hr : r64 x with
      | nan => rw [hr] at h1; simp [CFloat.le] at h1
      | ninf => simp [CFloat.le]
      | pinf => simp [CFloat.le]
      | fin z => simp [CFloat.le]
    | fin y =>
      have hxy : x ≤ y := by simpa using hab
      exact r64_mono x y hx hxy
/-- The relative binary64 rounding error of a real in the normal range. -/
theorem abs_round64_sub_le_rel (x : ℝ) (hx : (2 : ℝ) ^ (-1022 : ℤ) ≤ |x|) :
    |round64 x - x| ≤ |x| / 2 ^ 53 := by
  have h := abs_round64_sub_le x
  have h1 := two_zpow_expo64_le |x| hx
  have h2 : ulp64 |x| = (2 : ℝ) ^ expo64 |x| / 2 ^ 52 := by
    unfold ulp64
    rw [zpow_sub₀ (by norm_num : (2 : ℝ) ≠ 0)]
    norm_num
  rw [h2] at h
  have h3 : (2 : ℝ) ^ expo64 |x| / 2 ^ 52 / 2 ≤ |x| / 2 ^ 53 := by
    have e : |x| / 2 ^ 53 = |x| / 2 ^ 52 / 2 := by ring
    rw [e]
    apply div_le_div_of_nonneg_right _ (by norm_num)
    exact div_le_div_of_nonneg_right h1 (by positivity)
  linarith

/-- The relative binary64 rounding error of a real, with the absolute error of
the subnormal range. -/
theorem abs_round64_sub_le_rel_add (x : ℝ) :
    |round64 x - x| ≤ |x| / 2 ^ 53 + 1 / 2 ^ 1075 := by
  rcases eq_or_lt_of_le (abs_nonneg x) with h0 | hpos
  · have hx : x = 0 := abs_eq_zero.mp h0.symm
    subst hx
    rw [round64_zero]
    simp
  · by_cases hn : (2 : ℝ) ^ (-1022 : ℤ) ≤ |x|
    · have := abs_round64_sub_le_rel x hn
      have : (0 : ℝ) ≤ 1 / 2 ^ 1075 := by positivity
      linarith
    · have hlt : |x| < (2 : ℝ) ^ ((-1022 : ℤ) + 1) :=
        lt_trans (not_le.mp hn) (zpow_lt_zpow_right₀ (by norm_num) (by norm_num))
      have he : expo64 |x| = -1022 :=
        le_antisymm (expo64_le_of_lt |x| (-1022) le_rfl hpos hlt) (expo64_ge _)
      have h := abs_round64_sub_le x
      have h2 : ulp64 |x| / 2 = 1 / 2 ^ 1075 := by
        unfold ulp64
        rw [he]
        have e : ((-1022 : ℤ) - 52) = -(1074 : ℕ) := by norm_num
        rw [e, zpow_neg, zpow_natCast]
        rw [pow_succ (2 : ℝ) 1074]
        field_simp
      rw [h2] at h
      have : (0 : ℝ) ≤ |x| / 2 ^ 53 := by positivity
      linarith

/-- A power of two with a small exponent is close to `1`. -/
theorem two_rpow_near_one (d η : ℝ) (hd : |d| ≤ η) (hη : η ≤ 1 / 2) :
    1 - η ≤ (2 : ℝ) ^ d ∧ (2 : ℝ) ^ d ≤ 1 + 2 * η := by
  have hη0 : 0 ≤ η := le_trans (abs_nonneg d) hd
  have hlog1 : Real.log 2 ≤ 1 := by
    have := Real.log_two_lt_d9
    linarith
  have hlog0 : 0 ≤ Real.log 2 := Real.log_nonneg (by norm_num)
  have hlow : 1 - η ≤ (2 : ℝ) ^ (-η) := by
    rw [Real.rpow_def_of_pos (by norm_num : (0 : ℝ) < 2)]
    have h1 := Real.add_one_le_exp (Real.log 2 * -η)
    have h2 : Real.log 2 * η ≤ 1 * η := mul_le_mul_of_nonneg_right hlog1 hη0
    linarith
  have hinv : (2 : ℝ) ^ η * (2 : ℝ) ^ (-η) = 1 := by
    rw [← Real.rpow_add (by norm_num : (0 : ℝ) < 2)]
    simp
  have hpos : 0 < (2 : ℝ) ^ η := Real.rpow_pos_of_pos (by norm_num) _
  have hhigh : (2 : ℝ) ^ η ≤ 1 + 2 * η := by
    have h3 : (2 : ℝ) ^ η * (1 - η) ≤ 1 := by
      have := mul_le_mul_of_nonneg_left hlow hpos.le
      rwa [hinv] at this
    have h4 : (1 + 2 * η) * (1 - η) - 1 = η * (1 - 2 * η) := by ring
    have h5 : 0 ≤ η * (1 - 2 * η) := mul_nonneg hη0 (by linarith)
    have h6 : 0 < 1 - η := by linarith
    have h7 : (2 : ℝ) ^ η * (1 - η) ≤ (1 + 2 * η) * (1 - η) := by linarith
    exact le_of_mul_le_mul_right h7 h6
  rw [abs_le] at hd
  constructor
  · calc 1 - η ≤ (2 : ℝ) ^ (-η) := hlow
      _ ≤ (2 : ℝ) ^ d := Real.rpow_le_rpow_of_exponent_le (by norm_num) hd.1
  · calc (2 : ℝ) ^ d ≤ (2 : ℝ) ^ η := Real.rpow_le_rpow_of_exponent_le (by norm_num) hd.2
      _ ≤ 1 + 2 * η := hhigh

/-- A real within `2^-26` (relative) of a binary32 value `k * u` with a full
significand `2^23 ≤ k < 2^24` and the spacing `u = 2^j` rounds to that value. -/
theorem round32_eq_of_near_significand (k : ℕ) (j : ℤ) (hk1 : 2 ^ 23 ≤ k) (hk : k < 2 ^ 24)
    (hj : -100 ≤ j) (y : ℝ) (h : |y - (k : ℝ) * (2 : ℝ) ^ j| ≤ (k : ℝ) * (2 : ℝ) ^ j / 2 ^ 26) :
    round32 y = (k : ℝ) * (2 : ℝ) ^ j := by
  have hu : (0 : ℝ) < (2 : ℝ) ^ j := zpow_pos (by norm_num) _
  have hk1r : (8388608 : ℝ) ≤ (k : ℝ) := by exact_mod_cast hk1
  have hkr : (k : ℝ) + 1 ≤ 16777216 := by exact_mod_cast hk
  have e23 : (2 : ℝ) ^ ((23 : ℤ) + j) = 8388608 * (2 : ℝ) ^ j := by
    rw [zpow_add₀ (by norm_num : (2 : ℝ) ≠ 0)]
    norm_num
  have e24 : (2 : ℝ) ^ ((23 : ℤ) + j + 1) = 16777216 * (2 : ℝ) ^ j := by
    rw [zpow_add₀ (by norm_num : (2 : ℝ) ≠ 0), zpow_add₀ (by norm_num : (2 : ℝ) ≠ 0)]
    norm_num
    ring
  have e22 : (2 : ℝ) ^ ((22 : ℤ) + j) = 4194304 * (2 : ℝ) ^ j := by
    rw [zpow_add₀ (by norm_num : (2 : ℝ) ≠ 0)]
    norm_num
  have e22s : (2 : ℝ) ^ ((22 : ℤ) + j + 1) = 8388608 * (2 : ℝ) ^ j := by
    rw [zpow_add₀ (by norm_num : (2 : ℝ) ≠ 0), zpow_add₀ (by norm_num : (2 : ℝ) ≠ 0)]
    norm_num
    ring
  have eu : (2 : ℝ) ^ ((23 : ℤ) + j - 23) = (2 : ℝ) ^ j := by
    congr 1
    ring
  have eu2 : (2 : ℝ) ^ ((22 : ℤ) + j - 23) = (2 : ℝ) ^ j / 2 := by
    have : (22 : ℤ) + j - 23 = j - 1 := by ring
    rw [this, zpow_sub₀ (by norm_num : (2 : ℝ) ≠ 0)]
    norm_num
  have htol : (k : ℝ) * (2 : ℝ) ^ j / 2 ^ 26 ≤ (2 : ℝ) ^ j / 4 := by
    have : (k : ℝ) * (2 : ℝ) ^ j ≤ 16777216 * (2 : ℝ) ^ j :=
      mul_le_mul_of_nonneg_right (by linarith) hu.le
    have e : (2 : ℝ) ^ j / 4 = 16777216 * (2 : ℝ) ^ j / 2 ^ 26 := by
      norm_num
      ring
    rw [e]
    exact div_le_div_of_nonneg_right this (by positivity)
  rw [abs_le] at h
  by_cases hy : 8388608 * (2 : ℝ) ^ j ≤ y
  · have hlt : y < 16777216 * (2 : ℝ) ^ j := by nlinarith
    rw [round32_eq_of_near y (23 + j) (k : ℤ) (by omega) (by rw [e23]; exact hy)
      (by rw [e24]; exact hlt) (by
        rw [eu]
        have e : y / (2 : ℝ) ^ j - ((k : ℤ) : ℝ) = (y - (k : ℝ) * (2 : ℝ) ^ j) / (2 : ℝ) ^ j := by
          push_cast
          field_simp
          ring
        rw [e, abs_lt, lt_div_iff₀ hu, div_lt_iff₀ hu]
        constructor <;> linarith)]
    rw [eu]
    push_cast
    ring
  · have hylt : y < 8388608 * (2 : ℝ) ^ j := not_le.mp hy
    have hk23 : k = 2 ^ 23 := by
      have h1 : (k : ℝ) * (2 : ℝ) ^ j < 8388608 * (2 : ℝ) ^ j + (2 : ℝ) ^ j / 4 := by linarith
      have h2 : (k : ℝ) < 8388608 + 1 / 4 := by
        have h3 : (k : ℝ) * (2 : ℝ) ^ j < (8388608 + 1 / 4) * (2 : ℝ) ^ j := by linarith
        exact lt_of_mul_lt_mul_right h3 hu.le
      have h4 : (k : ℝ) < 8388609 := by linarith
      have h5 : k < 8388609 := by exact_mod_cast h4
      omega
    subst hk23
    have htol2 : ((2 ^ 23 : ℕ) : ℝ) * (2 : ℝ) ^ j / 2 ^ 26 = (2 : ℝ) ^ j / 8 := by
      push_cast
      ring
    rw [htol2] at h
    have hcast : ((2 ^ 23 : ℕ) : ℝ) = 8388608 := by norm_num
    rw [hcast] at h ⊢
    rw [round32_eq_of_near y (22 + j) ((2 ^ 24 : ℕ) : ℤ) (by omega)
      (by rw [e22]; linarith) (by rw [e22s]; exact hylt) (by
        rw [eu2]
        have e : y / ((2 : ℝ) ^ j / 2) - (((2 ^ 24 : ℕ) : ℤ) : ℝ)
            = (y - 8388608 * (2 : ℝ) ^ j) / ((2 : ℝ) ^ j / 2) := by
          push_cast
          field_simp
          ring
        have hu2 : (0 : ℝ) < (2 : ℝ) ^ j / 2 := by positivity
        rw [e, abs_lt, lt_div_iff₀ hu2, div_lt_iff₀ hu2]
        constructor <;> linarith)]
    rw [eu2]
    push_cast
    ring

/-- A real within `2^-26` (relative) of `k * 2^j` with `1 ≤ k < 2^24`, a
binary32 value, rounds to it. -/
theorem round32_eq_of_near_float (k : ℕ) (j : ℤ) (hk1 : 1 ≤ k) (hk : k < 2 ^ 24)
    (hj : -50 ≤ j) (y : ℝ) (h : |y - (k : ℝ) * (2 : ℝ) ^ j| ≤ (k : ℝ) * (2 : ℝ) ^ j / 2 ^ 26) :
    round32 y = (k : ℝ) * (2 : ℝ) ^ j := by
  have he1 : 2 ^ Nat.log 2 k ≤ k := Nat.pow_log_le_self 2 (by omega)
  have he2 : k < 2 ^ (Nat.log 2 k + 1) := Nat.lt_pow_succ_log_self (by norm_num) k
  have he : Nat.log 2 k < 24 := by
    have : 2 ^ Nat.log 2 k < 2 ^ 24 := lt_of_le_of_lt he1 hk
    exact (Nat.pow_lt_pow_iff_right (by norm_num)).mp this
  obtain ⟨s, hs⟩ : ∃ s, Nat.log 2 k + s = 23 := ⟨23 - Nat.log 2 k, by omega⟩
  have hk1' : 2 ^ 23 ≤ k * 2 ^ s := by
    calc 2 ^ 23 = 2 ^ Nat.log 2 k * 2 ^ s := by rw [← pow_add, hs]
      _ ≤ k * 2 ^ s := Nat.mul_le_mul_right _ he1
  have hk' : k * 2 ^ s < 2 ^ 24 := by
    calc k * 2 ^ s < 2 ^ (Nat.log 2 k + 1) * 2 ^ s :=
          Nat.mul_lt_mul_of_pos_right he2 (by positivity)
      _ = 2 ^ 24 := by rw [← pow_add]; congr 1; omega
  have e : ((k * 2 ^ s : ℕ) : ℝ) * (2 : ℝ) ^ (j - (s : ℤ)) = (k : ℝ) * (2 : ℝ) ^ j := by
    rw [zpow_sub₀ (by norm_num : (2 : ℝ) ≠ 0), zpow_natCast]
    push_cast
    field_simp
    ring
  have := round32_eq_of_near_significand (k * 2 ^ s) (j - (s : ℤ)) hk1' hk' (by omega) y
    (by rw [e]; exact h)
  rw [this, e]

/-- A real within `2^-26` (relative) of a natural number `1 ≤ k < 2^24` rounds
to it. -/
theorem round32_eq_of_near_natCast (k : ℕ) (hk1 : 1 ≤ k) (hk : k < 2 ^ 24) (y : ℝ)
    (h : |y - (k : ℝ)| ≤ (k : ℝ) / 2 ^ 26) : round32 y = (k : ℝ) := by
  have := round32_eq_of_near_float k 0 hk1 hk (by norm_num) y (by simpa using h)
  simpa using this
/-! ## Order of `CFloat` -/

/-- The comparison `<=` is transitive. -/
theorem CFloat.le_of_le_of_le (a b c : CFloat) (hab : le a b) (hbc : le b c) : le a c := by
  cases a <;> cases b <;> cases c <;> simp [CFloat.le] at hab hbc ⊢
  exact hab.trans hbc

/-- A non-negative value compares `<=` to itself (a NaN does not). -/
theorem CFloat.le_self_of_nonneg (a : CFloat) (ha : le (fin 0) a) : le a a := by
  cases a <;> simp [CFloat.le] at ha ⊢

/-- The product `9 * a` is monotone on non-negative values. -/
theorem nine_mul_mono (a b : CFloat) (ha : le (fin 0) a) (hab : le a b) :
    le (fin 0) (fin 9 * a) ∧ le (fin 9 * a) (fin 9 * b) := by
  cases a with
  | nan => simp [CFloat.le] at ha
  | ninf => simp [CFloat.le] at ha
  | pinf =>
    cases b with
    | pinf =>
      show le (fin 0) (CFloat.mul (fin 9) pinf) ∧ le (CFloat.mul (fin 9) pinf) (CFloat.mul (fin 9) pinf)
      simp [CFloat.mul, CFloat.inf_of_sign, CFloat.le]
    | nan => simp [CFloat.le] at hab
    | ninf => simp [CFloat.le] at hab
    | fin y => simp [CFloat.le] at hab
  | fin x =>
    have hx : 0 ≤ x := by simpa using ha
    cases b with
    | nan => simp [CFloat.le] at hab
    | ninf => simp [CFloat.le] at hab
    | pinf =>
      show le (fin 0) (fin 9 * fin x) ∧ le (fin 9 * fin x) (CFloat.mul (fin 9) pinf)
      simp [CFloat.mul, CFloat.inf_of_sign, CFloat.le, hx]
    | fin y =>
      have hxy : x ≤ y := by simpa using hab
      simp only [CFloat.fin_mul_fin, CFloat.le_fin_fin]
      constructor <;> linarith

/-- The sum `1 + a` is monotone on non-negative values. -/
theorem one_add_mono (a b : CFloat) (ha : le (fin 0) a) (hab : le a b) :
    le (fin 1) (fin 1 + a) ∧ le (fin 1 + a) (fin 1 + b) := by
  cases a with
  | nan => simp [CFloat.le] at ha
  | ninf => simp [CFloat.le] at ha
  | pinf =>
    cases b with
    | pinf =>
      show le (fin 1) (CFloat.add (fin 1) pinf) ∧ le (CFloat.add (fin 1) pinf) (CFloat.add (fin 1) pinf)
      simp [CFloat.add, CFloat.le]
    | nan => simp [CFloat.le] at hab
    | ninf => simp [CFloat.le] at hab
    | fin y => simp [CFloat.le] at hab
  | fin x =>
    have hx : 0 ≤ x := by simpa using ha
    cases b with
    | nan => simp [CFloat.le] at hab
    | ninf => simp [CFloat.le] at hab
    | pinf =>
      show le (fin 1) (fin 1 + fin x) ∧ le (fin 1 + fin x) (CFloat.add (fin 1) pinf)
      simp [CFloat.add, CFloat.le, hx]
    | fin y =>
      have hxy : x ≤ y := by simpa using hab
      simp only [CFloat.fin_add_fin, CFloat.le_fin_fin]
      constructor <;> linarith

/-- The function `log10` is monotone on values of at least `1`. -/
theorem log10_mono (a b : CFloat) (ha : le (fin 1) a) (hab : le a b) :
    le (fin 0) (log10 a) ∧ le (log10 a) (log10 b) := by
  cases a with
  | nan => simp [CFloat.le] at ha
  | ninf => simp [CFloat.le] at ha
  | pinf =>
    cases b with
    | pinf => simp [CFloat.log10, CFloat.logb, CFloat.le]
    | nan => simp [CFloat.le] at hab
    | ninf => simp [CFloat.le] at hab
    | fin y => simp [CFloat.le] at hab
  | fin x =>
    have hx : 1 ≤ x := by simpa using ha
    have hx0 : 0 < x := by linarith
    have hl : 0 ≤ Real.logb 10 x := Real.logb_nonneg (by norm_num) hx
    cases b with
    | nan => simp [CFloat.le] at hab
    | ninf => simp [CFloat.le] at hab
    | pinf =>
      rw [CFloat.log10_fin_pos x hx0]
      simp [CFloat.log10, CFloat.logb, CFloat.le, hl]
    | fin y =>
      have hxy : x ≤ y := by simpa using hab
      have hy0 : 0 < y := by linarith
      rw [CFloat.log10_fin_pos x hx0, CFloat.log10_fin_pos y hy0]
      simp only [CFloat.le_fin_fin]
      exact ⟨hl, Real.logb_le_logb_of_le (by norm_num) hx0 hxy⟩

/-! ## Log-scale normaliser -/

/-- The tail of `apply_log_scaling` after the quotient is monotone in the
quotient and not negative. -/
theorem log_scale_tail_mono (a b : CFloat) (ha : le (fin 0) a) (hab : le a b) :
    le (fin 0) (r32c (r64c (log10 (r32c (fin 1 + r32c (fin 9 * a)))))) ∧
    le (r32c (r64c (log10 (r32c (fin 1 + r32c (fin 9 * a))))))
      (r32c (r64c (log10 (r32c (fin 1 + r32c (fin 9 * b)))))) := by
  have hz : r32c (fin 0) = fin 0 := r32_zero
  have h1 : r32c (fin 1) = fin 1 := by simpa using r32_natCast 1 (by norm_num)
  have h01 : le (fin 0) (fin 1) := by simp
  obtain ⟨m0, m1⟩ := nine_mul_mono a b ha hab
  have r0 : le (fin 0) (r32c (fin 9 * a)) := by
    have := r32c_mono _ _ (by simp) m0
    rwa [hz] at this
  have r1 := r32c_mono _ _ m0 m1
  obtain ⟨s0, s1⟩ := one_add_mono _ _ r0 r1
  have t0 : le (fin 1) (r32c (fin 1 + r32c (fin 9 * a))) := by
    have := r32c_mono _ _ h01 s0
    rwa [h1] at this
  have t1 := r32c_mono _ _ (CFloat.le_of_le_of_le _ _ _ h01 s0) s1
  obtain ⟨l0, l1⟩ := log10_mono _ _ t0 t1
  have hz64 : r64c (fin 0) = fin 0 := r64_zero
  have d0 : le (fin 0) (r64c (log10 (r32c (fin 1 + r32c (fin 9 * a))))) := by
    have := r64c_mono _ _ (by simp) l0
    rwa [hz64] at this
  have d1 := r64c_mono _ _ l0 l1
  refine ⟨?_, r32c_mono _ _ d0 d1⟩
  have := r32c_mono _ _ (by simp) d0
  rwa [hz] at this

/-- The tail of `apply_log_scaling` at the quotient `0`. -/
theorem log_scale_tail_zero :
    r32c (r64c (log10 (r32c (fin 1 + r32c (fin 9 * fin 0))))) = fin 0 := by
  have h1 : r32 1 = fin 1 := by simpa using r32_natCast 1 (by norm_num)
  simp only [CFloat.fin_mul_fin, mul_zero, r32c, r32_zero, CFloat.fin_add_fin, add_zero, h1]
  rw [CFloat.log10_fin_pos 1 one_pos]
  simp [r32c, r32_zero, r64c, r64_zero]

/-- The tail of `apply_log_scaling` at the quotient `1`. -/
theorem log_scale_tail_one :
    r32c (r64c (log10 (r32c (fin 1 + r32c (fin 9 * fin 1))))) = fin 1 := by
  have h1 : r32 1 = fin 1 := by simpa using r32_natCast 1 (by norm_num)
  have h164 : r64 1 = fin 1 := by simpa using r64_natCast 1 (by norm_num)
  have h9 : r32 9 = fin 9 := by simpa using r32_natCast 9 (by norm_num)
  have h10 : r32 10 = fin 10 := by simpa using r32_natCast 10 (by norm_num)
  have hl : Real.logb 10 10 = 1 := Real.logb_self_eq_one (by norm_num)
  simp only [CFloat.fin_mul_fin, mul_one, r32c, h9, CFloat.fin_add_fin]
  norm_num
  rw [h10, CFloat.log10_fin_pos 10 (by norm_num), hl]
  show r32c (r64 1) = fin 1
  rw [h164]
  exact h1

/-- The value of `apply_log_scaling` on finite operands with a positive
maximum. -/
theorem apply_log_scaling_fin (m mx : ℝ) (hmx : 0 < mx) :
    apply_log_scaling (fin m) (fin mx) =
      if m ≤ 0 then fin 0
      else r32c (r64c (log10 (r32c (fin 1 + r32c (fin 9 * r32 (m / mx)))))) := by
  unfold apply_log_scaling
  by_cases hm : m ≤ 0
  · simp [hm]
  · simp only [CFloat.le_fin_fin, hm, if_false]
    rw [CFloat.fin_div_fin m mx hmx.ne']
    rfl

/-- With a positive maximum `apply_log_scaling` is not negative and
non-decreasing in the magnitude. -/
theorem apply_log_scaling_mono (mx : ℝ) (hmx : 0 < mx) (m m' : ℝ) (h : m ≤ m') :
    le (fin 0) (apply_log_scaling (fin m) (fin mx)) ∧
    le (apply_log_scaling (fin m) (fin mx)) (apply_log_scaling (fin m') (fin mx)) := by
  rw [apply_log_scaling_fin m mx hmx, apply_log_scaling_fin m' mx hmx]
  by_cases hm : m ≤ 0
  · rw [if_pos hm]
    refine ⟨by simp, ?_⟩
    by_cases hm' : m' ≤ 0
    · rw [if_pos hm']
      simp
    · rw [if_neg hm']
      have hq : 0 ≤ m' / mx := div_nonneg (not_le.mp hm').le hmx.le
      exact (log_scale_tail_mono _ _ (r32_nonneg _ hq)
        (CFloat.le_self_of_nonneg _ (r32_nonneg _ hq))).1
  · have hm' : ¬ m' ≤ 0 := by linarith
    rw [if_neg hm, if_neg hm']
    have hq : 0 ≤ m / mx := div_nonneg (not_le.mp hm).le hmx.le
    have hqq : m / mx ≤ m' / mx := div_le_div_of_nonneg_right h hmx.le
    exact log_scale_tail_mono _ _ (r32_nonneg _ hq) (r32_mono _ _ hq hqq)

/-! ## Spacing of the binary32 values -/

/-- A positive binary32 value is an integer multiple of the spacing at it. -/
theorem float_eq_int_mul_ulp (x : ℝ) (hx : 0 < x) (fx : round32 x = x) :
    x = (rne (x / ulp32 x) : ℝ) * ulp32 x := by
  have h := fx
  rw [round32_of_nonneg x hx.le] at h
  unfold round32_pos at h
  exact h.symm

/-- Two positive binary32 values `a < b` satisfy `a ≤ b * (1 - 2^-24)`. -/
theorem float_lt_gap (a b : ℝ) (ha : 0 < a) (hab : a < b) (fa : round32 a = a)
    (fb : round32 b = b) : a ≤ b * (1 - 1 / 2 ^ 24) := by
  have hb : 0 < b := lt_trans ha hab
  have hea := float_eq_int_mul_ulp a ha fa
  have heb := float_eq_int_mul_ulp b hb fb
  have hmono := expo32_mono a b ha hab.le
  have hua : ulp32 a = (2 : ℝ) ^ expo32 a / 2 ^ 23 := by
    unfold ulp32
    rw [zpow_sub₀ (by norm_num : (2 : ℝ) ≠ 0)]
    norm_num
  have hub : ulp32 b = (2 : ℝ) ^ expo32 b / 2 ^ 23 := by
    unfold ulp32
    rw [zpow_sub₀ (by norm_num : (2 : ℝ) ≠ 0)]
    norm_num
  have hpa : (0 : ℝ) < (2 : ℝ) ^ expo32 a := zpow_pos (by norm_num) _
  have hpb : (0 : ℝ) < (2 : ℝ) ^ expo32 b := zpow_pos (by norm_num) _
  have halt := lt_two_zpow_expo32_succ a ha
  have hblt := lt_two_zpow_expo32_succ b hb
  rw [zpow_add₀ (by norm_num : (2 : ℝ) ≠ 0), zpow_one] at halt hblt
  rcases eq_or_lt_of_le hmono with heq | hlt
  · -- the same binade: `a` and `b` are multiples of the same spacing
    have hu : ulp32 a = ulp32 b := by rw [hua, hub, heq]
    have hupos : 0 < ulp32 b := ulp32_pos b
    have hz : rne (a / ulp32 a) < rne (b / ulp32 b) := by
      have h1 : (rne (a / ulp32 a) : ℝ) * ulp32 b < (rne (b / ulp32 b) : ℝ) * ulp32 b := by
        calc (rne (a / ulp32 a) : ℝ) * ulp32 b = a := by rw [← hu]; exact hea.symm
          _ < b := hab
          _ = (rne (b / ulp32 b) : ℝ) * ulp32 b := heb
      have h2 := lt_of_mul_lt_mul_right h1 hupos.le
      exact_mod_cast h2
    have hz1 : rne (a / ulp32 a) + 1 ≤ rne (b / ulp32 b) := hz
    have hz2 : ((rne (a / ulp32 a) : ℝ) + 1) * ulp32 b ≤ (rne (b / ulp32 b) : ℝ) * ulp32 b := by
      apply mul_le_mul_of_nonneg_right _ hupos.le
      exact_mod_cast hz1
    have hstep : a + ulp32 b ≤ b := by
      have e1 : a = (rne (a / ulp32 a) : ℝ) * ulp32 b := by rw [← hu]; exact hea
      have e2 : ((rne (a / ulp32 a) : ℝ) + 1) * ulp32 b
          = (rne (a / ulp32 a) : ℝ) * ulp32 b + ulp32 b := by ring
      linarith
    have hsmall : b / 2 ^ 24 ≤ ulp32 b := by
      rw [hub]
      have e : (2 : ℝ) ^ expo32 b / 2 ^ 23 = (2 : ℝ) ^ expo32 b * 2 / 2 ^ 24 := by ring
      rw [e]
      exact div_le_div_of_nonneg_right hblt.le (by positivity)
    have e : b * (1 - 1 / 2 ^ 24) = b - b / 2 ^ 24 := by ring
    rw [e]
    linarith
  · -- a lower binade
    have hb126 : (2 : ℝ) ^ (-126 : ℤ) ≤ b := by
      by_contra hcon
      have h1 : b < (2 : ℝ) ^ ((-126 : ℤ) + 1) :=
        lt_trans (not_le.mp hcon) (zpow_lt_zpow_right₀ (by norm_num) (by norm_num))
      have h2 := expo32_le_of_lt b (-126) le_rfl hb h1
      have h3 := expo32_ge a
      omega
    have hble := two_zpow_expo32_le b hb126
    rcases eq_or_lt_of_le (Int.add_one_le_of_lt hlt) with heq1 | hlt1
    · -- the binade just below: `a` is a multiple of its spacing below `2^24` of them
      have hupos : 0 < ulp32 a := ulp32_pos a
      have h2e : (2 : ℝ) ^ expo32 b = 2 ^ 24 * ulp32 a := by
        rw [hua, ← heq1, zpow_add₀ (by norm_num : (2 : ℝ) ≠ 0), zpow_one]
        ring
      have hz : rne (a / ulp32 a) < 2 ^ 24 := by
        have h1 : (rne (a / ulp32 a) : ℝ) * ulp32 a < 2 ^ 24 * ulp32 a := by
          calc (rne (a / ulp32 a) : ℝ) * ulp32 a = a := hea.symm
            _ < (2 : ℝ) ^ expo32 a * 2 := halt
            _ = 2 ^ 24 * ulp32 a := by rw [hua]; ring
        have h2 := lt_of_mul_lt_mul_right h1 hupos.le
        exact_mod_cast h2
      have hz1 : rne (a / ulp32 a) ≤ 2 ^ 24 - 1 := by omega
      have hz2 : (rne (a / ulp32 a) : ℝ) ≤ 2 ^ 24 - 1 := by exact_mod_cast hz1
      have h3 : a ≤ (2 ^ 24 - 1) * ulp32 a := by
        calc a = (rne (a / ulp32 a) : ℝ) * ulp32 a := hea
          _ ≤ (2 ^ 24 - 1) * ulp32 a := mul_le_mul_of_nonneg_right hz2 hupos.le
      have h4 : (2 ^ 24 - 1) * ulp32 a = (2 : ℝ) ^ expo32 b * (1 - 1 / 2 ^ 24) := by
        rw [h2e]
        ring
      have h5 : (2 : ℝ) ^ expo32 b * (1 - 1 / 2 ^ 24) ≤ b * (1 - 1 / 2 ^ 24) :=
        mul_le_mul_of_nonneg_right hble (by norm_num)
      linarith
    · -- two binades or more below: `a < b / 2`
      have h1 : (2 : ℝ) ^ expo32 a * 2 ≤ (2 : ℝ) ^ expo32 b / 2 := by
        have h2 : (2 : ℝ) ^ (expo32 a + 2) ≤ (2 : ℝ) ^ expo32 b :=
          zpow_le_zpow_right₀ (by norm_num) (by omega)
        rw [zpow_add₀ (by norm_num : (2 : ℝ) ≠ 0)] at h2
        norm_num at h2
        linarith
      have h3 : b / 2 ≤ b * (1 - 1 / 2 ^ 24) := by
        have e : b * (1 - 1 / 2 ^ 24) - b / 2 = b * (1 / 2 - 1 / 2 ^ 24) := by ring
        have : 0 ≤ b * (1 / 2 - 1 / 2 ^ 24) := mul_nonneg hb.le (by norm_num)
        linarith
      linarith

/-! ## The log scale just below the maximum -/

/-- The natural logarithm of `10` is at most `3`. -/
theorem log_ten_le_three : Real.log 10 ≤ 3 := by
  rw [Real.log_le_iff_le_exp (by norm_num)]
  have h1 := Real.exp_one_gt_d9
  have h2 : Real.exp 3 = Real.exp 1 * Real.exp 1 * Real.exp 1 := by
    rw [← Real.exp_add, ← Real.exp_add]
    norm_num
  rw [h2]
  have h3 : (2 : ℝ) ≤ Real.exp 1 := by linarith
  nlinarith

/-- The decimal logarithm of `10 - 2^-20` is below the midpoint of the two
binary32 values `1 - 2^-24` and `1`. -/
theorem logb_ten_below_midpoint :
    Real.logb 10 (10 - 1 / 2 ^ 20) ≤ 1 - 1 / 2 ^ 25 - 1 / 2 ^ 30 := by
  rw [Real.logb_le_iff_le_rpow (by norm_num) (by norm_num)]
  rw [Real.rpow_def_of_pos (by norm_num : (0 : ℝ) < 10)]
  have h1 := Real.add_one_le_exp (Real.log 10 * (1 - 1 / 2 ^ 25 - 1 / 2 ^ 30) - Real.log 10)
  have h2 : Real.exp (Real.log 10 * (1 - 1 / 2 ^ 25 - 1 / 2 ^ 30))
      = 10 * Real.exp (Real.log 10 * (1 - 1 / 2 ^ 25 - 1 / 2 ^ 30) - Real.log 10) := by
    rw [Real.exp_sub, Real.exp_log (by norm_num : (0 : ℝ) < 10)]
    field_simp
  rw [h2]
  have h3 := log_ten_le_three
  have h4 : Real.log 10 * (1 - 1 / 2 ^ 25 - 1 / 2 ^ 30) - Real.log 10
      = -(Real.log 10 * (1 / 2 ^ 25 + 1 / 2 ^ 30)) := by ring
  rw [h4] at h1
  have h5 : Real.log 10 * (1 / 2 ^ 25 + 1 / 2 ^ 30) ≤ 3 * (1 / 2 ^ 25 + 1 / 2 ^ 30) :=
    mul_le_mul_of_nonneg_right h3 (by norm_num)
  have h6 : (10 : ℝ) - 1 / 2 ^ 20 ≤ 10 * (-(3 * (1 / 2 ^ 25 + 1 / 2 ^ 30)) + 1) := by norm_num
  have h7 : (10 : ℝ) * (-(3 * (1 / 2 ^ 25 + 1 / 2 ^ 30)) + 1)
      ≤ 10 * Real.exp (-(Real.log 10 * (1 / 2 ^ 25 + 1 / 2 ^ 30))) := by
    apply mul_le_mul_of_nonneg_left _ (by norm_num)
    linarith
  rw [h4]
  linarith

/-- The tail of `apply_log_scaling` at the quotient `1 - 2^-24`, the largest
binary32 value below `1`, is at most `1 - 2^-24`. -/
theorem log_scale_tail_below_one :
    ∃ v : ℝ, r32c (r64c (log10 (r32c (fin 1 + r32c (fin 9 * fin (1 - 1 / 2 ^ 24)))))) = fin v ∧
      v ≤ 1 - 1 / 2 ^ 24 := by
  have h9 : round32 (9 * (1 - 1 / 2 ^ 24)) = 9 - 1 / 2 ^ 20 := by
    rw [round32_eq_of_near _ 3 9437183 (by norm_num) (by norm_num) (by norm_num)]
    · norm_num
    · rw [abs_lt]
      norm_num
  have h10 : round32 (10 - 1 / 2 ^ 20) = 10 - 1 / 2 ^ 20 := by
    rw [round32_eq_of_near _ 3 10485759 (by norm_num) (by norm_num) (by norm_num)]
    · norm_num
    · rw [abs_lt]
      norm_num
  have hl0 : 0 ≤ Real.logb 10 (10 - 1 / 2 ^ 20) :=
    Real.logb_nonneg (by norm_num) (by norm_num)
  have hl := logb_ten_below_midpoint
  have ht64 : round64 (1 - 1 / 2 ^ 25 - 1 / 2 ^ 30) = 1 - 1 / 2 ^ 25 - 1 / 2 ^ 30 := by
    rw [round64_of_nonneg _ (by norm_num)]
    apply round64_pos_fixed _ 1073741791 (-30) (by norm_num)
    have := expo64_le_of_le (1 - 1 / 2 ^ 25 - 1 / 2 ^ 30) 0 (by norm_num) (by norm_num)
      (by norm_num)
    omega
  have ht32 : round32 (1 - 1 / 2 ^ 25 - 1 / 2 ^ 30) = 1 - 1 / 2 ^ 24 := by
    rw [round32_eq_of_near _ (-1) 16777215 (by norm_num) (by norm_num) (by norm_num)]
    · norm_num
    · rw [abs_lt]
      norm_num
  have hd0 : 0 ≤ round64 (Real.logb 10 (10 - 1 / 2 ^ 20)) := round64_nonneg _ hl0
  have hd : round64 (Real.logb 10 (10 - 1 / 2 ^ 20)) ≤ 1 - 1 / 2 ^ 25 - 1 / 2 ^ 30 := by
    have := round64_mono _ _ hl0 hl
    rwa [ht64] at this
  have hf : round32 (round64 (Real.logb 10 (10 - 1 / 2 ^ 20))) ≤ 1 - 1 / 2 ^ 24 := by
    have := round32_mono _ _ hd0 hd
    rwa [ht32] at this
  have hf0 : 0 ≤ round32 (round64 (Real.logb 10 (10 - 1 / 2 ^ 20))) := round32_nonneg _ hd0
  refine ⟨round32 (round64 (Real.logb 10 (10 - 1 / 2 ^ 20))), ?_, hf⟩
  simp only [CFloat.fin_mul_fin, r32c]
  rw [r32_of_abs_le _ (by rw [abs_of_nonneg (by norm_num)]; norm_num), h9]
  simp only [CFloat.fin_add_fin, r32c]
  have e : (1 : ℝ) + (9 - 1 / 2 ^ 20) = 10 - 1 / 2 ^ 20 := by ring
  rw [e, r32_of_abs_le _ (by rw [abs_of_nonneg (by norm_num)]; norm_num), h10,
    CFloat.log10_fin_pos _ (by norm_num)]
  simp only [r64c]
  rw [r64_of_abs_le_pow _ 0 (by norm_num) (by
    rw [abs_of_nonneg hl0]
    have : (1 : ℝ) - 1 / 2 ^ 25 - 1 / 2 ^ 30 ≤ 2 ^ 0 := by norm_num
    linarith)]
  simp only [r32c]
  rw [r32_of_abs_le _ (by
    rw [abs_of_nonneg hd0]
    have : (1 : ℝ) - 1 / 2 ^ 25 - 1 / 2 ^ 30 ≤ (2 : ℝ) ^ (127 : ℤ) := by norm_num
    linarith)]

/-- For binary32 operands `0 ≤ m < max_magnitude` the result of
`apply_log_scaling` is at most `1 - 2^-24`. -/
theorem apply_log_scaling_lt_one (m mx : ℝ) (hm0 : 0 ≤ m) (hm : m < mx) (fm : round32 m = m)
    (fmx : round32 mx = mx) :
    ∃ y : ℝ, apply_log_scaling (fin m) (fin mx) = fin y ∧ y ≤ 1 - 1 / 2 ^ 24 := by
  have hmx : 0 < mx := lt_of_le_of_lt hm0 hm
  rcases eq_or_lt_of_le hm0 with h0 | hpos
  · rw [apply_log_scaling_fin m mx hmx, if_pos (by rw [← h0])]
    exact ⟨0, rfl, by norm_num⟩
  · have hgap := float_lt_gap m mx hpos hm fm fmx
    have hq : m / mx ≤ 1 - 1 / 2 ^ 24 := by
      rw [div_le_iff₀ hmx]
      linarith
    have hq0 : 0 ≤ m / mx := div_nonneg hm0 hmx.le
    have hc : round32 (1 - 1 / 2 ^ 24) = 1 - 1 / 2 ^ 24 := by
      rw [round32_eq_of_near _ (-1) 16777215 (by norm_num) (by norm_num) (by norm_num)]
      · norm_num
      · rw [abs_lt]
        norm_num
    have hrc : r32 (1 - 1 / 2 ^ 24) = fin (1 - 1 / 2 ^ 24) := by
      rw [r32_of_abs_le _ (by rw [abs_of_nonneg (by norm_num)]; norm_num), hc]
    have hle : le (r32 (m / mx)) (fin (1 - 1 / 2 ^ 24)) := by
      have := r32_mono _ _ hq0 hq
      rwa [hrc] at this
    obtain ⟨t0, t1⟩ := log_scale_tail_mono _ _ (r32_nonneg _ hq0) hle
    obtain ⟨v, hv, hv1⟩ := log_scale_tail_below_one
    rw [hv] at t1
    rw [apply_log_scaling_fin m mx hmx, if_neg (not_le.mpr hpos)]
    cases hr : r32c (r64c (log10 (r32c (fin 1 + r32c (fin 9 * r32 (m / mx)))))) with
    | nan => rw [hr] at t0; simp [CFloat.le] at t0
    | ninf => rw [hr] at t0; simp [CFloat.le] at t0
    | pinf => rw [hr] at t1; simp [CFloat.le] at t1
    | fin y =>
      rw [hr] at t1
      have hy : y ≤ v := by simpa using t1
      exact ⟨y, rfl, le_trans hy hv1⟩
/-- C6 (counterexample): `apply_log_scaling(2^127, 2^-100)` has a positive
maximum and a positive magnitude, but the `float` quotient `2^227` overflows to
`+inf` and the function returns `+inf`, not the finite
`log10(1 + 9 * 2^227)`. -/
theorem apply_log_scaling_overflow_counterexample :
    apply_log_scaling (fin (2 ^ 127)) (fin (1 / 2 ^ 100)) = pinf ∧
    apply_log_scaling (fin (2 ^ 127)) (fin (1 / 2 ^ 100)) ≠
      fin (log_scale_spec (2 ^ 127) (1 / 2 ^ 100)) := by
  have h : apply_log_scaling (fin (2 ^ 127)) (fin (1 / 2 ^ 100)) = pinf := by
    rw [apply_log_scaling_fin _ _ (by positivity), if_neg (by norm_num),
      r32_overflow _ (by norm_num)]
    show r32c (r64c (log10 (r32c (CFloat.add (fin 1) (r32c (CFloat.mul (fin 9) pinf))))))
      = pinf
    simp [CFloat.mul, CFloat.add, CFloat.inf_of_sign, r32c, r64c, CFloat.log10, CFloat.logb]
  refine ⟨h, ?_⟩
  rw [h]
  exact fun h => CFloat.noConfusion h

/-- C6 (amended): for `max_magnitude > 0`, `apply_log_scaling(m, max_magnitude)`
is `0` when `m ≤ 0` and, when `m > 0`, the floating-point evaluation
`fl(log10(fl(1 + fl(9 * fl(m / max_magnitude)))))` (`fl` rounds to `float`,
`log10` returns a `double`), which is `+inf` when a `float` operation
overflows; the result is non-decreasing in `m`; for `0 ≤ m ≤ max_magnitude` it
is finite and lies in `[0, 1]`; it is exactly `1` at `m = max_magnitude`, and
at most `1 - 2^-24` for `float` operands `0 ≤ m < max_magnitude`. -/
theorem apply_log_scaling_float_range (mx : ℝ) (hmx : 0 < mx) :
    (∀ m : ℝ, apply_log_scaling (fin m) (fin mx) =
      if m ≤ 0 then fin 0
      else r32c (r64c (log10 (r32c (fin 1 + r32c (fin 9 * r32 (m / mx))))))) ∧
    (∀ m m' : ℝ, m ≤ m' →
      le (apply_log_scaling (fin m) (fin mx)) (apply_log_scaling (fin m') (fin mx))) ∧
    (∀ m : ℝ, 0 ≤ m → m ≤ mx →
      ∃ y : ℝ, apply_log_scaling (fin m) (fin mx) = fin y ∧ 0 ≤ y ∧ y ≤ 1) ∧
    apply_log_scaling (fin mx) (fin mx) = fin 1 ∧
    (∀ m : ℝ, 0 ≤ m → m < mx → round32 m = m → round32 mx = mx →
      ∃ y : ℝ, apply_log_scaling (fin m) (fin mx) = fin y ∧ y ≤ 1 - 1 / 2 ^ 24) := by
  have hone : apply_log_scaling (fin mx) (fin mx) = fin 1 := by
    rw [apply_log_scaling_fin mx mx hmx, if_neg (not_le.mpr hmx), div_self hmx.ne']
    have h1 : r32 1 = fin 1 := by simpa using r32_natCast 1 (by norm_num)
    rw [h1]
    exact log_scale_tail_one
  refine ⟨fun m => apply_log_scaling_fin m mx hmx,
    fun m m' h => (apply_log_scaling_mono mx hmx m m' h).2, fun m _ hm1 => ?_, hone,
    fun m hm0 hm fm fmx => apply_log_scaling_lt_one m mx hm0 hm fm fmx⟩
  obtain ⟨h0, h1⟩ := apply_log_scaling_mono mx hmx m mx hm1
  rw [hone] at h1
  cases hr : apply_log_scaling (fin m) (fin mx) with
  | nan => rw [hr] at h0; simp [CFloat.le] at h0
  | ninf => rw [hr] at h0; simp [CFloat.le] at h0
  | pinf => rw [hr] at h1; simp [CFloat.le] at h1
  | fin y =>
    rw [hr] at h0 h1
    exact ⟨y, rfl, by simpa using h0, by simpa using h1⟩

/-- Witness for C6 at `max_magnitude = 2`. -/
theorem apply_log_scaling_float_range_witness :
    (∀ m : ℝ, apply_log_scaling (fin m) (fin 2) =
      if m ≤ 0 then fin 0
      else r32c (r64c (log10 (r32c (fin 1 + r32c (fin 9 * r32 (m / 2))))))) ∧
    (∀ m m' : ℝ, m ≤ m' →
      le (apply_log_scaling (fin m) (fin 2)) (apply_log_scaling (fin m') (fin 2))) ∧
    (∀ m : ℝ, 0 ≤ m → m ≤ 2 →
      ∃ y : ℝ, apply_log_scaling (fin m) (fin 2) = fin y ∧ 0 ≤ y ∧ y ≤ 1) ∧
    apply_log_scaling (fin 2) (fin 2) = fin 1 ∧
    (∀ m : ℝ, 0 ≤ m → m < 2 → round32 m = m → round32 2 = 2 →
      ∃ y : ℝ, apply_log_scaling (fin m) (fin 2) = fin y ∧ y ≤ 1 - 1 / 2 ^ 24) :=
  apply_log_scaling_float_range 2 (by norm_num)

/-- C5 (counterexample): `apply_log_scaling(1, 0)` does not take the early
return, evaluates the quotient `1 / 0`, which is `+inf`, and returns `+inf`,
not `0`. -/
theorem apply_log_scaling_zero_max_counterexample :
    ¬ le (fin 1) (fin 0) ∧ fin 1 / fin 0 = pinf ∧
    apply_log_scaling (fin 1) (fin 0) = pinf ∧ apply_log_scaling (fin 1) (fin 0) ≠ fin 0 := by
  have hdiv : fin 1 / fin 0 = pinf := CFloat.pos_div_zero 1 one_pos
  have h : apply_log_scaling (fin 1) (fin 0) = pinf := by
    unfold apply_log_scaling
    simp only [CFloat.le_fin_fin, not_le.mpr one_pos, if_false, hdiv]
    show r32c (r64c (log10 (r32c (CFloat.add (fin 1) (r32c (CFloat.mul (fin 9) pinf))))))
      = pinf
    simp [CFloat.mul, CFloat.add, CFloat.inf_of_sign, r32c, r64c, CFloat.log10, CFloat.logb]
  refine ⟨by simp, hdiv, h, ?_⟩
  rw [h]
  exact fun h => CFloat.noConfusion h

/-- The value of `apply_log_scaling` with a zero maximum, case by case. -/
theorem apply_log_scaling_max_zero_cases (a : CFloat) :
    apply_log_scaling a (fin 0) =
      match a with
      | nan => nan
      | ninf => fin 0
      | pinf => pinf
      | fin x => if x ≤ 0 then fin 0 else pinf := by
  cases a with
  | nan =>
    unfold apply_log_scaling
    simp [CFloat.log10, CFloat.logb, r32c, r64c]
  | ninf => simp [apply_log_scaling, CFloat.le]
  | pinf =>
    unfold apply_log_scaling
    simp only [CFloat.le, if_false]
    show r32c (r64c (log10 (r32c (CFloat.add (fin 1)
      (r32c (CFloat.mul (fin 9) (r32c (CFloat.div pinf (fin 0)))))))))= pinf
    simp [CFloat.div, CFloat.mul, CFloat.add, CFloat.inf_of_sign, r32c, r64c, CFloat.log10,
      CFloat.logb]
  | fin x =>
    unfold apply_log_scaling
    by_cases hx : x ≤ 0
    · simp [hx]
    · simp only [CFloat.le_fin_fin, hx, if_false, CFloat.pos_div_zero x (not_le.mp hx)]
      show r32c (r64c (log10 (r32c (CFloat.add (fin 1) (r32c (CFloat.mul (fin 9) pinf))))))
      = pinf
      simp [CFloat.mul, CFloat.add, CFloat.inf_of_sign, r32c, r64c, CFloat.log10, CFloat.logb]

/-- C5 (amended): with `max_magnitude = 0`, `apply_log_scaling` returns `0` for
every magnitude `≤ 0` (including `-inf`), by the early return; for a positive
magnitude it evaluates the quotient by zero and returns `+inf`, and for NaN it
returns NaN. -/
theorem apply_log_scaling_zero_max (a : CFloat) :
    apply_log_scaling a (fin 0) =
      match a with
      | nan => nan
      | ninf => fin 0
      | pinf => pinf
      | fin x => if x ≤ 0 then fin 0 else pinf :=
  apply_log_scaling_max_zero_cases a

/-! ## Smoothing -/

/-- A positive finite value times `+inf` is `+inf`. -/
theorem CFloat.fin_pos_mul_pinf (c : ℝ) (hc : 0 < c) : fin c * pinf = pinf := by
  show CFloat.mul (fin c) pinf = pinf
  simp [CFloat.mul, CFloat.inf_of_sign, hc.ne', hc]

/-- A finite value plus `+inf` is `+inf`. -/
theorem CFloat.fin_add_pinf (x : ℝ) : fin x + pinf = pinf := by
  show CFloat.add (fin x) pinf = pinf
  simp [CFloat.add]

/-- One is a binary64 value. -/
theorem round64_one : round64 1 = 1 := by
  have := round64_natCast 1 (by norm_num)
  simpa using this

/-- Five is a binary64 value. -/
theorem round64_five : round64 5 = 5 := by
  have := round64_natCast 5 (by norm_num)
  simpa using this

/-- Five is a binary32 value. -/
theorem round32_five : round32 5 = 5 := by
  have := round32_natCast 5 (by norm_num)
  simpa using this

/-- The `double` value of `.1` lies in `[0, 1]`, within `2^-53` of `1/10`. -/
theorem sf_value_bounds :
    0 ≤ sf_value ∧ sf_value ≤ 1 ∧ |sf_value - 1 / 10| ≤ 1 / 2 ^ 53 := by
  refine ⟨round64_nonneg _ (by norm_num), ?_, ?_⟩
  · have := round64_mono (1 / 10) 1 (by norm_num) (by norm_num)
    rwa [round64_one] at this
  · have := abs_round64_sub_le_pow (1 / 10) 0 (by rw [abs_of_pos] <;> norm_num)
    rw [pow_zero] at this
    exact this

/-- The `double` value of `1 - .1` lies in `[0, 1]`, within `2^-52` of `9/10`. -/
theorem one_minus_sf_value_bounds :
    0 ≤ one_minus_sf_value ∧ one_minus_sf_value ≤ 1 ∧
      |one_minus_sf_value - 9 / 10| ≤ 1 / 2 ^ 52 := by
  obtain ⟨ha0, ha1, hae⟩ := sf_value_bounds
  refine ⟨round64_nonneg _ (by linarith), ?_, ?_⟩
  · have := round64_mono (1 - sf_value) 1 (by linarith) (by linarith)
    rwa [round64_one] at this
  · have h1 := abs_round64_sub_le_pow (1 - sf_value) 0
      (by rw [abs_of_nonneg (by linarith)]; norm_num; linarith)
    have h2 : one_minus_sf_value - 9 / 10
        = (round64 (1 - sf_value) - (1 - sf_value)) + -(sf_value - 1 / 10) := by
      unfold one_minus_sf_value
      ring
    rw [h2]
    have h3 := abs_add (round64 (1 - sf_value) - (1 - sf_value)) (-(sf_value - 1 / 10))
    rw [abs_neg] at h3
    rw [pow_zero] at h1
    have c : (1 : ℝ) / 2 ^ 52 = 1 / 2 ^ 53 + 1 / 2 ^ 53 := by norm_num
    rw [c]
    linarith

/-- A product of a factor in `[0, 1]` with a real of magnitude at most `B`. -/
theorem abs_unit_mul_le (c x B : ℝ) (hc0 : 0 ≤ c) (hc1 : c ≤ 1) (hx : |x| ≤ B) :
    |c * x| ≤ B := by
  rw [abs_mul, abs_of_nonneg hc0]
  calc c * |x| ≤ 1 * |x| := mul_le_mul_of_nonneg_right hc1 (abs_nonneg x)
    _ = |x| := one_mul _
    _ ≤ B := hx

/-- The two rounded products of the smoothing update stay within the bound of
their inputs. -/
theorem abs_smooth_products_le (H s : ℝ) (k : ℕ) (hH : |H| ≤ 2 ^ k) (hs : |s| ≤ 2 ^ k) :
    |round64 (sf_value * H)| ≤ 2 ^ k ∧ |round64 (one_minus_sf_value * s)| ≤ 2 ^ k ∧
      |round64 (sf_value * H) + round64 (one_minus_sf_value * s)| ≤ 2 ^ (k + 1) := by
  obtain ⟨ha0, ha1, -⟩ := sf_value_bounds
  obtain ⟨hb0, hb1, -⟩ := one_minus_sf_value_bounds
  have h1 := abs_round64_le_pow _ k (abs_unit_mul_le sf_value H _ ha0 ha1 hH)
  have h2 := abs_round64_le_pow _ k (abs_unit_mul_le one_minus_sf_value s _ hb0 hb1 hs)
  refine ⟨h1, h2, ?_⟩
  have := abs_add (round64 (sf_value * H)) (round64 (one_minus_sf_value * s))
  rw [pow_succ]
  linarith

/-- The computed weighted sum is within `2^k / 2^50` of the exact weighted sum
`0.1 * H + 0.9 * s`. -/
theorem abs_smooth_sum_sub_le (H s : ℝ) (k : ℕ) (hH : |H| ≤ 2 ^ k) (hs : |s| ≤ 2 ^ k) :
    |smooth_sum H s - (1 / 10 * H + 9 / 10 * s)| ≤ 2 ^ k / 2 ^ 50 := by
  obtain ⟨ha0, ha1, hae⟩ := sf_value_bounds
  obtain ⟨hb0, hb1, hbe⟩ := one_minus_sf_value_bounds
  obtain ⟨-, -, h12⟩ := abs_smooth_products_le H s k hH hs
  have hB : (0 : ℝ) < 2 ^ k := by positivity
  have e1 := abs_round64_sub_le_pow _ k (abs_unit_mul_le sf_value H _ ha0 ha1 hH)
  have e2 := abs_round64_sub_le_pow _ k (abs_unit_mul_le one_minus_sf_value s _ hb0 hb1 hs)
  have e3 := abs_round64_sub_le_pow _ (k + 1) h12
  have e4 : |(sf_value - 1 / 10) * H| ≤ 1 / 2 ^ 53 * 2 ^ k := by
    rw [abs_mul]
    exact mul_le_mul hae hH (abs_nonneg _) (by norm_num)
  have e5 : |(one_minus_sf_value - 9 / 10) * s| ≤ 1 / 2 ^ 52 * 2 ^ k := by
    rw [abs_mul]
    exact mul_le_mul hbe hs (abs_nonneg _) (by norm_num)
  have hsplit : smooth_sum H s - (1 / 10 * H + 9 / 10 * s)
      = (smooth_sum H s - (round64 (sf_value * H) + round64 (one_minus_sf_value * s)))
        + ((round64 (sf_value * H) - sf_value * H)
          + ((round64 (one_minus_sf_value * s) - one_minus_sf_value * s)
            + ((sf_value - 1 / 10) * H + (one_minus_sf_value - 9 / 10) * s))) := by ring
  rw [hsplit]
  have t1 := abs_add
    (smooth_sum H s - (round64 (sf_value * H) + round64 (one_minus_sf_value * s)))
    ((round64 (sf_value * H) - sf_value * H)
      + ((round64 (one_minus_sf_value * s) - one_minus_sf_value * s)
        + ((sf_value - 1 / 10) * H + (one_minus_sf_value - 9 / 10) * s)))
  have t2 := abs_add (round64 (sf_value * H) - sf_value * H)
    ((round64 (one_minus_sf_value * s) - one_minus_sf_value * s)
      + ((sf_value - 1 / 10) * H + (one_minus_sf_value - 9 / 10) * s))
  have t3 := abs_add (round64 (one_minus_sf_value * s) - one_minus_sf_value * s)
    ((sf_value - 1 / 10) * H + (one_minus_sf_value - 9 / 10) * s)
  have t4 := abs_add ((sf_value - 1 / 10) * H) ((one_minus_sf_value - 9 / 10) * s)
  have e3' : |smooth_sum H s - (round64 (sf_value * H) + round64 (one_minus_sf_value * s))|
      ≤ 2 ^ (k + 1) / 2 ^ 53 := e3
  have c1 : (2 : ℝ) ^ (k + 1) / 2 ^ 53 = 2 * (2 ^ k / 2 ^ 53) := by
    rw [pow_succ]
    ring
  have c2 : (1 : ℝ) / 2 ^ 53 * 2 ^ k = 2 ^ k / 2 ^ 53 := by ring
  have c3 : (1 : ℝ) / 2 ^ 52 * 2 ^ k = 2 * (2 ^ k / 2 ^ 53) := by ring
  have c4 : (2 : ℝ) ^ k / 2 ^ 50 = 8 * (2 ^ k / 2 ^ 53) := by ring
  have hq : (0 : ℝ) ≤ 2 ^ k / 2 ^ 53 := by positivity
  rw [c1] at e3'
  rw [c2] at e4
  rw [c3] at e5
  rw [c4]
  linarith

/-- The computed weighted sum exceeds the bound of its inputs by at most
`2^k / 2^50`. -/
theorem abs_smooth_sum_le (H s : ℝ) (k : ℕ) (hH : |H| ≤ 2 ^ k) (hs : |s| ≤ 2 ^ k) :
    |smooth_sum H s| ≤ 2 ^ k + 2 ^ k / 2 ^ 50 := by
  have h1 := abs_smooth_sum_sub_le H s k hH hs
  have h2 : |1 / 10 * H + 9 / 10 * s| ≤ 2 ^ k := by
    have := abs_add (1 / 10 * H) (9 / 10 * s)
    rw [abs_mul, abs_mul, abs_of_pos (by norm_num : (0 : ℝ) < 1 / 10),
      abs_of_pos (by norm_num : (0 : ℝ) < 9 / 10)] at this
    linarith
  have h3 := abs_add (smooth_sum H s - (1 / 10 * H + 9 / 10 * s)) (1 / 10 * H + 9 / 10 * s)
  rw [sub_add_cancel] at h3
  linarith

/-- The smoothing update on finite values bounded by `2^k`: the weighted sum is
computed in `double` and rounded by the store into the `float` array. -/
theorem smooth_update_fin (H s : ℝ) (k : ℕ) (hk : k ≤ 127) (hH : |H| ≤ 2 ^ k)
    (hs : |s| ≤ 2 ^ k) :
    smooth_update (fin H) (fin s) = fin (max (round32 (smooth_sum H s)) 5) := by
  obtain ⟨ha0, ha1, -⟩ := sf_value_bounds
  obtain ⟨hb0, hb1, -⟩ := one_minus_sf_value_bounds
  obtain ⟨-, -, h12⟩ := abs_smooth_products_le H s k hH hs
  have hst := (round32_store_bound _ k (abs_smooth_sum_le H s k hH hs)).1
  have hlt : (2 : ℝ) ^ k < 2 ^ 128 := pow_lt_pow_right₀ (by norm_num) (by omega)
  unfold smooth_update SMOOTHING_FACTOR MIN_BAR_HEIGHT
  simp only [CFloat.fin_mul_fin, CFloat.fin_sub_fin, r64c]
  rw [r64_of_abs_le_pow (sf_value * H) k (by omega) (abs_unit_mul_le _ _ _ ha0 ha1 hH)]
  rw [r64_of_abs_le_pow (1 - sf_value) 0 (by omega)
    (by rw [abs_of_nonneg (by linarith)]; norm_num; linarith)]
  simp only [CFloat.fin_mul_fin, r64c]
  rw [show round64 (1 - sf_value) = one_minus_sf_value from rfl]
  rw [r64_of_abs_le_pow (one_minus_sf_value * s) k (by omega)
    (abs_unit_mul_le _ _ _ hb0 hb1 hs)]
  simp only [CFloat.fin_add_fin, r64c]
  rw [r64_of_abs_le_pow _ (k + 1) (by omega) h12]
  simp only [r32c]
  rw [show round64 (round64 (sf_value * H) + round64 (one_minus_sf_value * s))
    = smooth_sum H s from rfl]
  rw [r32_of_abs_round32_lt _ (lt_of_le_of_lt hst hlt)]
  simp [CFloat.fmax]

/-- The real recurrence stays within the bound `2^k` of its inputs. -/
theorem abs_smooth_real_le (H s0 : ℝ) (k : ℕ) (hk3 : 3 ≤ k) (hH : |H| ≤ 2 ^ k)
    (hs : |s0| ≤ 2 ^ k) (t : ℕ) : |smooth_real H s0 t| ≤ 2 ^ k := by
  have h8 : (5 : ℝ) ≤ 2 ^ k := by
    have : (2 : ℝ) ^ 3 ≤ 2 ^ k := pow_le_pow_right₀ (by norm_num) hk3
    norm_num at this
    linarith
  induction t with
  | zero => exact hs
  | succ t ih =>
    rw [smooth_real]
    have hr := (round32_store_bound _ k (abs_smooth_sum_le H _ k hH ih)).1
    rw [abs_le] at hr
    rw [abs_le]
    constructor
    · have : (5 : ℝ) ≤ max (round32 (smooth_sum H (smooth_real H s0 t))) 5 :=
        le_max_right _ _
      linarith
    · exact max_le hr.2 h8

/-- On finite values bounded by `2^k` the iterated update is the real
recurrence. -/
theorem smooth_iter_fin (H s0 : ℝ) (k : ℕ) (hk3 : 3 ≤ k) (hk : k ≤ 127) (hH : |H| ≤ 2 ^ k)
    (hs : |s0| ≤ 2 ^ k) (t : ℕ) :
    smooth_iter (fin H) (fin s0) t = fin (smooth_real H s0 t) := by
  induction t with
  | zero => rfl
  | succ t ih =>
    rw [smooth_iter, ih,
      smooth_update_fin H _ k hk hH (abs_smooth_real_le H s0 k hk3 hH hs t), smooth_real]

/-- The value `max H 5` is a fixed point of the exact update. -/
theorem smooth_fixed_point (H : ℝ) :
    max (1 / 10 * H + 9 / 10 * max H 5) 5 = max H 5 := by
  rcases le_total H 5 with h | h
  · rw [max_eq_right h, max_eq_right]
    linarith
  · rw [max_eq_left h, max_eq_left] <;> linarith

/-- One tick shrinks the distance to `max H 5` by the factor `0.9`, up to the
rounding error of the `double` operations and of the store. -/
theorem smooth_real_step (H s0 : ℝ) (k : ℕ) (hk3 : 3 ≤ k) (hH : |H| ≤ 2 ^ k)
    (hs : |s0| ≤ 2 ^ k) (t : ℕ) :
    |smooth_real H s0 (t + 1) - max H 5| ≤
      9 / 10 * |smooth_real H s0 t - max H 5| + 2 ^ k / 2 ^ 23 := by
  have hx := abs_smooth_real_le H s0 k hk3 hH hs t
  have hd := abs_smooth_sum_sub_le H _ k hH hx
  have hround := (round32_store_bound _ k (abs_smooth_sum_le H _ k hH hx)).2
  have h1 : |smooth_real H s0 (t + 1) - max H 5| ≤
      |round32 (smooth_sum H (smooth_real H s0 t)) - (1 / 10 * H + 9 / 10 * max H 5)| := by
    rw [smooth_real]
    conv_lhs => rw [← smooth_fixed_point H]
    exact abs_max_sub_max_le_abs _ _ _
  have h2 : round32 (smooth_sum H (smooth_real H s0 t)) - (1 / 10 * H + 9 / 10 * max H 5)
      = (round32 (smooth_sum H (smooth_real H s0 t)) - smooth_sum H (smooth_real H s0 t))
        + ((smooth_sum H (smooth_real H s0 t) - (1 / 10 * H + 9 / 10 * smooth_real H s0 t))
          + 9 / 10 * (smooth_real H s0 t - max H 5)) := by ring
  rw [h2] at h1
  have h3 := abs_add
    (round32 (smooth_sum H (smooth_real H s0 t)) - smooth_sum H (smooth_real H s0 t))
    ((smooth_sum H (smooth_real H s0 t) - (1 / 10 * H + 9 / 10 * smooth_real H s0 t))
      + 9 / 10 * (smooth_real H s0 t - max H 5))
  have h4 := abs_add
    (smooth_sum H (smooth_real H s0 t) - (1 / 10 * H + 9 / 10 * smooth_real H s0 t))
    (9 / 10 * (smooth_real H s0 t - max H 5))
  rw [abs_mul, abs_of_pos (by norm_num : (0 : ℝ) < 9 / 10)] at h4
  have c1 : (2 : ℝ) ^ k / 2 ^ 24 = 2 ^ k / 2 ^ 23 / 2 := by ring
  have c2 : (2 : ℝ) ^ k / 2 ^ 50 ≤ 2 ^ k / 2 ^ 23 / 2 := by
    rw [← c1]
    exact div_le_div_of_nonneg_left (by positivity) (by norm_num) (by norm_num)
  rw [c1] at hround
  linarith

/-- The distance to `max H 5` after `t` ticks. -/
theorem smooth_real_bound (H s0 : ℝ) (k : ℕ) (hk3 : 3 ≤ k) (hH : |H| ≤ 2 ^ k)
    (hs : |s0| ≤ 2 ^ k) (t : ℕ) :
    |smooth_real H s0 t - max H 5| ≤
      (9 / 10) ^ t * |s0 - max H 5| + 10 * (2 ^ k / 2 ^ 23) := by
  induction t with
  | zero =>
    simp only [smooth_real, pow_zero, one_mul]
    have : (0 : ℝ) ≤ 10 * (2 ^ k / 2 ^ 23) := by positivity
    linarith
  | succ t ih =>
    have hstep := smooth_real_step H s0 k hk3 hH hs t
    have e : (9 / 10 : ℝ) ^ (t + 1) * |s0 - max H 5| + 10 * (2 ^ k / 2 ^ 23)
        = 9 / 10 * ((9 / 10) ^ t * |s0 - max H 5| + 10 * (2 ^ k / 2 ^ 23)) + 2 ^ k / 2 ^ 23 := by
      ring
    rw [e]
    linarith

/-- From `+inf` the smoothed height stays `+inf`. -/
theorem smooth_iter_pinf (H : ℝ) (k : ℕ) (hk : k ≤ 127) (hH : |H| ≤ 2 ^ k) (t : ℕ) :
    smooth_iter (fin H) pinf t = pinf := by
  obtain ⟨ha0, ha1, -⟩ := sf_value_bounds
  obtain ⟨hb0, hb1, hbe⟩ := one_minus_sf_value_bounds
  have hbpos : 0 < one_minus_sf_value := by
    rw [abs_le] at hbe
    norm_num at hbe
    linarith
  induction t with
  | zero => rfl
  | succ t ih =>
    rw [smooth_iter, ih]
    unfold smooth_update SMOOTHING_FACTOR MIN_BAR_HEIGHT
    simp only [CFloat.fin_mul_fin, CFloat.fin_sub_fin, r64c]
    rw [r64_of_abs_le_pow (sf_value * H) k (by omega) (abs_unit_mul_le _ _ _ ha0 ha1 hH)]
    rw [r64_of_abs_le_pow (1 - sf_value) 0 (by omega)
      (by rw [abs_of_nonneg (by linarith)]; norm_num; linarith)]
    rw [show round64 (1 - sf_value) = one_minus_sf_value from rfl]
    rw [CFloat.fin_pos_mul_pinf _ hbpos]
    simp only [r64c]
    rw [CFloat.fin_add_pinf]
    rfl

/-- With the scaled height `0`, a height in `[0, 5]` is followed by a weighted
sum of at most `5`. -/
theorem round32_smooth_sum_zero_le (s : ℝ) (hs0 : 0 ≤ s) (hs : s ≤ 5) :
    round32 (smooth_sum 0 s) ≤ 5 := by
  obtain ⟨hb0, hb1, -⟩ := one_minus_sf_value_bounds
  have hp0 : 0 ≤ one_minus_sf_value * s := mul_nonneg hb0 hs0
  have hp5 : one_minus_sf_value * s ≤ 5 := by
    calc one_minus_sf_value * s ≤ 1 * 5 := mul_le_mul hb1 hs hs0 (by norm_num)
      _ = 5 := by norm_num
  have h1 : round64 (one_minus_sf_value * s) ≤ 5 := by
    have := round64_mono _ 5 hp0 hp5
    rwa [round64_five] at this
  have h0 : 0 ≤ round64 (one_minus_sf_value * s) := round64_nonneg _ hp0
  have h2 : smooth_sum 0 s = round64 (round64 (one_minus_sf_value * s)) := by
    unfold smooth_sum
    rw [mul_zero, round64_zero, zero_add]
  have h3 : round64 (round64 (one_minus_sf_value * s)) ≤ 5 := by
    have := round64_mono _ 5 h0 h1
    rwa [round64_five] at this
  have h4 : 0 ≤ round64 (round64 (one_minus_sf_value * s)) := round64_nonneg _ h0
  rw [h2]
  have := round32_mono _ 5 h4 h3
  rwa [round32_five] at this

/-- With the scaled height `0`, a height in `[0, 5]` is followed by the floor
`5`. -/
theorem smooth_update_zero (s : ℝ) (hs0 : 0 ≤ s) (hs : s ≤ 5) :
    smooth_update (fin 0) (fin s) = fin 5 := by
  rw [smooth_update_fin 0 s 3 (by norm_num) (by norm_num)
    (by rw [abs_of_nonneg hs0]; norm_num; linarith),
    max_eq_right (round32_smooth_sum_zero_le s hs0 hs)]

/-- C7 (counterexample): with the constant scaled height `H = 0` and the initial
height `0`, the smoothed height is `5` after every tick, so the sequence does
not converge to `H = 0`. -/
theorem smoothing_counterexample :
    (∀ t, smooth_iter (fin 0) (fin 0) (t + 1) = fin 5) ∧
    ¬ Filter.Tendsto (fun t => (smooth_iter (fin 0) (fin 0) t).toReal) Filter.atTop (nhds 0) := by
  have h5 : ∀ t, smooth_iter (fin 0) (fin 0) (t + 1) = fin 5 := by
    intro t
    induction t with
    | zero =>
      rw [smooth_iter, smooth_iter, smooth_update_zero 0 le_rfl (by norm_num)]
    | succ t ih =>
      rw [smooth_iter, ih, smooth_update_zero 5 (by norm_num) le_rfl]
  refine ⟨h5, fun h => ?_⟩
  have h' := (Filter.tendsto_add_atTop_iff_nat 1).mpr h
  simp only [h5, CFloat.toReal] at h'
  have := tendsto_nhds_unique h' tendsto_const_nhds
  norm_num at this

/-- C7 (amended): for a constant finite scaled height `H` and a finite initial
height `s0`, both of magnitude at most `B = 2^k` with `3 ≤ k ≤ 127`, every
smoothed height is finite and within
`0.9^t * |s0 - max(H, 5)| + 10 * B / 2^23` of `max(H, 5)` after `t` ticks: the
heights approach `H` when `H ≥ 5` and the floor `5` when `H < 5`, up to the
rounding of the `double` operations and of the store into the `float` array.
From the initial height `+inf` the height stays `+inf`. -/
theorem smoothing_error_bound (H s0 : ℝ) (k : ℕ) (hk3 : 3 ≤ k) (hk : k ≤ 127)
    (hH : |H| ≤ 2 ^ k) (hs : |s0| ≤ 2 ^ k) :
    (∀ t, ∃ y : ℝ, smooth_iter (fin H) (fin s0) t = fin y ∧
      |y - max H 5| ≤ (9 / 10) ^ t * |s0 - max H 5| + 10 * 2 ^ k / 2 ^ 23) ∧
    (∀ t, smooth_iter (fin H) pinf t = pinf) := by
  refine ⟨fun t => ⟨_, smooth_iter_fin H s0 k hk3 hk hH hs t, ?_⟩,
    smooth_iter_pinf H k hk hH⟩
  have hb := smooth_real_bound H s0 k hk3 hH hs t
  have e : (10 : ℝ) * 2 ^ k / 2 ^ 23 = 10 * (2 ^ k / 2 ^ 23) := by ring
  rw [e]
  exact hb

/-- Witness for C7: the scaled height `600` from the initial height `0`, with
`B = 2^10`. -/
theorem smoothing_error_bound_witness :
    (|(600 : ℝ)| ≤ 2 ^ 10 ∧ |(0 : ℝ)| ≤ 2 ^ 10) ∧
    ((∀ t, ∃ y : ℝ, smooth_iter (fin 600) (fin 0) t = fin y ∧
      |y - max 600 5| ≤ (9 / 10) ^ t * |0 - max 600 5| + 10 * 2 ^ 10 / 2 ^ 23) ∧
    (∀ t, smooth_iter (fin 600) pinf t = pinf)) :=
  ⟨⟨by norm_num, by norm_num⟩,
    smoothing_error_bound 600 0 10 (by norm_num) (by norm_num) (by norm_num) (by norm_num)⟩
/-! ## Bin ranges -/

/-- Every bin edge is positive. -/
theorem bin_edge_pos (N n i : ℕ) : 0 < bin_edge N n i :=
  Real.rpow_pos_of_pos (by norm_num) _

/-- The `N`-th power of the edge of bar `i` is the `i`-th power of the number of
usable bins. -/
theorem bin_edge_pow (N n i : ℕ) (hN : 1 ≤ N) (hn : 1 ≤ n) :
    bin_edge N n i ^ N = ((n : ℝ) / 2) ^ i := by
  have hN0 : (N : ℝ) ≠ 0 := by exact_mod_cast (by omega : N ≠ 0)
  have hU : 0 < (n : ℝ) / 2 := by
    have : (0 : ℝ) < n := by exact_mod_cast hn
    linarith
  unfold bin_edge
  rw [← Real.rpow_natCast, ← Real.rpow_mul (by norm_num)]
  have e : (i : ℝ) * Real.logb 2 ((n : ℝ) / 2) / (N : ℝ) * (N : ℝ)
      = Real.logb 2 ((n : ℝ) / 2) * (i : ℝ) := by
    field_simp
    ring
  rw [e, Real.rpow_mul (by norm_num), Real.rpow_logb (by norm_num) (by norm_num) hU,
    Real.rpow_natCast]

/-- A lower bound of a bin edge by a comparison of powers. -/
theorem le_bin_edge (N n i : ℕ) (hN : 1 ≤ N) (hn : 1 ≤ n) (c : ℝ)
    (h : c ^ N ≤ ((n : ℝ) / 2) ^ i) : c ≤ bin_edge N n i := by
  rw [← bin_edge_pow N n i hN hn] at h
  exact le_of_pow_le_pow_left₀ (by omega) (bin_edge_pos N n i).le h

/-- A strict lower bound of a bin edge by a comparison of powers. -/
theorem lt_bin_edge (N n i : ℕ) (hN : 1 ≤ N) (hn : 1 ≤ n) (c : ℝ)
    (h : c ^ N < ((n : ℝ) / 2) ^ i) : c < bin_edge N n i := by
  rw [← bin_edge_pow N n i hN hn] at h
  exact lt_of_pow_lt_pow_left₀ N (bin_edge_pos N n i).le h

/-- An upper bound of a bin edge by a comparison of powers. -/
theorem bin_edge_le (N n i : ℕ) (hN : 1 ≤ N) (hn : 1 ≤ n) (c : ℝ) (hc : 0 ≤ c)
    (h : ((n : ℝ) / 2) ^ i ≤ c ^ N) : bin_edge N n i ≤ c := by
  rw [← bin_edge_pow N n i hN hn] at h
  exact le_of_pow_le_pow_left₀ (by omega) hc h

/-- A strict upper bound of a bin edge by a comparison of powers. -/
theorem bin_edge_lt (N n i : ℕ) (hN : 1 ≤ N) (hn : 1 ≤ n) (c : ℝ) (hc : 0 ≤ c)
    (h : ((n : ℝ) / 2) ^ i < c ^ N) : bin_edge N n i < c := by
  rw [← bin_edge_pow N n i hN hn] at h
  exact lt_of_pow_lt_pow_left₀ N hc h

/-- With at least one usable bin the logarithm in the bin edges is not negative. -/
theorem logb_usable_nonneg (n : ℕ) (hn : 2 ≤ n) : 0 ≤ Real.logb 2 ((n : ℝ) / 2) := by
  apply Real.logb_nonneg (by norm_num)
  have : (2 : ℝ) ≤ n := by exact_mod_cast hn
  linarith

/-- The bin edges are non-decreasing in the bar index. -/
theorem bin_edge_mono (N n : ℕ) (hn : 2 ≤ n) (i j : ℕ) (hij : i ≤ j) :
    bin_edge N n i ≤ bin_edge N n j := by
  unfold bin_edge
  rw [Real.rpow_le_rpow_left_iff (by norm_num : (1 : ℝ) < 2)]
  have hL := logb_usable_nonneg n hn
  have hc : (i : ℝ) ≤ j := by exact_mod_cast hij
  apply div_le_div_of_nonneg_right _ (Nat.cast_nonneg N)
  exact mul_le_mul_of_nonneg_right hc hL

/-- The first bin edge is `1`. -/
theorem bin_edge_zero (N n : ℕ) : bin_edge N n 0 = 1 := by
  simp [bin_edge]

/-- The last bin edge is the number of usable bins `num_samples / 2`. -/
theorem bin_edge_last (N n : ℕ) (hN : 1 ≤ N) (hn : 1 ≤ n) :
    bin_edge N n N = (n : ℝ) / 2 := by
  have hN0 : (N : ℝ) ≠ 0 := by exact_mod_cast (by omega : N ≠ 0)
  have hU : 0 < (n : ℝ) / 2 := by
    have : (0 : ℝ) < n := by exact_mod_cast hn
    linarith
  unfold bin_edge
  rw [mul_div_assoc, mul_div_cancel₀ _ hN0, Real.rpow_logb (by norm_num) (by norm_num) hU]

/-- Up to the last bar the bin edges are at most the number of usable bins. -/
theorem bin_edge_le_half (N n i : ℕ) (hN : 1 ≤ N) (hn : 2 ≤ n) (hi : i ≤ N) :
    bin_edge N n i ≤ (n : ℝ) / 2 := by
  rw [← bin_edge_last N n hN (by omega)]
  exact bin_edge_mono N n hn i N hi

/-- A non-negative real of at most `2^k` rounds to binary64 within `2^k`. -/
theorem round64_le_pow (x : ℝ) (k : ℕ) (hx : 0 ≤ x) (h : x ≤ 2 ^ k) : round64 x ≤ 2 ^ k := by
  have := abs_round64_le_pow x k (by rwa [abs_of_nonneg hx])
  exact (abs_le.mp this).2

/-- A real of at least `1` rounds to binary64 to at least `1`. -/
theorem one_le_round64 (x : ℝ) (h : 1 ≤ x) : 1 ≤ round64 x := by
  have := round64_mono 1 x zero_le_one h
  rwa [round64_one] at this

/-- The `double` value of `num_samples / 2.0` lies between `1` and `2^64`. -/
theorem usable_bins_bounds (n : ℕ) (hn : 2 ≤ n) (hn64 : n < 2 ^ 64) :
    1 ≤ usable_bins n ∧ usable_bins n ≤ 2 ^ 64 := by
  have h2 : (2 : ℝ) ≤ (n : ℝ) := by exact_mod_cast hn
  have h64 : (n : ℝ) ≤ 2 ^ 64 := by
    have : (n : ℝ) < ((2 ^ 64 : ℕ) : ℝ) := by exact_mod_cast hn64
    have e : (((2 ^ 64 : ℕ) : ℝ)) = 2 ^ 64 := by norm_num
    rw [e] at this
    exact this.le
  have r2 : 2 ≤ round64 (n : ℝ) := by
    have := round64_mono 2 (n : ℝ) (by norm_num) h2
    have e : round64 2 = 2 := by simpa using round64_natCast 2 (by norm_num)
    rwa [e] at this
  have r64 : round64 (n : ℝ) ≤ 2 ^ 64 := round64_le_pow _ 64 (by linarith) h64
  unfold usable_bins
  constructor
  · exact one_le_round64 _ (by linarith)
  · exact round64_le_pow _ 64 (by linarith) (by linarith)

/-- Below `2^53` samples the `double` value of `num_samples / 2.0` is exact. -/
theorem usable_bins_eq (n : ℕ) (hn53 : n < 2 ^ 53) : usable_bins n = (n : ℝ) / 2 := by
  unfold usable_bins
  rw [round64_natCast n hn53, round64_half_natCast n hn53]

/-- The logarithm to base 2 of a real between `1` and `2^64` lies between `0`
and `64`. -/
theorem logb_two_bounds (x : ℝ) (h1 : 1 ≤ x) (h64 : x ≤ 2 ^ 64) :
    0 ≤ Real.logb 2 x ∧ Real.logb 2 x ≤ 64 := by
  refine ⟨Real.logb_nonneg (by norm_num) h1, ?_⟩
  rw [Real.logb_le_iff_le_rpow (by norm_num) (by linarith)]
  have e : (2 : ℝ) ^ (64 : ℝ) = 2 ^ 64 := by
    rw [← Real.rpow_natCast]
    norm_num
  rw [e]
  exact h64

/-- The `double` value of `log2(num_samples / 2.0)` lies between `0` and `64`. -/
theorem log2_usable_bounds (n : ℕ) (hn : 2 ≤ n) (hn64 : n < 2 ^ 64) :
    0 ≤ log2_usable n ∧ log2_usable n ≤ 64 := by
  obtain ⟨h1, h64⟩ := usable_bins_bounds n hn hn64
  obtain ⟨l0, l64⟩ := logb_two_bounds _ h1 h64
  unfold log2_usable
  refine ⟨round64_nonneg _ l0, ?_⟩
  have := round64_le_pow _ 6 l0 (by norm_num; exact l64)
  norm_num at this
  exact this

/-- The value of the expression `log2(num_samples / 2.0)`. -/
theorem log2_half_eq (n : ℕ) (hn : 2 ≤ n) (hn64 : n < 2 ^ 64) :
    log2_half n = fin (log2_usable n) := by
  have h2 : (2 : ℝ) ≤ (n : ℝ) := by exact_mod_cast hn
  have h64 : (n : ℝ) ≤ 2 ^ 64 := by
    have : (n : ℝ) < ((2 ^ 64 : ℕ) : ℝ) := by exact_mod_cast hn64
    have e : (((2 ^ 64 : ℕ) : ℝ)) = 2 ^ 64 := by norm_num
    rw [e] at this
    exact this.le
  have r2 : 2 ≤ round64 (n : ℝ) := by
    have := round64_mono 2 (n : ℝ) (by norm_num) h2
    have e : round64 2 = 2 := by simpa using round64_natCast 2 (by norm_num)
    rwa [e] at this
  have r64 : round64 (n : ℝ) ≤ 2 ^ 64 := round64_le_pow _ 64 (by linarith) h64
  obtain ⟨u1, u64⟩ := usable_bins_bounds n hn hn64
  obtain ⟨l0, l64⟩ := logb_two_bounds _ u1 u64
  unfold log2_half CFloat.ofNat
  simp only [r64c]
  rw [r64_of_abs_le_pow (n : ℝ) 64 (by norm_num) (by rw [abs_of_nonneg (by linarith)]; exact h64),
    CFloat.fin_div_fin _ _ (by norm_num : (2 : ℝ) ≠ 0)]
  simp only [r64c]
  rw [r64_of_abs_le_pow _ 64 (by norm_num)
    (by rw [abs_of_nonneg (by linarith)]; linarith)]
  rw [show round64 (round64 (n : ℝ) / 2) = usable_bins n from rfl,
    CFloat.log2_fin_pos _ (by linarith)]
  simp only [r64c]
  rw [r64_of_abs_le_pow _ 6 (by norm_num)
    (by rw [abs_of_nonneg l0]; norm_num; exact l64)]
  rfl

/-- The `double` product `(float)i * log2(num_samples / 2.0)` lies between `0`
and `64 * N` for `i ≤ N`. -/
theorem edge_product_bounds (N n i : ℕ) (hN24 : N < 2 ^ 24) (hn : 2 ≤ n) (hn64 : n < 2 ^ 64)
    (hi : i ≤ N) :
    0 ≤ (i : ℝ) * log2_usable n ∧ (i : ℝ) * log2_usable n ≤ 64 * (N : ℝ) ∧
    0 ≤ round64 ((i : ℝ) * log2_usable n) ∧
    round64 ((i : ℝ) * log2_usable n) ≤ 64 * (N : ℝ) := by
  obtain ⟨l0, l64⟩ := log2_usable_bounds n hn hn64
  have hiN : (i : ℝ) ≤ (N : ℝ) := by exact_mod_cast hi
  have hi0 : (0 : ℝ) ≤ (i : ℝ) := Nat.cast_nonneg i
  have p0 : 0 ≤ (i : ℝ) * log2_usable n := mul_nonneg hi0 l0
  have p1 : (i : ℝ) * log2_usable n ≤ 64 * (N : ℝ) := by
    calc (i : ℝ) * log2_usable n ≤ (N : ℝ) * 64 := mul_le_mul hiN l64 l0 (by linarith)
      _ = 64 * (N : ℝ) := by ring
  refine ⟨p0, p1, round64_nonneg _ p0, ?_⟩
  have hfix : round64 (((64 * N : ℕ) : ℝ)) = ((64 * N : ℕ) : ℝ) :=
    round64_natCast (64 * N) (by omega)
  have := round64_mono _ (((64 * N : ℕ) : ℝ)) p0 (by push_cast; exact p1)
  rw [hfix] at this
  push_cast at this
  exact this

/-- The `double` exponent of an edge lies between `0` and `64`. -/
theorem edge_exponent_bounds (N n i : ℕ) (hN : 1 ≤ N) (hN24 : N < 2 ^ 24) (hn : 2 ≤ n)
    (hn64 : n < 2 ^ 64) (hi : i ≤ N) :
    0 ≤ edge_exponent N n i ∧ edge_exponent N n i ≤ 64 := by
  obtain ⟨-, -, q0, q1⟩ := edge_product_bounds N n i hN24 hn hn64 hi
  have hNpos : (0 : ℝ) < (N : ℝ) := by exact_mod_cast hN
  have d0 : 0 ≤ round64 ((i : ℝ) * log2_usable n) / (N : ℝ) := div_nonneg q0 hNpos.le
  have d1 : round64 ((i : ℝ) * log2_usable n) / (N : ℝ) ≤ 64 := by
    rw [div_le_iff₀ hNpos]
    exact q1
  unfold edge_exponent
  refine ⟨round64_nonneg _ d0, ?_⟩
  have := round64_le_pow _ 6 d0 (by norm_num; exact d1)
  norm_num at this
  exact this

/-- The `double` that `pow` returns for an edge lies between `1` and `2^64`. -/
theorem double_edge_bounds (N n i : ℕ) (hN : 1 ≤ N) (hN24 : N < 2 ^ 24) (hn : 2 ≤ n)
    (hn64 : n < 2 ^ 64) (hi : i ≤ N) :
    1 ≤ double_edge N n i ∧ double_edge N n i ≤ 2 ^ 64 := by
  obtain ⟨e0, e64⟩ := edge_exponent_bounds N n i hN hN24 hn hn64 hi
  have h1 : (1 : ℝ) ≤ (2 : ℝ) ^ edge_exponent N n i :=
    Real.one_le_rpow (by norm_num) e0
  have h2 : (2 : ℝ) ^ edge_exponent N n i ≤ 2 ^ 64 := by
    have := Real.rpow_le_rpow_of_exponent_le (by norm_num : (1 : ℝ) ≤ 2) e64
    have e : (2 : ℝ) ^ (64 : ℝ) = 2 ^ 64 := by
      rw [← Real.rpow_natCast]
      norm_num
    rwa [e] at this
  unfold double_edge
  exact ⟨one_le_round64 _ h1, round64_le_pow _ 64 (by linarith) h2⟩

/-- The value stored in `start_bin`. -/
theorem start_bin_eq (N n i : ℕ) (hN : 1 ≤ N) (hN24 : N < 2 ^ 24) (hn : 2 ≤ n)
    (hn64 : n < 2 ^ 64) (hi : i ≤ N) : start_bin N n i = fin (float_edge N n i) := by
  have hNpos : (0 : ℝ) < (N : ℝ) := by exact_mod_cast hN
  have hN30 : (64 : ℝ) * (N : ℝ) ≤ 2 ^ 30 := by
    have : (N : ℝ) < ((2 ^ 24 : ℕ) : ℝ) := by exact_mod_cast hN24
    push_cast at this
    linarith
  obtain ⟨p0, p1, q0, q1⟩ := edge_product_bounds N n i hN24 hn hn64 hi
  obtain ⟨e0, e64⟩ := edge_exponent_bounds N n i hN hN24 hn hn64 hi
  obtain ⟨d1, d64⟩ := double_edge_bounds N n i hN hN24 hn hn64 hi
  have hq : round64 ((i : ℝ) * log2_usable n) / (N : ℝ) ≤ 2 ^ 30 := by
    rw [div_le_iff₀ hNpos]
    have : (1 : ℝ) ≤ (N : ℝ) := by exact_mod_cast hN
    nlinarith
  unfold start_bin CFloat.ofNat
  rw [log2_half_eq n hn hn64, r32_natCast i (by omega), CFloat.fin_mul_fin]
  simp only [r64c]
  rw [r64_of_abs_le_pow _ 30 (by norm_num) (by rw [abs_of_nonneg p0]; linarith),
    r64_natCast N (by omega), CFloat.fin_div_fin _ _ hNpos.ne']
  simp only [r64c]
  rw [r64_of_abs_le_pow _ 30 (by norm_num)
    (by rw [abs_of_nonneg (div_nonneg q0 hNpos.le)]; exact hq)]
  rw [show round64 (round64 ((i : ℝ) * log2_usable n) / (N : ℝ)) = edge_exponent N n i from rfl]
  simp only [CFloat.pow2, r64c]
  rw [r64_of_abs_le_pow _ 64 (by norm_num) (by
    rw [abs_of_pos (Real.rpow_pos_of_pos (by norm_num) _)]
    have := Real.rpow_le_rpow_of_exponent_le (by norm_num : (1 : ℝ) ≤ 2) e64
    have e : (2 : ℝ) ^ (64 : ℝ) = 2 ^ 64 := by
      rw [← Real.rpow_natCast]
      norm_num
    rwa [e] at this)]
  rw [show round64 ((2 : ℝ) ^ edge_exponent N n i) = double_edge N n i from rfl]
  simp only [r32c]
  rw [r32_of_abs_le _ (by
    rw [abs_of_nonneg (by linarith)]
    have : (2 : ℝ) ^ 64 ≤ (2 : ℝ) ^ (127 : ℤ) := by norm_num
    linarith)]
  rfl

/-- The value stored in `end_bin`. -/
theorem end_bin_eq (N n i : ℕ) (hN : 1 ≤ N) (hN24 : N < 2 ^ 24) (hn : 2 ≤ n)
    (hn64 : n < 2 ^ 64) (hi : i < N) : end_bin N n i = fin (float_edge N n (i + 1)) := by
  have h := start_bin_eq N n (i + 1) hN hN24 hn hn64 hi
  unfold start_bin at h
  unfold end_bin
  exact h

/-- The `double` exponents of the edges are non-negative and non-decreasing in
the bar index. -/
theorem edge_exponent_mono (N n : ℕ) (hn : 2 ≤ n) (hn64 : n < 2 ^ 64) (i j : ℕ) (hij : i ≤ j) :
    0 ≤ edge_exponent N n i ∧ edge_exponent N n i ≤ edge_exponent N n j := by
  obtain ⟨l0, -⟩ := log2_usable_bounds n hn hn64
  have hc : (i : ℝ) ≤ (j : ℝ) := by exact_mod_cast hij
  have p0 : 0 ≤ (i : ℝ) * log2_usable n := mul_nonneg (Nat.cast_nonneg i) l0
  have p1 : (i : ℝ) * log2_usable n ≤ (j : ℝ) * log2_usable n :=
    mul_le_mul_of_nonneg_right hc l0
  have q0 := round64_nonneg _ p0
  have q1 := round64_mono _ _ p0 p1
  have d0 : 0 ≤ round64 ((i : ℝ) * log2_usable n) / (N : ℝ) :=
    div_nonneg q0 (Nat.cast_nonneg N)
  have d1 : round64 ((i : ℝ) * log2_usable n) / (N : ℝ)
      ≤ round64 ((j : ℝ) * log2_usable n) / (N : ℝ) :=
    div_le_div_of_nonneg_right q1 (Nat.cast_nonneg N)
  exact ⟨round64_nonneg _ d0, round64_mono _ _ d0 d1⟩

/-- The `double` edges are at least `1` and non-decreasing in the bar index. -/
theorem double_edge_mono (N n : ℕ) (hn : 2 ≤ n) (hn64 : n < 2 ^ 64) (i j : ℕ) (hij : i ≤ j) :
    1 ≤ double_edge N n i ∧ double_edge N n i ≤ double_edge N n j := by
  obtain ⟨e0, e1⟩ := edge_exponent_mono N n hn hn64 i j hij
  have h1 : (1 : ℝ) ≤ (2 : ℝ) ^ edge_exponent N n i := Real.one_le_rpow (by norm_num) e0
  have h2 : (2 : ℝ) ^ edge_exponent N n i ≤ (2 : ℝ) ^ edge_exponent N n j :=
    Real.rpow_le_rpow_of_exponent_le (by norm_num) e1
  exact ⟨one_le_round64 _ h1, round64_mono _ _ (by linarith) h2⟩

/-- Every stored edge is at least `1`. -/
theorem one_le_float_edge (N n : ℕ) (hn : 2 ≤ n) (hn64 : n < 2 ^ 64) (i : ℕ) :
    1 ≤ float_edge N n i := by
  obtain ⟨h1, -⟩ := double_edge_mono N n hn hn64 i i le_rfl
  have := round32_mono 1 (double_edge N n i) zero_le_one h1
  have h11 : round32 1 = 1 := by simpa using round32_natCast 1 (by norm_num)
  rw [h11] at this
  exact this

/-- The stored edges are non-decreasing in the bar index. -/
theorem float_edge_mono (N n : ℕ) (hn : 2 ≤ n) (hn64 : n < 2 ^ 64) (i j : ℕ) (hij : i ≤ j) :
    float_edge N n i ≤ float_edge N n j := by
  obtain ⟨h1, h2⟩ := double_edge_mono N n hn hn64 i j hij
  exact round32_mono _ _ (by linarith) h2

/-- The truncated stored edges are non-decreasing in the bar index. -/
theorem floor_float_edge_mono (N n : ℕ) (hn : 2 ≤ n) (hn64 : n < 2 ^ 64) (i j : ℕ)
    (hij : i ≤ j) : ⌊float_edge N n i⌋₊ ≤ ⌊float_edge N n j⌋₊ :=
  Nat.floor_mono (float_edge_mono N n hn hn64 i j hij)

/-- The conversion to `size_t` of a non-negative finite value is its floor. -/
theorem toSizeT_fin (x : ℝ) (hx : 0 ≤ x) : toSizeT (fin x) = some ⌊x⌋₊ := by
  have : (-1 : ℝ) < x := by linarith
  simp [CFloat.toSizeT, this]

/-- The integer bin range of a bar. -/
theorem bin_range_eq (N n i : ℕ) (hN : 1 ≤ N) (hN24 : N < 2 ^ 24) (hn : 2 ≤ n)
    (hn64 : n < 2 ^ 64) (hi : i < N) :
    bin_range N n i = some (⌊float_edge N n i⌋₊, ⌊float_edge N n (i + 1)⌋₊) := by
  unfold bin_range
  rw [start_bin_eq N n i hN hN24 hn hn64 hi.le, end_bin_eq N n i hN hN24 hn hn64 hi,
    toSizeT_fin _ (le_trans zero_le_one (one_le_float_edge N n hn hn64 i)),
    toSizeT_fin _ (le_trans zero_le_one (one_le_float_edge N n hn hn64 (i + 1)))]

/-- The specification's bin range in terms of the bin edges. -/
theorem bin_range_spec_eq (N n i : ℕ) :
    bin_range_spec i N ((n : ℝ) / 2) = (⌊bin_edge N n i⌋₊, ⌊bin_edge N n (i + 1)⌋₊) := rfl

/-- The first stored edge is `1`. -/
theorem float_edge_zero (N n : ℕ) : float_edge N n 0 = 1 := by
  unfold float_edge double_edge edge_exponent
  simp only [Nat.cast_zero, zero_mul, round64_zero, zero_div, Real.rpow_zero, round64_one]
  simpa using round32_natCast 1 (by norm_num)
/-- The `double` exponent of an edge is within `2^-44` of the exact exponent
`i * log2(num_samples / 2) / N`. -/
theorem abs_edge_exponent_sub_le (N n i : ℕ) (hN : 1 ≤ N) (hN24 : N < 2 ^ 24) (hn : 2 ≤ n)
    (hn53 : n < 2 ^ 53) (hi : i ≤ N) :
    |edge_exponent N n i - (i : ℝ) * Real.logb 2 ((n : ℝ) / 2) / (N : ℝ)| ≤ 1 / 2 ^ 44 := by
  have hn64 : n < 2 ^ 64 := lt_trans hn53 (by norm_num)
  have hNpos : (0 : ℝ) < (N : ℝ) := by exact_mod_cast hN
  have hN1 : (1 : ℝ) ≤ (N : ℝ) := by exact_mod_cast hN
  have hiN : (i : ℝ) ≤ (N : ℝ) := by exact_mod_cast hi
  have hi0 : (0 : ℝ) ≤ (i : ℝ) := Nat.cast_nonneg i
  obtain ⟨u1, u64⟩ := usable_bins_bounds n hn hn64
  rw [usable_bins_eq n hn53] at u1 u64
  obtain ⟨l0, l64⟩ := logb_two_bounds _ u1 u64
  obtain ⟨L0, L64⟩ := log2_usable_bounds n hn hn64
  obtain ⟨p0, p1, q0, q1⟩ := edge_product_bounds N n i hN24 hn hn64 hi
  have hL : |log2_usable n - Real.logb 2 ((n : ℝ) / 2)| ≤ 2 ^ 6 / 2 ^ 53 := by
    have := abs_round64_sub_le_pow (Real.logb 2 ((n : ℝ) / 2)) 6
      (by rw [abs_of_nonneg l0]; norm_num; exact l64)
    unfold log2_usable
    rw [usable_bins_eq n hn53]
    exact this
  have hP := abs_round64_sub_le_rel_add ((i : ℝ) * log2_usable n)
  rw [abs_of_nonneg p0] at hP
  have hPl : |round64 ((i : ℝ) * log2_usable n) - (i : ℝ) * Real.logb 2 ((n : ℝ) / 2)|
      ≤ (N : ℝ) * (1 / 2 ^ 45) := by
    have e : round64 ((i : ℝ) * log2_usable n) - (i : ℝ) * Real.logb 2 ((n : ℝ) / 2)
        = (round64 ((i : ℝ) * log2_usable n) - (i : ℝ) * log2_usable n)
          + (i : ℝ) * (log2_usable n - Real.logb 2 ((n : ℝ) / 2)) := by ring
    rw [e]
    have t := abs_add (round64 ((i : ℝ) * log2_usable n) - (i : ℝ) * log2_usable n)
      ((i : ℝ) * (log2_usable n - Real.logb 2 ((n : ℝ) / 2)))
    rw [abs_mul, abs_of_nonneg hi0] at t
    have t2 : (i : ℝ) * |log2_usable n - Real.logb 2 ((n : ℝ) / 2)|
        ≤ (N : ℝ) * (2 ^ 6 / 2 ^ 53) := mul_le_mul hiN hL (abs_nonneg _) hNpos.le
    have t3 : (i : ℝ) * log2_usable n / 2 ^ 53 ≤ (N : ℝ) * (2 ^ 6 / 2 ^ 53) := by
      have : (i : ℝ) * log2_usable n / 2 ^ 53 ≤ 64 * (N : ℝ) / 2 ^ 53 :=
        div_le_div_of_nonneg_right p1 (by positivity)
      have e2 : (N : ℝ) * (2 ^ 6 / 2 ^ 53) = 64 * (N : ℝ) / 2 ^ 53 := by ring
      rw [e2]
      exact this
    have t4 : (1 : ℝ) / 2 ^ 1075 ≤ (N : ℝ) * (1 / 2 ^ 53) := by
      have h1 : (1 : ℝ) / 2 ^ 1075 ≤ 1 * (1 / 2 ^ 53) := by
        rw [one_mul]
        exact div_le_div_of_nonneg_left (by norm_num) (by positivity)
          (pow_le_pow_right₀ (by norm_num) (by norm_num))
      have h2 : (1 : ℝ) * (1 / 2 ^ 53) ≤ (N : ℝ) * (1 / 2 ^ 53) :=
        mul_le_mul_of_nonneg_right hN1 (by positivity)
      linarith
    have e3 : (N : ℝ) * (1 / 2 ^ 45)
        = (N : ℝ) * (2 ^ 6 / 2 ^ 53) + (N : ℝ) * (2 ^ 6 / 2 ^ 53) + (N : ℝ) * (1 / 2 ^ 53)
          + (N : ℝ) * (127 / 2 ^ 53) := by ring
    have t5 : (0 : ℝ) ≤ (N : ℝ) * (127 / 2 ^ 53) := by positivity
    rw [e3]
    linarith
  have hQ : |round64 ((i : ℝ) * log2_usable n) / (N : ℝ)
      - (i : ℝ) * Real.logb 2 ((n : ℝ) / 2) / (N : ℝ)| ≤ 1 / 2 ^ 45 := by
    rw [← sub_div, abs_div, abs_of_pos hNpos, div_le_iff₀ hNpos]
    have e : (1 : ℝ) / 2 ^ 45 * (N : ℝ) = (N : ℝ) * (1 / 2 ^ 45) := by ring
    rw [e]
    exact hPl
  have d0 : 0 ≤ round64 ((i : ℝ) * log2_usable n) / (N : ℝ) := div_nonneg q0 hNpos.le
  have d1 : round64 ((i : ℝ) * log2_usable n) / (N : ℝ) ≤ 64 := by
    rw [div_le_iff₀ hNpos]
    exact q1
  have hE := abs_round64_sub_le_pow (round64 ((i : ℝ) * log2_usable n) / (N : ℝ)) 6
    (by rw [abs_of_nonneg d0]; norm_num; exact d1)
  have e : edge_exponent N n i - (i : ℝ) * Real.logb 2 ((n : ℝ) / 2) / (N : ℝ)
      = (edge_exponent N n i - round64 ((i : ℝ) * log2_usable n) / (N : ℝ))
        + (round64 ((i : ℝ) * log2_usable n) / (N : ℝ)
          - (i : ℝ) * Real.logb 2 ((n : ℝ) / 2) / (N : ℝ)) := by ring
  rw [e]
  have t := abs_add (edge_exponent N n i - round64 ((i : ℝ) * log2_usable n) / (N : ℝ))
    (round64 ((i : ℝ) * log2_usable n) / (N : ℝ)
      - (i : ℝ) * Real.logb 2 ((n : ℝ) / 2) / (N : ℝ))
  have hE' : |edge_exponent N n i - round64 ((i : ℝ) * log2_usable n) / (N : ℝ)|
      ≤ 2 ^ 6 / 2 ^ 53 := hE
  have c : (1 : ℝ) / 2 ^ 44 = 2 ^ 6 / 2 ^ 53 + 1 / 2 ^ 45 + 3 / 2 ^ 47 := by norm_num
  rw [c]
  have : (0 : ℝ) ≤ 3 / 2 ^ 47 := by positivity
  linarith

/-- The `double` that `pow` returns for an edge is within the relative distance
`2^-42` of the exact edge `2^(i * log2(num_samples / 2) / N)`. -/
theorem double_edge_near (N n i : ℕ) (hN : 1 ≤ N) (hN24 : N < 2 ^ 24) (hn : 2 ≤ n)
    (hn53 : n < 2 ^ 53) (hi : i ≤ N) :
    bin_edge N n i * (1 - 1 / 2 ^ 42) ≤ double_edge N n i ∧
    double_edge N n i ≤ bin_edge N n i * (1 + 1 / 2 ^ 42) := by
  have hn64 : n < 2 ^ 64 := lt_trans hn53 (by norm_num)
  have hx := bin_edge_pos N n i
  obtain ⟨e0, -⟩ := edge_exponent_bounds N n i hN hN24 hn hn64 hi
  have hd := abs_edge_exponent_sub_le N n i hN hN24 hn hn53 hi
  obtain ⟨hlo, hhi⟩ := two_rpow_near_one _ (1 / 2 ^ 44) hd (by norm_num)
  have hsplit : (2 : ℝ) ^ edge_exponent N n i = bin_edge N n i *
      (2 : ℝ) ^ (edge_exponent N n i - (i : ℝ) * Real.logb 2 ((n : ℝ) / 2) / (N : ℝ)) := by
    unfold bin_edge
    rw [← Real.rpow_add (by norm_num : (0 : ℝ) < 2)]
    congr 1
    ring
  have hy1 : (1 : ℝ) ≤ (2 : ℝ) ^ edge_exponent N n i := Real.one_le_rpow (by norm_num) e0
  have hylo : bin_edge N n i * (1 - 1 / 2 ^ 44) ≤ (2 : ℝ) ^ edge_exponent N n i := by
    rw [hsplit]
    exact mul_le_mul_of_nonneg_left hlo hx.le
  have hyhi : (2 : ℝ) ^ edge_exponent N n i ≤ bin_edge N n i * (1 + 2 * (1 / 2 ^ 44)) := by
    rw [hsplit]
    exact mul_le_mul_of_nonneg_left hhi hx.le
  have hr := abs_round64_sub_le_rel ((2 : ℝ) ^ edge_exponent N n i) (by
    rw [abs_of_pos (by linarith)]
    have : (2 : ℝ) ^ (-1022 : ℤ) ≤ 1 := zpow_le_one_of_nonpos₀ (by norm_num) (by norm_num)
    linarith)
  rw [abs_of_pos (by linarith : (0 : ℝ) < (2 : ℝ) ^ edge_exponent N n i), abs_le] at hr
  unfold double_edge
  constructor
  · have h1 : (2 : ℝ) ^ edge_exponent N n i * (1 - 1 / 2 ^ 53)
        ≤ round64 ((2 : ℝ) ^ edge_exponent N n i) := by
      have e : (2 : ℝ) ^ edge_exponent N n i * (1 - 1 / 2 ^ 53)
          = (2 : ℝ) ^ edge_exponent N n i - (2 : ℝ) ^ edge_exponent N n i / 2 ^ 53 := by ring
      rw [e]
      linarith
    have h2 : bin_edge N n i * (1 - 1 / 2 ^ 44) * (1 - 1 / 2 ^ 53)
        ≤ (2 : ℝ) ^ edge_exponent N n i * (1 - 1 / 2 ^ 53) :=
      mul_le_mul_of_nonneg_right hylo (by norm_num)
    have h3 : bin_edge N n i * (1 - 1 / 2 ^ 42)
        ≤ bin_edge N n i * ((1 - 1 / 2 ^ 44) * (1 - 1 / 2 ^ 53)) :=
      mul_le_mul_of_nonneg_left (by norm_num) hx.le
    have e : bin_edge N n i * ((1 - 1 / 2 ^ 44) * (1 - 1 / 2 ^ 53))
        = bin_edge N n i * (1 - 1 / 2 ^ 44) * (1 - 1 / 2 ^ 53) := by ring
    linarith
  · have h1 : round64 ((2 : ℝ) ^ edge_exponent N n i)
        ≤ (2 : ℝ) ^ edge_exponent N n i * (1 + 1 / 2 ^ 53) := by
      have e : (2 : ℝ) ^ edge_exponent N n i * (1 + 1 / 2 ^ 53)
          = (2 : ℝ) ^ edge_exponent N n i + (2 : ℝ) ^ edge_exponent N n i / 2 ^ 53 := by ring
      rw [e]
      linarith
    have h2 : (2 : ℝ) ^ edge_exponent N n i * (1 + 1 / 2 ^ 53)
        ≤ bin_edge N n i * (1 + 2 * (1 / 2 ^ 44)) * (1 + 1 / 2 ^ 53) :=
      mul_le_mul_of_nonneg_right hyhi (by norm_num)
    have h3 : bin_edge N n i * ((1 + 2 * (1 / 2 ^ 44)) * (1 + 1 / 2 ^ 53))
        ≤ bin_edge N n i * (1 + 1 / 2 ^ 42) :=
      mul_le_mul_of_nonneg_left (by norm_num) hx.le
    have e : bin_edge N n i * ((1 + 2 * (1 / 2 ^ 44)) * (1 + 1 / 2 ^ 53))
        = bin_edge N n i * (1 + 2 * (1 / 2 ^ 44)) * (1 + 1 / 2 ^ 53) := by ring
    linarith

/-- Below `2^24` samples the truncation of a stored edge is the truncation of
the exact edge or one more. -/
theorem floor_float_edge_bounds (N n i : ℕ) (hN : 1 ≤ N) (hN24 : N < 2 ^ 24) (hn : 2 ≤ n)
    (hn24 : n < 2 ^ 24) (hi : i ≤ N) :
    ⌊bin_edge N n i⌋₊ ≤ ⌊float_edge N n i⌋₊ ∧
    ⌊float_edge N n i⌋₊ ≤ ⌊bin_edge N n i⌋₊ + 1 := by
  have hn53 : n < 2 ^ 53 := lt_trans hn24 (by norm_num)
  have hx := bin_edge_pos N n i
  have hx1 : (1 : ℝ) ≤ bin_edge N n i := by
    rw [← bin_edge_zero N n]
    exact bin_edge_mono N n hn 0 i (Nat.zero_le i)
  have hxU := bin_edge_le_half N n i hN hn hi
  obtain ⟨dlo, dhi⟩ := double_edge_near N n i hN hN24 hn hn53 hi
  have hk1 : 1 ≤ ⌊bin_edge N n i⌋₊ := Nat.le_floor (by simpa using hx1)
  have hkn : ⌊bin_edge N n i⌋₊ ≤ n / 2 := by
    have := Nat.floor_mono hxU
    have e := Nat.floor_div_eq_div (α := ℝ) n 2
    simp only [Nat.cast_ofNat] at e
    rwa [e] at this
  have hkx : ((⌊bin_edge N n i⌋₊ : ℕ) : ℝ) ≤ bin_edge N n i := Nat.floor_le hx.le
  have hxk : bin_edge N n i < ((⌊bin_edge N n i⌋₊ + 1 : ℕ) : ℝ) := by
    push_cast
    exact Nat.lt_floor_add_one _
  have hkpos : (0 : ℝ) < ((⌊bin_edge N n i⌋₊ : ℕ) : ℝ) := by exact_mod_cast hk1
  have hd0 : 0 ≤ double_edge N n i := by
    have : 0 ≤ bin_edge N n i * (1 - 1 / 2 ^ 42) := mul_nonneg hx.le (by norm_num)
    linarith
  unfold float_edge
  constructor
  · apply Nat.le_floor
    by_cases hc : ((⌊bin_edge N n i⌋₊ : ℕ) : ℝ) ≤ double_edge N n i
    · have := round32_mono _ _ hkpos.le hc
      rwa [round32_natCast _ (by omega)] at this
    · have hlt := not_le.mp hc
      have hnear : |double_edge N n i - ((⌊bin_edge N n i⌋₊ : ℕ) : ℝ)|
          ≤ ((⌊bin_edge N n i⌋₊ : ℕ) : ℝ) / 2 ^ 26 := by
        rw [abs_sub_comm, abs_of_pos (by linarith)]
        have h1 : ((⌊bin_edge N n i⌋₊ : ℕ) : ℝ) * (1 - 1 / 2 ^ 42)
            ≤ bin_edge N n i * (1 - 1 / 2 ^ 42) :=
          mul_le_mul_of_nonneg_right hkx (by norm_num)
        have h2 : ((⌊bin_edge N n i⌋₊ : ℕ) : ℝ) / 2 ^ 42
            ≤ ((⌊bin_edge N n i⌋₊ : ℕ) : ℝ) / 2 ^ 26 :=
          div_le_div_of_nonneg_left hkpos.le (by positivity)
            (pow_le_pow_right₀ (by norm_num) (by norm_num))
        have e : ((⌊bin_edge N n i⌋₊ : ℕ) : ℝ) * (1 - 1 / 2 ^ 42)
            = ((⌊bin_edge N n i⌋₊ : ℕ) : ℝ) - ((⌊bin_edge N n i⌋₊ : ℕ) : ℝ) / 2 ^ 42 := by ring
        linarith
      rw [round32_eq_of_near_natCast _ hk1 (by omega) _ hnear]
  · have hk1' : 1 ≤ ⌊bin_edge N n i⌋₊ + 1 := by omega
    have hk1pos : (0 : ℝ) < ((⌊bin_edge N n i⌋₊ + 1 : ℕ) : ℝ) := by exact_mod_cast hk1'
    have hle : round32 (double_edge N n i) ≤ ((⌊bin_edge N n i⌋₊ + 1 : ℕ) : ℝ) := by
      by_cases hc : double_edge N n i ≤ ((⌊bin_edge N n i⌋₊ + 1 : ℕ) : ℝ)
      · have := round32_mono _ _ hd0 hc
        rwa [round32_natCast _ (by omega)] at this
      · have hlt := not_le.mp hc
        have hnear : |double_edge N n i - ((⌊bin_edge N n i⌋₊ + 1 : ℕ) : ℝ)|
            ≤ ((⌊bin_edge N n i⌋₊ + 1 : ℕ) : ℝ) / 2 ^ 26 := by
          rw [abs_of_pos (by linarith)]
          have h1 : bin_edge N n i * (1 + 1 / 2 ^ 42)
              ≤ ((⌊bin_edge N n i⌋₊ + 1 : ℕ) : ℝ) * (1 + 1 / 2 ^ 42) :=
            mul_le_mul_of_nonneg_right hxk.le (by norm_num)
          have h2 : ((⌊bin_edge N n i⌋₊ + 1 : ℕ) : ℝ) / 2 ^ 42
              ≤ ((⌊bin_edge N n i⌋₊ + 1 : ℕ) : ℝ) / 2 ^ 26 :=
            div_le_div_of_nonneg_left hk1pos.le (by positivity)
              (pow_le_pow_right₀ (by norm_num) (by norm_num))
          have e : ((⌊bin_edge N n i⌋₊ + 1 : ℕ) : ℝ) * (1 + 1 / 2 ^ 42)
              = ((⌊bin_edge N n i⌋₊ + 1 : ℕ) : ℝ)
                + ((⌊bin_edge N n i⌋₊ + 1 : ℕ) : ℝ) / 2 ^ 42 := by ring
          linarith
        rw [round32_eq_of_near_natCast _ hk1' (by omega) _ hnear]
    have := Nat.floor_mono hle
    rwa [Nat.floor_natCast] at this

/-- Below `2^24` samples the last stored edge is exactly `num_samples / 2`. -/
theorem float_edge_last (N n : ℕ) (hN : 1 ≤ N) (hN24 : N < 2 ^ 24) (hn : 2 ≤ n)
    (hn24 : n < 2 ^ 24) : float_edge N n N = (n : ℝ) / 2 := by
  have hn53 : n < 2 ^ 53 := lt_trans hn24 (by norm_num)
  obtain ⟨dlo, dhi⟩ := double_edge_near N n N hN hN24 hn hn53 le_rfl
  rw [bin_edge_last N n hN (by omega)] at dlo dhi
  have hnpos : (0 : ℝ) < (n : ℝ) := by
    have : (2 : ℝ) ≤ (n : ℝ) := by exact_mod_cast hn
    linarith
  have e : (n : ℝ) * (2 : ℝ) ^ (-1 : ℤ) = (n : ℝ) / 2 := by
    rw [zpow_neg_one]
    ring
  unfold float_edge
  rw [← e]
  apply round32_eq_of_near_float n (-1) (by omega) hn24 (by norm_num)
  rw [e, abs_le]
  have h2 : (n : ℝ) / 2 / 2 ^ 42 ≤ (n : ℝ) / 2 / 2 ^ 26 :=
    div_le_div_of_nonneg_left (by positivity) (by positivity)
      (pow_le_pow_right₀ (by norm_num) (by norm_num))
  have e1 : (n : ℝ) / 2 * (1 - 1 / 2 ^ 42) = (n : ℝ) / 2 - (n : ℝ) / 2 / 2 ^ 42 := by ring
  have e2 : (n : ℝ) / 2 * (1 + 1 / 2 ^ 42) = (n : ℝ) / 2 + (n : ℝ) / 2 / 2 ^ 42 := by ring
  constructor <;> linarith

/-- For 32 bars and a 1024-sample frame the second edge `2^(9/32)` lies between
`9/8` and `3/2`. -/
theorem bin_edge_one_1024 : 9 / 8 ≤ bin_edge 32 1024 1 ∧ bin_edge 32 1024 1 ≤ 3 / 2 := by
  constructor
  · apply le_bin_edge 32 1024 1 (by norm_num) (by norm_num)
    norm_num
  · apply bin_edge_le 32 1024 1 (by norm_num) (by norm_num) _ (by norm_num)
    norm_num

/-- For 32 bars and a 1024-sample frame the second stored edge lies strictly
between `1` and `2`. -/
theorem float_edge_one_1024 : 1 < float_edge 32 1024 1 ∧ float_edge 32 1024 1 < 2 := by
  obtain ⟨hlo, hhi⟩ := bin_edge_one_1024
  obtain ⟨dlo, dhi⟩ := double_edge_near 32 1024 1 (by norm_num) (by norm_num) (by norm_num)
    (by norm_num) (by norm_num)
  have h1716 : round32 (17 / 16) = 17 / 16 := by
    have := round32_eq_of_near_float 17 (-4) (by norm_num) (by norm_num) (by norm_num)
      (17 / 16) (by norm_num)
    rw [this]
    norm_num
  have h74 : round32 (7 / 4) = 7 / 4 := by
    have := round32_eq_of_near_float 7 (-2) (by norm_num) (by norm_num) (by norm_num)
      (7 / 4) (by norm_num)
    rw [this]
    norm_num
  have a1 : (17 : ℝ) / 16 ≤ double_edge 32 1024 1 := by
    have : (9 : ℝ) / 8 * (1 - 1 / 2 ^ 42) ≤ bin_edge 32 1024 1 * (1 - 1 / 2 ^ 42) :=
      mul_le_mul_of_nonneg_right hlo (by norm_num)
    have c : (17 : ℝ) / 16 ≤ 9 / 8 * (1 - 1 / 2 ^ 42) := by norm_num
    linarith
  have a2 : double_edge 32 1024 1 ≤ 7 / 4 := by
    have : bin_edge 32 1024 1 * (1 + 1 / 2 ^ 42) ≤ 3 / 2 * (1 + 1 / 2 ^ 42) :=
      mul_le_mul_of_nonneg_right hhi (by norm_num)
    have c : (3 : ℝ) / 2 * (1 + 1 / 2 ^ 42) ≤ 7 / 4 := by norm_num
    linarith
  unfold float_edge
  constructor
  · have := round32_mono (17 / 16) _ (by norm_num) a1
    rw [h1716] at this
    linarith
  · have := round32_mono _ (7 / 4) (by linarith) a2
    rw [h74] at this
    linarith

/-- For 32 bars and a 1024-sample frame, bar 0 has the integer range `[1, 1)`. -/
theorem bin_range_bar0_1024 : bin_range 32 1024 0 = some (1, 1) := by
  rw [bin_range_eq 32 1024 0 (by norm_num) (by norm_num) (by norm_num) (by norm_num)
    (by norm_num), float_edge_zero]
  have h := float_edge_one_1024
  have h2 : ⌊float_edge 32 1024 (0 + 1)⌋₊ = 1 := by
    rw [Nat.floor_eq_iff (by linarith [h.1])]
    constructor
    · exact_mod_cast h.1.le
    · norm_num
      exact h.2
  rw [h2]
  simp
/-- For 32 bars and a buffer of 9797 samples the edge of bar 21 lies strictly
between `264 - 2^-17` and `264`. -/
theorem bin_edge_9797_21 :
    263 ≤ bin_edge 32 9797 21 ∧ 264 - 1 / 131072 < bin_edge 32 9797 21 ∧
    bin_edge 32 9797 21 < 264 := by
  refine ⟨?_, ?_, ?_⟩
  · apply le_bin_edge 32 9797 21 (by norm_num) (by norm_num)
    norm_num
  · apply lt_bin_edge 32 9797 21 (by norm_num) (by norm_num)
    norm_num
  · apply bin_edge_lt 32 9797 21 (by norm_num) (by norm_num) _ (by norm_num)
    norm_num

/-- The `double` edge of bar 21 of a 9797-sample buffer lies within `2^-16` of
`264`. -/
theorem double_edge_9797_21 :
    264 - 1 / 65536 < double_edge 32 9797 21 ∧ double_edge 32 9797 21 < 264 + 1 / 65536 := by
  obtain ⟨_, hlo, hhi⟩ := bin_edge_9797_21
  obtain ⟨dlo, dhi⟩ := double_edge_near 32 9797 21 (by norm_num) (by norm_num) (by norm_num)
    (by norm_num) (by norm_num)
  constructor
  · have h1 : ((264 : ℝ) - 1 / 131072) * (1 - 1 / 2 ^ 42)
        ≤ bin_edge 32 9797 21 * (1 - 1 / 2 ^ 42) :=
      mul_le_mul_of_nonneg_right hlo.le (by norm_num)
    have c : (264 : ℝ) - 1 / 65536 < (264 - 1 / 131072) * (1 - 1 / 2 ^ 42) := by norm_num
    linarith
  · have h1 : bin_edge 32 9797 21 * (1 + 1 / 2 ^ 42) ≤ 264 * (1 + 1 / 2 ^ 42) :=
      mul_le_mul_of_nonneg_right hhi.le (by norm_num)
    have c : (264 : ℝ) * (1 + 1 / 2 ^ 42) < 264 + 1 / 65536 := by norm_num
    linarith

/-- The store rounds the edge of bar 21 of a 9797-sample buffer up to `264`. -/
theorem float_edge_9797_21 : float_edge 32 9797 21 = 264 := by
  obtain ⟨hlo, hhi⟩ := double_edge_9797_21
  unfold float_edge
  rw [round32_eq_of_near (double_edge 32 9797 21) 8 8650752 (by norm_num)
    (by norm_num; linarith) (by norm_num; linarith)]
  · norm_num
  · rw [abs_lt]
    norm_num
    constructor <;> linarith

/-- C3 (counterexample): for 32 bars and a buffer of 9797 samples (4898.5
usable bins) the code's integer range of bar 21 starts at `264`, because the
store into the `float` rounds `263.999994` up to `264.0`, while
`floor(2^(21 * log2(4898.5) / 32))` is `263`. -/
theorem bin_range_float_counterexample :
    (∃ e, bin_range 32 9797 21 = some (264, e)) ∧
    (bin_range_spec 21 32 (((9797 : ℕ) : ℝ) / 2)).1 = 263 := by
  constructor
  · refine ⟨⌊float_edge 32 9797 (21 + 1)⌋₊, ?_⟩
    rw [bin_range_eq 32 9797 21 (by norm_num) (by norm_num) (by norm_num) (by norm_num)
      (by norm_num), float_edge_9797_21]
    simp
  · rw [bin_range_spec_eq]
    obtain ⟨h1, _, h3⟩ := bin_edge_9797_21
    show ⌊bin_edge 32 9797 21⌋₊ = 263
    rw [Nat.floor_eq_iff (bin_edge_pos _ _ _).le]
    constructor
    · exact_mod_cast h1
    · norm_num
      exact h3

/-- C3 (amended): for every bar count `1 ≤ N < 2^24`, every buffer with
`2 ≤ num_samples < 2^24` (so `U = num_samples / 2 ≥ 1`) and every bar `i < N`,
the integer range used by the code is `start = floor(fl(2^(i * log2(U) / N)))`,
`end = floor(fl(2^((i + 1) * log2(U) / N)))`, where `fl` is the value that the
floating-point evaluation stores into the `float`; `start ≤ end` holds; each
bound is the floor of the specification's formula or one more; for `N = 32`,
`U = 512` bar 0 has `start = 1`, `end = 1`. -/
theorem bin_range_float_spec (N n i : ℕ) (hN : 1 ≤ N) (hN24 : N < 2 ^ 24) (hn : 2 ≤ n)
    (hn24 : n < 2 ^ 24) (hi : i < N) :
    bin_range N n i = some (⌊float_edge N n i⌋₊, ⌊float_edge N n (i + 1)⌋₊) ∧
    ⌊float_edge N n i⌋₊ ≤ ⌊float_edge N n (i + 1)⌋₊ ∧
    ((bin_range_spec i N ((n : ℝ) / 2)).1 ≤ ⌊float_edge N n i⌋₊ ∧
      ⌊float_edge N n i⌋₊ ≤ (bin_range_spec i N ((n : ℝ) / 2)).1 + 1) ∧
    ((bin_range_spec i N ((n : ℝ) / 2)).2 ≤ ⌊float_edge N n (i + 1)⌋₊ ∧
      ⌊float_edge N n (i + 1)⌋₊ ≤ (bin_range_spec i N ((n : ℝ) / 2)).2 + 1) ∧
    bin_range NUM_BARS BUFFER_SIZE 0 = some (1, 1) := by
  refine ⟨bin_range_eq N n i hN hN24 hn (by omega) hi,
    floor_float_edge_mono N n hn (by omega) i (i + 1) (Nat.le_succ i), ?_, ?_,
    bin_range_bar0_1024⟩
  · rw [bin_range_spec_eq]
    exact floor_float_edge_bounds N n i hN hN24 hn hn24 hi.le
  · rw [bin_range_spec_eq]
    exact floor_float_edge_bounds N n (i + 1) hN hN24 hn hn24 hi

/-- Witness for C3 at `N = 32`, `num_samples = 1024`, bar 5. -/
theorem bin_range_float_spec_witness :
    bin_range 32 1024 5 = some (⌊float_edge 32 1024 5⌋₊, ⌊float_edge 32 1024 (5 + 1)⌋₊) ∧
    ⌊float_edge 32 1024 5⌋₊ ≤ ⌊float_edge 32 1024 (5 + 1)⌋₊ ∧
    ((bin_range_spec 5 32 (((1024 : ℕ) : ℝ) / 2)).1 ≤ ⌊float_edge 32 1024 5⌋₊ ∧
      ⌊float_edge 32 1024 5⌋₊ ≤ (bin_range_spec 5 32 (((1024 : ℕ) : ℝ) / 2)).1 + 1) ∧
    ((bin_range_spec 5 32 (((1024 : ℕ) : ℝ) / 2)).2 ≤ ⌊float_edge 32 1024 (5 + 1)⌋₊ ∧
      ⌊float_edge 32 1024 (5 + 1)⌋₊ ≤ (bin_range_spec 5 32 (((1024 : ℕ) : ℝ) / 2)).2 + 1) ∧
    bin_range NUM_BARS BUFFER_SIZE 0 = some (1, 1) :=
  bin_range_float_spec 32 1024 5 (by decide) (by decide) (by decide) (by decide) (by decide)

/-! ## Loops -/

/-- A loop whose body never fails and preserves `P` returns a state with `P`. -/
theorem foldlM_invariant {σ α : Type} (P : σ → Prop) (f : σ → α → Option σ) (l : List α)
    (h : ∀ s a, a ∈ l → P s → ∃ s', f s a = some s' ∧ P s') (s : σ) (hs : P s) :
    ∃ r, l.foldlM f s = some r ∧ P r := by
  induction l generalizing s with
  | nil => exact ⟨s, rfl, hs⟩
  | cons a l ih =>
    obtain ⟨s', hs', hP⟩ := h s a (List.mem_cons_self a l) hs
    obtain ⟨r, hr, hPr⟩ := ih (fun s b hb => h s b (List.mem_cons_of_mem a hb)) s' hP
    refine ⟨r, ?_, hPr⟩
    rw [List.foldlM_cons, hs']
    exact hr

/-- A loop over `i < k` that rewrites entry `i` from its old value. -/
theorem foldl_update_range {β : Type} (F : ℕ → β → β) (a : ℕ → β) (k : ℕ) (j : ℕ) :
    ((List.range k).foldl (fun m i => Function.update m i (F i (m i))) a) j =
      if j < k then F j (a j) else a j := by
  induction k with
  | zero => simp
  | succ k ih =>
    rw [List.range_succ, List.foldl_append]
    simp only [List.foldl_cons, List.foldl_nil]
    by_cases hjk : j = k
    · subst hjk
      rw [Function.update_same]
      have := ih
      simp only [lt_irrefl, if_false] at this
      rw [this]
      simp
    · rw [Function.update_noteq hjk, ih]
      have h1 : j < k + 1 ↔ j < k := by omega
      simp only [h1]

/-! ## Spectrum analyser -/

/-- One bar of the magnitude loop: the bar is skipped only by the comparison of
the floating-point bounds. -/
theorem magnitude_bar_eq (n : ℕ) (hn : 2 ≤ n) (hn64 : n < 2 ^ 64)
    (out : ℕ → CFloat × CFloat) (st : Magnitudes) (i : ℕ) (hi : i < NUM_BARS) :
    magnitude_bar n out st i =
      if ge (start_bin NUM_BARS n i) (end_bin NUM_BARS n i) then some st
      else some ⟨Function.update st.magnitudes i
          (r32c (bin_sum out ⌊float_edge NUM_BARS n i⌋₊ ⌊float_edge NUM_BARS n (i + 1)⌋₊ /
            r32 ((size_sub ⌊float_edge NUM_BARS n (i + 1)⌋₊ ⌊float_edge NUM_BARS n i⌋₊ : ℕ) : ℝ))),
        if gt (r32c (bin_sum out ⌊float_edge NUM_BARS n i⌋₊ ⌊float_edge NUM_BARS n (i + 1)⌋₊ /
            r32 ((size_sub ⌊float_edge NUM_BARS n (i + 1)⌋₊ ⌊float_edge NUM_BARS n i⌋₊ : ℕ) : ℝ)))
            st.max_magnitude
        then r32c (bin_sum out ⌊float_edge NUM_BARS n i⌋₊ ⌊float_edge NUM_BARS n (i + 1)⌋₊ /
            r32 ((size_sub ⌊float_edge NUM_BARS n (i + 1)⌋₊ ⌊float_edge NUM_BARS n i⌋₊ : ℕ) : ℝ))
        else st.max_magnitude⟩ := by
  unfold magnitude_bar
  rw [bin_range_eq NUM_BARS n i (by decide) (by decide) hn hn64 hi]

/-- The comparison that guards bar 0 of a 1024-sample frame is false. -/
theorem not_ge_bar0_1024 : ¬ ge (start_bin 32 1024 0) (end_bin 32 1024 0) := by
  rw [start_bin_eq 32 1024 0 (by norm_num) (by norm_num) (by norm_num) (by norm_num)
      (by norm_num),
    end_bin_eq 32 1024 0 (by norm_num) (by norm_num) (by norm_num) (by norm_num) (by norm_num),
    float_edge_zero]
  show ¬ le (fin (float_edge 32 1024 (0 + 1))) (fin 1)
  rw [CFloat.le_fin_fin, not_le]
  exact float_edge_one_1024.1

/-- The sum over an empty bin range is the initial `0`. -/
theorem bin_sum_empty (out : ℕ → CFloat × CFloat) (s : ℕ) : bin_sum out s s = fin 0 := by
  simp [bin_sum]

/-- C4 (failing input): for a 1024-sample frame (32 bars, 512 usable bins) and
any spectrum, bar 0 has the empty integer range `[1, 1)` but is not skipped: the
guard compares the floating-point bounds `1.0` and `2^(9/32)`, the bin count
`(size_t)end_bin - (size_t)start_bin` is `0`, the average is `0 / 0`, and the
magnitude stored for bar 0 is NaN, not `0`. -/
theorem degenerate_bar_divides_by_zero (out : ℕ → CFloat × CFloat) (st : Magnitudes) :
    ¬ ge (start_bin NUM_BARS BUFFER_SIZE 0) (end_bin NUM_BARS BUFFER_SIZE 0) ∧
    bin_range NUM_BARS BUFFER_SIZE 0 = some (1, 1) ∧
    size_sub 1 1 = 0 ∧
    bin_sum out 1 1 / ofNat (size_sub 1 1) = nan ∧
    ∃ st', magnitude_bar BUFFER_SIZE out st 0 = some st' ∧ st'.magnitudes 0 = nan := by
  have hsub : size_sub 1 1 = 0 := by simp [size_sub]
  have hdiv0 : bin_sum out 1 1 / ofNat (size_sub 1 1) = nan := by
    rw [hsub, bin_sum_empty]
    simp [CFloat.ofNat]
  have hdiv : r32c (bin_sum out 1 1 / r32 ((size_sub 1 1 : ℕ) : ℝ)) = nan := by
    rw [hsub, bin_sum_empty, Nat.cast_zero, r32_zero, CFloat.zero_div_zero]
    rfl
  have hg : ¬ ge (start_bin NUM_BARS BUFFER_SIZE 0) (end_bin NUM_BARS BUFFER_SIZE 0) :=
    not_ge_bar0_1024
  have hb : bin_range NUM_BARS BUFFER_SIZE 0 = some (1, 1) := bin_range_bar0_1024
  refine ⟨hg, hb, hsub, hdiv0, ?_⟩
  unfold magnitude_bar
  rw [if_neg hg, hb]
  refine ⟨_, rfl, ?_⟩
  simp only [Function.update_same]
  exact hdiv

/-- The floor: every smoothed height is at least `MIN_BAR_HEIGHT`, whatever the
operands (a NaN is replaced by the floor). -/
theorem smooth_update_ge (a b : CFloat) : ge (smooth_update a b) MIN_BAR_HEIGHT := by
  unfold smooth_update MIN_BAR_HEIGHT CFloat.ge
  generalize r32c (r64c (r64c (SMOOTHING_FACTOR * a)
    + r64c (r64c (fin 1 - SMOOTHING_FACTOR) * b))) = X
  cases X <;> simp [CFloat.fmax, CFloat.le]

/-- The third loop, entry by entry. -/
theorem smooth_bars_apply (mags : ℕ → CFloat) (mx : CFloat) (sm : ℕ → CFloat) (j : ℕ) :
    smooth_bars mags mx sm j =
      if j < NUM_BARS then
        smooth_update (r32c (apply_log_scaling (mags j) mx * fin 600)) (sm j)
      else sm j :=
  foldl_update_range
    (fun i x => smooth_update (r32c (apply_log_scaling (mags i) mx * fin 600)) x)
    sm NUM_BARS j

/-- The second loop, entry by entry. -/
theorem apply_bar_weights_apply (w : ℕ → CFloat) (map : List ℕ) (mags : ℕ → CFloat) (j : ℕ) :
    apply_bar_weights w map mags j =
      if j < NUM_BARS then r32c (mags j * w (map.getD j 0)) else mags j :=
  foldl_update_range (fun i x => r32c (x * w (map.getD i 0))) mags NUM_BARS j

/-- The magnitude loop returns for every frame of at least two samples. -/
theorem compute_magnitudes_total (n : ℕ) (hn : 2 ≤ n) (hn64 : n < 2 ^ 64)
    (out : ℕ → CFloat × CFloat) : ∃ st, compute_magnitudes n out = some st := by
  obtain ⟨r, hr, _⟩ := foldlM_invariant (fun _ : Magnitudes => True)
    (magnitude_bar n out) (List.range NUM_BARS)
    (fun st i hi _ => by
      rw [magnitude_bar_eq n hn hn64 out st i (List.mem_range.mp hi)]
      split
      · exact ⟨_, rfl, trivial⟩
      · exact ⟨_, rfl, trivial⟩)
    ⟨fun _ => fin 0, fin 0⟩ trivial
  exact ⟨r, hr⟩

/-- The summand of a zero bin is zero. -/
theorem bin_magnitude_zero (out : ℕ → CFloat × CFloat) (j : ℕ) (h : out j = (fin 0, fin 0)) :
    bin_magnitude out j = fin 0 := by
  simp [bin_magnitude, h, CFloat.sqrt, r32c, r32_zero, r64c, r64_zero]

/-- The bin sum of a zero spectrum is zero. -/
theorem bin_sum_zero (out : ℕ → CFloat × CFloat) (h : ∀ j, out j = (fin 0, fin 0))
    (s e : ℕ) : bin_sum out s e = fin 0 := by
  unfold bin_sum
  generalize List.range' s (e - s) = l
  induction l with
  | nil => rfl
  | cons a l ih =>
    rw [List.foldl_cons, bin_magnitude_zero out a (h a)]
    simpa [r32c, r32_zero, r64c, r64_zero] using ih

/-- The average taken over `c` bins of a zero spectrum is `0`, or NaN when
`c = 0`. -/
theorem zero_div_count (c : ℕ) :
    r32c (fin 0 / r32 (c : ℝ)) = nan ∨ r32c (fin 0 / r32 (c : ℝ)) = fin 0 := by
  unfold r32
  split
  · right
    show r32c (CFloat.div (fin 0) pinf) = fin 0
    simp [CFloat.div, r32c, r32_zero]
  · split
    · right
      show r32c (CFloat.div (fin 0) ninf) = fin 0
      simp [CFloat.div, r32c, r32_zero]
    · by_cases hz : round32 (c : ℝ) = 0
      · left
        rw [hz, CFloat.zero_div_zero]
        rfl
      · right
        rw [CFloat.fin_div_fin _ _ hz]
        simp [r32c, r32_zero]

/-- For a zero spectrum every magnitude is `0` or NaN and the maximum is `0`. -/
theorem compute_magnitudes_zero (n : ℕ) (hn : 2 ≤ n) (hn64 : n < 2 ^ 64)
    (out : ℕ → CFloat × CFloat) (h : ∀ j, out j = (fin 0, fin 0)) :
    ∃ st, compute_magnitudes n out = some st ∧
      (∀ i, st.magnitudes i = nan ∨ st.magnitudes i = fin 0) ∧ st.max_magnitude = fin 0 := by
  refine foldlM_invariant
    (fun st : Magnitudes =>
      (∀ i, st.magnitudes i = nan ∨ st.magnitudes i = fin 0) ∧ st.max_magnitude = fin 0)
    (magnitude_bar n out) (List.range NUM_BARS) ?_ ⟨fun _ => fin 0, fin 0⟩
    ⟨fun _ => Or.inr rfl, rfl⟩
  intro st i hi hst
  rw [magnitude_bar_eq n hn hn64 out st i (List.mem_range.mp hi)]
  split
  · exact ⟨_, rfl, hst⟩
  · refine ⟨_, rfl, ?_, ?_⟩
    · intro k
      by_cases hk : k = i
      · subst hk
        simp only [Function.update_same, bin_sum_zero out h]
        exact zero_div_count _
      · simp only [Function.update_noteq hk]
        exact hst.1 k
    · simp only [bin_sum_zero out h, hst.2]
      rcases zero_div_count
        (size_sub ⌊float_edge NUM_BARS n (i + 1)⌋₊ ⌊float_edge NUM_BARS n i⌋₊) with hz | hz
      · rw [hz]
        simp [CFloat.gt]
      · rw [hz]
        simp [CFloat.gt]

/-- A magnitude that is `0` or NaN stays so under any gain. -/
theorem zero_or_nan_mul (m w : CFloat) (h : m = nan ∨ m = fin 0) :
    r32c (m * w) = nan ∨ r32c (m * w) = fin 0 := by
  rcases h with h | h
  · left
    rw [h]
    simp [r32c]
  · rw [h]
    cases w with
    | nan => left; simp [r32c]
    | ninf => left; show r32c (CFloat.mul (fin 0) ninf) = nan; simp [CFloat.mul, r32c]
    | pinf => left; show r32c (CFloat.mul (fin 0) pinf) = nan; simp [CFloat.mul, r32c]
    | fin y => right; simp [r32c, r32_zero]

/-- The smoothing update for a magnitude that is `0` or NaN, with a zero maximum
and a previous height of `0` or `5`, gives exactly `5`. -/
theorem smooth_update_silent (m prev : CFloat) (hm : m = nan ∨ m = fin 0)
    (hp : prev = fin 0 ∨ prev = fin 5) :
    smooth_update (r32c (apply_log_scaling m (fin 0) * fin 600)) prev = fin 5 := by
  rcases hm with hm | hm
  · rw [hm, apply_log_scaling_max_zero_cases]
    simp [smooth_update, MIN_BAR_HEIGHT, CFloat.fmax, r32c, r64c]
  · rw [hm, apply_log_scaling_max_zero_cases]
    simp only [le_refl, if_true, CFloat.fin_mul_fin, zero_mul, r32c, r32_zero]
    rcases hp with hp | hp
    · rw [hp, smooth_update_zero 0 le_rfl (by norm_num)]
    · rw [hp, smooth_update_zero 5 (by norm_num) le_rfl]

/-- One tick on a zero spectrum puts every bar at exactly `5`. -/
theorem visualize_equalizer_silent (n : ℕ) (hn : 2 ≤ n) (hn64 : n < 2 ^ 64)
    (out : ℕ → CFloat × CFloat)
    (h : ∀ j, out j = (fin 0, fin 0)) (w : ℕ → CFloat) (map : List ℕ) (sm : ℕ → CFloat)
    (hsm : ∀ i, i < NUM_BARS → sm i = fin 0 ∨ sm i = fin 5) :
    ∃ sm', visualize_equalizer out n w map sm = some sm' ∧ ∀ i, i < NUM_BARS → sm' i = fin 5 := by
  obtain ⟨st, hst, hmag, hmax⟩ := compute_magnitudes_zero n hn hn64 out h
  refine ⟨_, by rw [visualize_equalizer, hst], ?_⟩
  intro i hi
  rw [smooth_bars_apply, if_pos hi, hmax, apply_bar_weights_apply, if_pos hi]
  exact smooth_update_silent _ _ (zero_or_nan_mul _ _ (hmag i)) (hsm i hi)

/-- One tick on any spectrum leaves every bar at or above `MIN_BAR_HEIGHT`. -/
theorem visualize_equalizer_ge (n : ℕ) (hn : 2 ≤ n) (hn64 : n < 2 ^ 64)
    (out : ℕ → CFloat × CFloat)
    (w : ℕ → CFloat) (map : List ℕ) (sm : ℕ → CFloat) :
    ∃ sm', visualize_equalizer out n w map sm = some sm' ∧
      ∀ i, i < NUM_BARS → ge (sm' i) MIN_BAR_HEIGHT := by
  obtain ⟨st, hst⟩ := compute_magnitudes_total n hn hn64 out
  refine ⟨_, by rw [visualize_equalizer, hst], ?_⟩
  intro i hi
  rw [smooth_bars_apply, if_pos hi]
  exact smooth_update_ge _ _

/-- Every tick of the visualiser on 1024-sample frames returns. -/
theorem run_ticks_total (out : ℕ → ℕ → CFloat × CFloat) (w : ℕ → CFloat) (map : List ℕ)
    (t : ℕ) : ∃ sm, run_ticks out BUFFER_SIZE w map t = some sm := by
  induction t with
  | zero => exact ⟨_, rfl⟩
  | succ t ih =>
    obtain ⟨sm, hsm⟩ := ih
    obtain ⟨sm', hsm', _⟩ := visualize_equalizer_ge BUFFER_SIZE (by decide) (by decide) (out t) w map sm
    exact ⟨sm', by rw [run_ticks, hsm]; exact hsm'⟩

/-- C8: for frames of 1024 zero samples (whose spectrum is zero) and any gains,
from the initial state (all heights 0) every one of the 32 bars has smoothed
height exactly 5 after the first tick and after every further tick; and for
any frames at all, every tick returns with every smoothed height at least
`MIN_BAR_HEIGHT = 5`. -/
theorem silent_frame_floor (r2c : ℕ → List CFloat → ℕ → CFloat × CFloat)
    (hzero : ∀ j, r2c BUFFER_SIZE (List.replicate BUFFER_SIZE (fin 0)) j = (fin 0, fin 0))
    (w : ℕ → CFloat) (map : List ℕ) :
    (∀ t, ∃ sm, run_ticks (fun _ => r2c BUFFER_SIZE (List.replicate BUFFER_SIZE (fin 0)))
        BUFFER_SIZE w map (t + 1) = some sm ∧ ∀ i, i < NUM_BARS → sm i = fin 5) ∧
    (∀ (out : ℕ → ℕ → CFloat × CFloat) (t : ℕ),
      ∃ sm, run_ticks out BUFFER_SIZE w map (t + 1) = some sm ∧
        ∀ i, i < NUM_BARS → ge (sm i) MIN_BAR_HEIGHT) := by
  constructor
  · intro t
    induction t with
    | zero =>
      obtain ⟨sm', hsm', h5⟩ := visualize_equalizer_silent BUFFER_SIZE (by decide) (by decide) _ hzero w map
        smoothed_heights_init (fun _ _ => Or.inl rfl)
      exact ⟨sm', by rw [run_ticks, run_ticks]; exact hsm', h5⟩
    | succ t ih =>
      obtain ⟨sm, hsm, h5⟩ := ih
      obtain ⟨sm', hsm', h5'⟩ := visualize_equalizer_silent BUFFER_SIZE (by decide) (by decide) _ hzero w map
        sm (fun i hi => Or.inr (h5 i hi))
      exact ⟨sm', by rw [run_ticks, hsm]; exact hsm', h5'⟩
  · intro out t
    obtain ⟨sm, hsm⟩ := run_ticks_total out w map t
    obtain ⟨sm', hsm', hge⟩ := visualize_equalizer_ge BUFFER_SIZE (by decide) (by decide) (out t) w map sm
    exact ⟨sm', by rw [run_ticks, hsm]; exact hsm', hge⟩

/-- Witness for C8: a transform that copies the samples into the real parts,
unit gains and the band map of the program. -/
theorem silent_frame_floor_witness :
    (∀ j, (fun (_ : ℕ) (frame : List CFloat) (k : ℕ) => (frame.getD k (fin 0), fin 0))
        BUFFER_SIZE (List.replicate BUFFER_SIZE (fin 0)) j = (fin 0, fin 0)) ∧
    ((∀ t, ∃ sm, run_ticks
        (fun _ => (fun (_ : ℕ) (frame : List CFloat) (k : ℕ) => (frame.getD k (fin 0), fin 0))
          BUFFER_SIZE (List.replicate BUFFER_SIZE (fin 0)))
        BUFFER_SIZE (fun _ => fin 1) (List.replicate 32 0) (t + 1) = some sm ∧
        ∀ i, i < NUM_BARS → sm i = fin 5) ∧
    (∀ (out : ℕ → ℕ → CFloat × CFloat) (t : ℕ),
      ∃ sm, run_ticks out BUFFER_SIZE (fun _ => fin 1) (List.replicate 32 0) (t + 1) = some sm ∧
        ∀ i, i < NUM_BARS → ge (sm i) MIN_BAR_HEIGHT)) :=
  have hz : ∀ j, (fun (_ : ℕ) (frame : List CFloat) (k : ℕ) => (frame.getD k (fin 0), fin 0))
      BUFFER_SIZE (List.replicate BUFFER_SIZE (fin 0)) j = (fin 0, fin 0) := by
    intro j
    simp only [List.getD_eq_getElem?_getD, List.getElem?_replicate]
    split <;> rfl
  ⟨hz, silent_frame_floor
    (fun (_ : ℕ) (frame : List CFloat) (k : ℕ) => (frame.getD k (fin 0), fin 0)) hz
    (fun _ => fin 1) (List.replicate 32 0)⟩

/-! ## Spectral filter -/

/-- The first truncated stored edge is `1`. -/
theorem floor_float_edge_zero (N n : ℕ) : ⌊float_edge N n 0⌋₊ = 1 := by
  rw [float_edge_zero]
  simp

/-- For fewer than `2^24` samples the last stored edge is exactly
`num_samples / 2`, and its truncation is the integer quotient. -/
theorem floor_float_edge_last (N n : ℕ) (hN : 1 ≤ N) (hN24 : N < 2 ^ 24) (hn : 2 ≤ n)
    (hn24 : n < 2 ^ 24) : ⌊float_edge N n N⌋₊ = n / 2 := by
  rw [float_edge_last N n hN hN24 hn hn24]
  have h := Nat.floor_div_eq_div (α := ℝ) n 2
  simpa using h

/-- Membership in the integer bin range of a bar, by the truncated stored
edges. -/
theorem in_bin_range_iff (N n i j : ℕ) (hN : 1 ≤ N) (hN24 : N < 2 ^ 24) (hn : 2 ≤ n)
    (hn64 : n < 2 ^ 64) (hi : i < N) :
    in_bin_range N n i j ↔ ⌊float_edge N n i⌋₊ ≤ j ∧ j < ⌊float_edge N n (i + 1)⌋₊ := by
  unfold in_bin_range
  rw [bin_range_eq N n i hN hN24 hn hn64 hi]
  constructor
  · rintro ⟨s, e, h, hs, he⟩
    simp only [Option.some.injEq, Prod.mk.injEq] at h
    rw [h.1, h.2]
    exact ⟨hs, he⟩
  · rintro ⟨hs, he⟩
    exact ⟨_, _, rfl, hs, he⟩

/-- A value between the first and the last of a sequence of edges lies between
two consecutive edges. -/
theorem exists_edge_interval (f : ℕ → ℕ) (j k : ℕ) (h0 : f 0 ≤ j) (hk : j < f k) :
    ∃ i, i < k ∧ f i ≤ j ∧ j < f (i + 1) := by
  induction k with
  | zero => omega
  | succ k ih =>
    by_cases h : j < f k
    · obtain ⟨i, hi, h1, h2⟩ := ih h
      exact ⟨i, by omega, h1, h2⟩
    · exact ⟨k, by omega, by omega, hk⟩

/-- The inner loop of the filter, bin by bin. -/
theorem foldl_scale_bin (w : CFloat) (k s : ℕ) (freq : ℕ → CFloat × CFloat) (j : ℕ) :
    (List.range' s k).foldl (scale_bin w) freq j =
      if s ≤ j ∧ j < s + k then (r32c ((freq j).1 * w), r32c ((freq j).2 * w)) else freq j := by
  induction k generalizing s freq with
  | zero =>
    have h1 : ¬ (s ≤ j ∧ j < s + 0) := by omega
    rw [if_neg h1]
    rfl
  | succ k ih =>
    rw [List.range'_succ, List.foldl_cons, ih]
    by_cases hjs : j = s
    · subst hjs
      have h1 : ¬ (j + 1 ≤ j ∧ j < j + 1 + k) := by omega
      have h2 : j ≤ j ∧ j < j + (k + 1) := by omega
      rw [if_neg h1, if_pos h2]
      simp [scale_bin]
    · have h1 : (s + 1 ≤ j ∧ j < s + 1 + k) ↔ (s ≤ j ∧ j < s + (k + 1)) := by omega
      have h3 : scale_bin w freq s j = freq j := by
        unfold scale_bin
        exact Function.update_noteq hjs _ _
      simp only [h1, h3]

/-- One bar of the scaling loop: the bins of its integer range are multiplied by
the gain of its band, the others are untouched. -/
theorem filter_bar_apply (n : ℕ) (hn : 2 ≤ n) (hn64 : n < 2 ^ 64) (w : ℕ → CFloat)
    (map : List ℕ) (freq : ℕ → CFloat × CFloat) (i : ℕ) (hi : i < NUM_BARS) :
    ∃ g, filter_bar n w map freq i = some g ∧
      ∀ j, g j =
        if ⌊float_edge NUM_BARS n i⌋₊ ≤ j ∧ j < ⌊float_edge NUM_BARS n (i + 1)⌋₊
        then (r32c ((freq j).1 * w (map.getD i 0)), r32c ((freq j).2 * w (map.getD i 0)))
        else freq j := by
  unfold filter_bar
  by_cases hg : ge (start_bin NUM_BARS n i) (end_bin NUM_BARS n i)
  · rw [if_pos hg]
    refine ⟨freq, rfl, fun j => ?_⟩
    rw [start_bin_eq NUM_BARS n i (by decide) (by decide) hn hn64 hi.le,
      end_bin_eq NUM_BARS n i (by decide) (by decide) hn hn64 hi] at hg
    have hle : float_edge NUM_BARS n (i + 1) ≤ float_edge NUM_BARS n i := by
      have : le (fin (float_edge NUM_BARS n (i + 1))) (fin (float_edge NUM_BARS n i)) := hg
      simpa using this
    have hfl := Nat.floor_mono hle
    have h1 : ¬ (⌊float_edge NUM_BARS n i⌋₊ ≤ j ∧ j < ⌊float_edge NUM_BARS n (i + 1)⌋₊) := by
      omega
    rw [if_neg h1]
  · rw [if_neg hg, bin_range_eq NUM_BARS n i (by decide) (by decide) hn hn64 hi]
    refine ⟨_, rfl, fun j => ?_⟩
    rw [foldl_scale_bin]
    have h1 : (⌊float_edge NUM_BARS n i⌋₊ ≤ j ∧
        j < ⌊float_edge NUM_BARS n i⌋₊ +
          (⌊float_edge NUM_BARS n (i + 1)⌋₊ - ⌊float_edge NUM_BARS n i⌋₊))
        ↔ (⌊float_edge NUM_BARS n i⌋₊ ≤ j ∧ j < ⌊float_edge NUM_BARS n (i + 1)⌋₊) := by omega
    simp only [h1]

/-- The scaling loop after the first `k` bars. -/
theorem apply_weights_bars (n : ℕ) (hn : 2 ≤ n) (hn64 : n < 2 ^ 64) (w : ℕ → CFloat)
    (map : List ℕ) (freq : ℕ → CFloat × CFloat) (k : ℕ) (hk : k ≤ NUM_BARS) :
    ∃ g, (List.range k).foldlM (filter_bar n w map) freq = some g ∧
      (∀ j, j < ⌊float_edge NUM_BARS n 0⌋₊ ∨ ⌊float_edge NUM_BARS n k⌋₊ ≤ j → g j = freq j) ∧
      (∀ i j, i < k → ⌊float_edge NUM_BARS n i⌋₊ ≤ j → j < ⌊float_edge NUM_BARS n (i + 1)⌋₊ →
        g j = (r32c ((freq j).1 * w (map.getD i 0)), r32c ((freq j).2 * w (map.getD i 0)))) := by
  induction k with
  | zero => exact ⟨freq, rfl, fun _ _ => rfl, fun i j hi => by omega⟩
  | succ k ih =>
    obtain ⟨g, hg, hout, hin⟩ := ih (by omega)
    obtain ⟨g', hg', hval⟩ := filter_bar_apply n hn hn64 w map g k (by omega)
    have hm0 := floor_float_edge_mono NUM_BARS n hn hn64 0 k (Nat.zero_le k)
    have hm1 := floor_float_edge_mono NUM_BARS n hn hn64 k (k + 1) (Nat.le_succ k)
    refine ⟨g', ?_, ?_, ?_⟩
    · rw [List.range_succ, List.foldlM_append, hg]
      show List.foldlM (filter_bar n w map) g [k] = some g'
      rw [List.foldlM_cons, hg']
      rfl
    · intro j hj
      have h1 : ¬ (⌊float_edge NUM_BARS n k⌋₊ ≤ j ∧ j < ⌊float_edge NUM_BARS n (k + 1)⌋₊) := by
        omega
      rw [hval j, if_neg h1]
      exact hout j (by omega)
    · intro i j hi hs he
      by_cases hik : i = k
      · subst hik
        rw [hval j, if_pos ⟨hs, he⟩, hout j (Or.inr hs)]
      · have hlt : i < k := by omega
        have hm2 := floor_float_edge_mono NUM_BARS n hn hn64 (i + 1) k (by omega)
        have h1 : ¬ (⌊float_edge NUM_BARS n k⌋₊ ≤ j ∧
            j < ⌊float_edge NUM_BARS n (k + 1)⌋₊) := by
          omega
        rw [hval j, if_neg h1]
        exact hin i j hlt hs he

/-- For a buffer of 33554435 samples the last stored edge is `16777218`: the
number of usable bins `16777217.5` is not a binary32 value. -/
theorem float_edge_last_33554435 : float_edge 32 33554435 32 = 16777218 := by
  obtain ⟨dlo, dhi⟩ := double_edge_near 32 33554435 32 (by norm_num) (by norm_num)
    (by norm_num) (by norm_num) (by norm_num)
  rw [bin_edge_last 32 33554435 (by norm_num) (by norm_num)] at dlo dhi
  have c1 : (16777217 : ℝ) < ((33554435 : ℕ) : ℝ) / 2 * (1 - 1 / 2 ^ 42) := by norm_num
  have c2 : ((33554435 : ℕ) : ℝ) / 2 * (1 + 1 / 2 ^ 42) < 16777218 := by norm_num
  unfold float_edge
  rw [round32_eq_of_near _ 24 8388609 (by norm_num) (by norm_num; linarith)
    (by norm_num; linarith)]
  · norm_num
  · rw [abs_lt]
    norm_num
    constructor <;> linarith

/-- For a buffer of 33554435 samples the stored edge of bar 31 is at most
`2^24`. -/
theorem float_edge_31_33554435 : float_edge 32 33554435 31 ≤ 16777216 := by
  have h1 : bin_edge 32 33554435 31 ≤ 16000000 := by
    apply bin_edge_le 32 33554435 31 (by norm_num) (by norm_num) _ (by positivity)
    norm_num
  obtain ⟨dlo, dhi⟩ := double_edge_near 32 33554435 31 (by norm_num) (by norm_num)
    (by norm_num) (by norm_num) (by norm_num)
  have h2 : bin_edge 32 33554435 31 * (1 + 1 / 2 ^ 42) ≤ 16000000 * (1 + 1 / 2 ^ 42) :=
    mul_le_mul_of_nonneg_right h1 (by norm_num)
  have c : (16000000 : ℝ) * (1 + 1 / 2 ^ 42) ≤ (2 : ℝ) ^ (24 : ℤ) := by norm_num
  have hd0 : 0 ≤ double_edge 32 33554435 31 := by
    have : 0 ≤ bin_edge 32 33554435 31 * (1 - 1 / 2 ^ 42) :=
      mul_nonneg (bin_edge_pos _ _ _).le (by norm_num)
    linarith
  have h3 := round32_mono _ ((2 : ℝ) ^ (24 : ℤ)) hd0 (by linarith)
  rw [round32_two_zpow 24 (by norm_num)] at h3
  unfold float_edge
  norm_num at h3
  exact h3

/-- C9 (counterexample): for a buffer of 33554435 samples (`U = 16777217.5`) the
integer range of bar 31 contains bin `16777217 = floor(U)`, because the stored
last edge is `16777218`; the scaling loop multiplies that bin by the gain of
bar 31 although it is not among the bins `1 ≤ j < floor(U)`. -/
theorem filter_bin_coverage_counterexample :
    in_bin_range NUM_BARS 33554435 31 16777217 ∧ ¬ (16777217 < 33554435 / 2) ∧
    ∀ (w : ℕ → CFloat) (map : List ℕ) (freq : ℕ → CFloat × CFloat),
      ∃ g, apply_weights 33554435 w map freq = some g ∧
        g 16777217 = (r32c ((freq 16777217).1 * w (map.getD 31 0)),
                      r32c ((freq 16777217).2 * w (map.getD 31 0))) := by
  have hlo : ⌊float_edge NUM_BARS 33554435 31⌋₊ ≤ 16777217 := by
    have h := Nat.floor_mono float_edge_31_33554435
    have e : ⌊(16777216 : ℝ)⌋₊ = 16777216 := by simp
    rw [e] at h
    exact le_trans h (by norm_num)
  have hhi : 16777217 < ⌊float_edge NUM_BARS 33554435 (31 + 1)⌋₊ := by
    have e : float_edge NUM_BARS 33554435 (31 + 1) = 16777218 := float_edge_last_33554435
    rw [e]
    have : ⌊(16777218 : ℝ)⌋₊ = 16777218 := by simp
    rw [this]
    norm_num
  have hmem : in_bin_range NUM_BARS 33554435 31 16777217 :=
    (in_bin_range_iff NUM_BARS 33554435 31 16777217 (by decide) (by decide) (by norm_num)
      (by norm_num) (by decide)).mpr ⟨hlo, hhi⟩
  refine ⟨hmem, by norm_num, fun w map freq => ?_⟩
  obtain ⟨g, hg, _, hin⟩ :=
    apply_weights_bars 33554435 (by norm_num) (by norm_num) w map freq NUM_BARS le_rfl
  exact ⟨g, hg, hin 31 16777217 (by decide) hlo hhi⟩

/-- C9 (amended): with 32 bars and `2 ≤ num_samples < 2^24` (so that the number
of usable bins `U = num_samples / 2 ≥ 1` is a binary32 value), the integer bin
ranges of bars 0..31 are pairwise disjoint and their union is exactly the bins
`j` with `1 ≤ j < num_samples / 2`; the scaling loop of
`apply_frequency_filter` returns, multiplies every such bin once by
`frequency_weights[bar_to_range_map[i]]` for the bar `i` whose range contains
it, and leaves bin 0 and the bins from `num_samples / 2` on unchanged. -/
theorem filter_bin_coverage (n : ℕ) (hn : 2 ≤ n) (hn24 : n < 2 ^ 24) (w : ℕ → CFloat)
    (map : List ℕ) (freq : ℕ → CFloat × CFloat) :
    (∀ j, (∃ i, i < NUM_BARS ∧ in_bin_range NUM_BARS n i j) ↔ (1 ≤ j ∧ j < n / 2)) ∧
    (∀ i i' j, i < NUM_BARS → i' < NUM_BARS →
      in_bin_range NUM_BARS n i j → in_bin_range NUM_BARS n i' j → i = i') ∧
    ∃ g, apply_weights n w map freq = some g ∧ g 0 = freq 0 ∧
      (∀ j, n / 2 ≤ j → g j = freq j) ∧
      ∀ i j, i < NUM_BARS → in_bin_range NUM_BARS n i j →
        g j = (r32c ((freq j).1 * w (map.getD i 0)), r32c ((freq j).2 * w (map.getD i 0))) := by
  have hn1 : 1 ≤ n := by omega
  have hn64 : n < 2 ^ 64 := lt_trans hn24 (by norm_num)
  have hN : 1 ≤ NUM_BARS := by decide
  have hN24 : NUM_BARS < 2 ^ 24 := by decide
  have h0 := floor_float_edge_zero NUM_BARS n
  have hlast := floor_float_edge_last NUM_BARS n hN hN24 hn hn24
  refine ⟨fun j => ⟨?_, ?_⟩, ?_, ?_⟩
  · rintro ⟨i, hi, hin⟩
    rw [in_bin_range_iff NUM_BARS n i j hN hN24 hn hn64 hi] at hin
    have hm0 := floor_float_edge_mono NUM_BARS n hn hn64 0 i (Nat.zero_le i)
    have hm1 := floor_float_edge_mono NUM_BARS n hn hn64 (i + 1) NUM_BARS hi
    omega
  · rintro ⟨h1, h2⟩
    obtain ⟨i, hi, hs, he⟩ := exists_edge_interval (fun i => ⌊float_edge NUM_BARS n i⌋₊) j
      NUM_BARS (by simp only [h0]; exact h1) (by simp only [hlast]; exact h2)
    exact ⟨i, hi, (in_bin_range_iff NUM_BARS n i j hN hN24 hn hn64 hi).mpr ⟨hs, he⟩⟩
  · intro i i' j hi hi' hin hin'
    rw [in_bin_range_iff NUM_BARS n i j hN hN24 hn hn64 hi] at hin
    rw [in_bin_range_iff NUM_BARS n i' j hN hN24 hn hn64 hi'] at hin'
    by_contra hne
    rcases Nat.lt_or_gt_of_ne hne with hlt | hlt
    · have := floor_float_edge_mono NUM_BARS n hn hn64 (i + 1) i' hlt
      omega
    · have := floor_float_edge_mono NUM_BARS n hn hn64 (i' + 1) i hlt
      omega
  · obtain ⟨g, hg, hout, hin⟩ := apply_weights_bars n hn hn64 w map freq NUM_BARS le_rfl
    refine ⟨g, hg, hout 0 (Or.inl (by omega)), fun j hj => hout j (Or.inr (by omega)), ?_⟩
    intro i j hi hmem
    rw [in_bin_range_iff NUM_BARS n i j hN hN24 hn hn64 hi] at hmem
    exact hin i j hi hmem.1 hmem.2

/-- Witness for C9: a 1024-sample frame, unit gains, a zero spectrum. -/
theorem filter_bin_coverage_witness :
    (∀ j, (∃ i, i < NUM_BARS ∧ in_bin_range NUM_BARS 1024 i j) ↔ (1 ≤ j ∧ j < 1024 / 2)) ∧
    (∀ i i' j, i < NUM_BARS → i' < NUM_BARS →
      in_bin_range NUM_BARS 1024 i j → in_bin_range NUM_BARS 1024 i' j → i = i') ∧
    ∃ g, apply_weights 1024 (fun _ => fin 1) (List.replicate 32 0) (fun _ => (fin 0, fin 0))
        = some g ∧ g 0 = (fun _ => (fin 0, fin 0)) 0 ∧
      (∀ j, 1024 / 2 ≤ j → g j = (fun _ => (fin 0, fin 0)) j) ∧
      ∀ i j, i < NUM_BARS → in_bin_range NUM_BARS 1024 i j →
        g j = (r32c ((((fun _ => (fin 0, fin 0)) : ℕ → CFloat × CFloat) j).1 *
                (fun _ => fin 1) ((List.replicate 32 0).getD i 0)),
               r32c ((((fun _ => (fin 0, fin 0)) : ℕ → CFloat × CFloat) j).2 *
                (fun _ => fin 1) ((List.replicate 32 0).getD i 0))) :=
  filter_bin_coverage 1024 (by decide) (by decide) (fun _ => fin 1) (List.replicate 32 0)
    (fun _ => (fin 0, fin 0))

end

end Equalizer
